import Mathlib

/-!
# Verification of the accessibility-routing engine

A shallow embedding of the routing engine of `seattleaccessmap`
(`src/frontend/errors.js`, second module: graph load, nearest-node lookup,
binary-heap Dijkstra, path reconstruction to geometry, and route statistics),
together with proofs of the specified properties.

Conventions of the embedding:
* JavaScript numbers are modelled as rationals (`ℚ`).
* JavaScript objects used as string-keyed maps are modelled as association
  lists looked up at their first matching key (object keys are unique in the
  actual data, so first-match lookup agrees with object lookup).
* `undefined` is modelled with `Option`; a thrown exception is modelled with
  `Except` (`JsError.typeError` standing for a runtime `TypeError`).
* Node ids are kept generic (`α` with decidable equality) in the core
  algorithm; the loaded graph uses `String` ids, and `calculateRoute` runs the
  core at type `Option String` because `findNearestNode` can return
  `undefined` (modelled `none`) on an empty graph and the JavaScript code
  passes that value straight into the search.
-/

namespace SeattleAccessMap

/-- Bounded linear search for the integer square root (structural
recursion, so concrete values compute by rewriting). -/
def sqrtGo (n : ℕ) : ℕ → ℕ → ℕ
  | 0, acc => acc
  | fuel + 1, acc =>
    if (acc + 1) * (acc + 1) ≤ n then sqrtGo n fuel (acc + 1) else acc

/-- The integer square root (`sqrtGo` run with fuel `n ≥ √n`). -/
def natSqrt (n : ℕ) : ℕ := sqrtGo n n 0

/-- Square root on `ℚ`, by integer square roots of numerator and denominator.
This is exact exactly on squares of rationals whose reduced numerator and
denominator are perfect squares; every concrete accessibility cost used in
the development below is such a square, and the general theorems use
`ratSqrt` only through its nonnegativity. -/
def ratSqrt (q : ℚ) : ℚ := (natSqrt q.num.toNat : ℚ) / (natSqrt q.den : ℚ)

/-- `Math.pow c 1.5` from the source, i.e. `c^(3/2) = c * √c`, for the
nonnegative accessibility costs it is applied to.  (A real-valued `c^1.5` is
not representable exactly in `ℚ` for non-square `c`; see `ratSqrt`.) -/
def pow15 (c : ℚ) : ℚ := c * ratSqrt c

/-- The edge-weight function of `dijkstra` and `computeRouteStats`
(`errors.js` lines 147–153 / 244–248):
`weight = length` when `barrierWeight < 0.01`, otherwise
`weight = length + barrierWeight * Math.pow(accCost, 1.5)`. -/
def edgeWeight (bw len cost : ℚ) : ℚ :=
  if bw < 0.01 then len else len + bw * pow15 cost

/-- First-match association-list lookup, the model of JavaScript object
property access `m[k]` (returning `none` for `undefined`). -/
def alookup {κ β : Type} [DecidableEq κ] : List (κ × β) → κ → Option β
  | [], _ => none
  | (k, b) :: t, k' => if k' = k then some b else alookup t k'

/-- `newDist < (dist[v] ?? Infinity)`: an absent distance acts as `Infinity`. -/
def ltOptQ (nd : ℚ) : Option ℚ → Bool
  | none => true
  | some x => decide (nd < x)

/-- `d > (dist[u] ?? Infinity)`: an absent distance acts as `Infinity`,
so the comparison is false. -/
def gtOptQ (d : ℚ) : Option ℚ → Bool
  | none => false
  | some x => decide (x < d)

/-! ## The binary min-heap (`class MinHeap`, `errors.js` lines 26–74)

The heap's backing array `this.data` of `[priority, value]` pairs is
modelled as a `List (ℚ × α)`; `push`, `pop`, `_bubbleUp` and `_sinkDown`
are translated operation for operation. -/

variable {α : Type}

/-- `_bubbleUp(i)`: swap the entry at `i` with its parent while its priority
is strictly smaller.  The index argument `i+1` has parent `i / 2`
(JavaScript `(i - 1) >> 1`). -/
def bubbleUp : List (ℚ × α) → ℕ → List (ℚ × α)
  | d, 0 => d
  | d, i + 1 =>
    let p := i / 2
    match d[i + 1]?, d[p]? with
    | some ci, some cp =>
      if cp.1 ≤ ci.1 then d
      else bubbleUp ((d.set (i + 1) cp).set p ci) p
    | _, _ => d
  termination_by _ i => i
  decreasing_by simpa using Nat.lt_succ_of_le (Nat.div_le_self i 2)

/-- `push(priority, value)`: append and bubble up from the last index. -/
def heapPush (d : List (ℚ × α)) (p : ℚ) (v : α) : List (ℚ × α) :=
  bubbleUp (d ++ [(p, v)]) d.length

/-- Priority stored at index `j`, when the index is in bounds. -/
def priAt (d : List (ℚ × α)) (j : ℕ) : Option ℚ := (d[j]?).map Prod.fst

/-- `j < n && d[j][0] < d[k][0]` (the bound check is subsumed by the
optional access). -/
def ltAt (d : List (ℚ × α)) (j k : ℕ) : Bool :=
  match priAt d j, priAt d k with
  | some a, some b => decide (a < b)
  | _, _ => false

/-- The `smallest` index computed by one `_sinkDown` iteration: the index
among `i` and its in-bounds children holding the smallest priority (`i` on
ties). -/
def sdTarget (d : List (ℚ × α)) (i : ℕ) : ℕ :=
  if ltAt d (2 * i + 2) (if ltAt d (2 * i + 1) i then 2 * i + 1 else i) then
    2 * i + 2
  else if ltAt d (2 * i + 1) i then 2 * i + 1 else i

/-- `_sinkDown(i)`: swap with the smaller child while one is strictly
smaller. -/
def sinkDown (d : List (ℚ × α)) (i : ℕ) : List (ℚ × α) :=
  if hs : sdTarget d i = i then d
  else
    match d[i]?, d[sdTarget d i]? with
    | some ci, some cs => sinkDown ((d.set i cs).set (sdTarget d i) ci) (sdTarget d i)
    | _, _ => d
  termination_by d.length - i
  decreasing_by
    have hlt : ∀ j k : ℕ, ltAt d j k → j < d.length := by
      intro j k hjk
      unfold ltAt priAt at hjk
      cases h₃ : d[j]? with
      | none => rw [h₃] at hjk; simp at hjk
      | some c => exact (List.getElem?_eq_some.mp h₃).1
    have h : i < sdTarget d i ∧ sdTarget d i < d.length := by
      unfold sdTarget at hs ⊢
      split_ifs at hs ⊢ with h₁ h₂ h₃ <;>
        first
        | exact absurd rfl hs
        | exact ⟨by omega, hlt _ _ (by assumption)⟩
    simp only [List.length_set]
    omega

/-- `pop()`: return the root; move the last entry to the root and sink it
down.  Returns `none` on an empty heap (the callers only pop under the
`heap.size > 0` loop guard). -/
def heapPop : List (ℚ × α) → Option ((ℚ × α) × List (ℚ × α))
  | [] => none
  | [x] => some (x, [])
  | x :: y :: t =>
    some (x, sinkDown ((y :: t).getLast (List.cons_ne_nil y t) :: (y :: t).dropLast) 0)

/-! ## Dijkstra (`errors.js` lines 131–177) -/

/-- The mutable search state of one `dijkstra` call: the `dist` and `prev`
objects and the heap's backing array. -/
structure DState (α : Type) where
  dist : α → Option ℚ
  prev : α → Option α
  heap : List (ℚ × α)

variable [DecidableEq α]

/-- The body of the `for (const [v, length, accCost] of neighbors)`
relaxation loop: `u` was popped with priority `d`, and `e = (v, length,
accCost)` is one of its outgoing edges.  On improvement, record the new
distance and predecessor and push a heap entry. -/
def relaxOne (bw d : ℚ) (u : α) (st : DState α) (e : α × ℚ × ℚ) : DState α :=
  let nd := d + edgeWeight bw e.2.1 e.2.2
  if ltOptQ nd (st.dist e.1) then
    { dist := fun x => if x = e.1 then some nd else st.dist x
      prev := fun x => if x = e.1 then some u else st.prev x
      heap := heapPush st.heap nd e.1 }
  else st

/-- The full relaxation loop over `adj[u]`. -/
def relaxNeighbors (bw d : ℚ) (u : α) (ns : List (α × ℚ × ℚ)) (st : DState α) :
    DState α :=
  ns.foldl (relaxOne bw d u) st

/-- The `while (heap.size > 0)` loop, with fuel.  `dijkstra` runs it with
`loopFuel`, which is proved sufficient below (the JavaScript loop always
terminates; the fuel only makes the recursion structural). -/
def dijkstraLoop (adjL : List (α × List (α × ℚ × ℚ))) (bw : ℚ) (endNode : α) :
    ℕ → DState α → DState α
  | 0, st => st
  | fuel + 1, st =>
    match heapPop st.heap with
    | none => st
    | some ((d, u), rest) =>
      let st' : DState α := { st with heap := rest }
      if u = endNode then st'
      else if gtOptQ d (st'.dist u) then dijkstraLoop adjL bw endNode fuel st'
      else
        match alookup adjL u with
        | none => dijkstraLoop adjL bw endNode fuel st'
        | some ns => dijkstraLoop adjL bw endNode fuel (relaxNeighbors bw d u ns st')

/-- The path-reconstruction loop
`while (current !== undefined) { path.push(current); current = prev[current] }`,
with fuel (proved sufficient below).  The loop guard tests the value of
`current` itself, so `isUndef` tells which id values are the JavaScript
`undefined`: no value at real string or numeric ids, the value `none` at the
`Option String` ids `calculateRoute` runs the search on.  An absent `prev`
entry makes the reassigned `current` equal `undefined`, which stops the loop
at its next guard test; that collapses to stopping immediately. -/
def reconstruct (isUndef : α → Bool) (prev : α → Option α) : ℕ → α → List α
  | 0, _ => []
  | fuel + 1, cur =>
    if isUndef cur then []
    else
      cur ::
        (match prev cur with
        | none => []
        | some p => reconstruct isUndef prev fuel p)

/-- Fuel for the main loop: one more than (number of adjacency keys plus
total number of adjacency entries), plus one; proved to dominate the loop's
iteration count. -/
def loopFuel (adjL : List (α × List (α × ℚ × ℚ))) : ℕ :=
  1 + adjL.foldl (fun a p => a + (p.2.length + 1)) 0

/-- Fuel for reconstruction: two more than the total number of adjacency
entries (a predecessor chain never repeats a node). -/
def recFuel (adjL : List (α × List (α × ℚ × ℚ))) : ℕ :=
  2 + adjL.foldl (fun a p => a + p.2.length) 0

/-- `dijkstra(startNode, endNode, barrierWeight)`.  Returns the node path or
`none` (JavaScript `null`) when no path was found.  `isUndef` is the
reconstruction loop's `current !== undefined` value test (see
`reconstruct`). -/
def dijkstra (isUndef : α → Bool) (adjL : List (α × List (α × ℚ × ℚ)))
    (startNode endNode : α) (bw : ℚ) : Option (List α) :=
  let st0 : DState α :=
    { dist := fun x => if x = startNode then some 0 else none
      prev := fun _ => none
      heap := [(0, startNode)] }
  let st := dijkstraLoop adjL bw endNode (loopFuel adjL) st0
  if st.prev endNode = none ∧ startNode ≠ endNode then none
  else some ((reconstruct isUndef st.prev (recFuel adjL) endNode).reverse)

/-! ## Route statistics (`computeRouteStats`, `errors.js` lines 228–267) -/

/-- The statistics record `{ length, barrier_cost, barrier_count }`. -/
structure RouteStats where
  length : ℚ
  barrier_cost : ℚ
  barrier_count : ℕ
  deriving DecidableEq, Repr

/-- The inner scan of `computeRouteStats` over `adj[u]` for the pair
`(u, v)`: keep the `(weight, length, accCost)` of the first strictly best
parallel edge `u → v`; `bestWeight` starts at `Infinity` (`none`),
`bestLength`/`bestAccCost` at `0`. -/
def bestFor (bw : ℚ) (v : α) (ns : List (α × ℚ × ℚ)) : Option ℚ × ℚ × ℚ :=
  ns.foldl
    (fun acc e =>
      if e.1 = v then
        let w := edgeWeight bw e.2.1 e.2.2
        if ltOptQ w acc.1 then (some w, e.2.1, e.2.2) else acc
      else acc)
    (none, 0, 0)

/-- The accumulation loop of `computeRouteStats`.  `none` models the
`TypeError` the JavaScript code throws when some `adj[u]` on the path is
`undefined` (it iterates `adj[u]` without a guard). -/
def statsGo (adjL : List (α × List (α × ℚ × ℚ))) (bw : ℚ) :
    List α → ℚ → ℚ → ℕ → Option RouteStats
  | [], totL, totC, totN => some ⟨totL, totC, totN⟩
  | [_], totL, totC, totN => some ⟨totL, totC, totN⟩
  | u :: v :: rest, totL, totC, totN =>
    match alookup adjL u with
    | none => none
    | some ns =>
      let b := bestFor bw v ns
      statsGo adjL bw (v :: rest) (totL + b.2.1) (totC + b.2.2)
        (totN + if 0 < b.2.2 then 1 else 0)

/-- `computeRouteStats(path, barrierWeight)`. -/
def computeRouteStats (adjL : List (α × List (α × ℚ × ℚ))) (bw : ℚ)
    (path : List α) : Option RouteStats :=
  statsGo adjL bw path 0 0 0

/-! ## Path geometry (`pathToGeoJSON`, `errors.js` lines 179–226)

The output is modelled as the `coordinates` array of the produced
`LineString` (the surrounding `FeatureCollection` wrapper is constant).
Geometry keys `` `${u},${v}` `` are modelled as key pairs `(u, v)`. -/

/-- `[coords[j][1], coords[j][0]]`: stored `[lat, lng]` points are emitted
as `[lng, lat]`. -/
def swapPair (p : ℚ × ℚ) : ℚ × ℚ := (p.2, p.1)

/-- The coordinates contributed by one consecutive pair `(u, v)` of the
path: stored forward geometry, else reversed stored reverse geometry (in
both cases dropping the first emitted point unless this is the path's first
segment), else a straight line between the node coordinates.  In the
fallback the JavaScript code reads `nodes[u]` without a guard; the absent
case (which would throw) is totalised with `(0, 0)` and never arises in the
uses proved below. -/
def geoSegment (nodesL : List (α × ℚ × ℚ))
    (geomL : List ((α × α) × List (ℚ × ℚ))) (first : Bool) (u v : α) :
    List (ℚ × ℚ) :=
  match alookup geomL (u, v) with
  | some coords => (if first then coords else coords.drop 1).map swapPair
  | none =>
    match alookup geomL (v, u) with
    | some coords =>
      (if first then coords.reverse else coords.reverse.drop 1).map swapPair
    | none =>
      (if first then [swapPair ((alookup nodesL u).getD (0, 0))] else []) ++
        [swapPair ((alookup nodesL v).getD (0, 0))]

/-- The segment loop of `pathToGeoJSON` (`first` is `i === 0`). -/
def geoCoords (nodesL : List (α × ℚ × ℚ))
    (geomL : List ((α × α) × List (ℚ × ℚ))) : Bool → List α → List (ℚ × ℚ)
  | _, [] => []
  | _, [_] => []
  | first, u :: v :: rest =>
    geoSegment nodesL geomL first u v ++ geoCoords nodesL geomL false (v :: rest)

/-- `pathToGeoJSON(path)`: `none` models the `null` returned for a missing
or short path. -/
def pathToGeoJSON (nodesL : List (α × ℚ × ℚ))
    (geomL : List ((α × α) × List (ℚ × ℚ))) :
    Option (List α) → Option (List (ℚ × ℚ))
  | none => none
  | some path =>
    if path.length < 2 then none
    else some (geoCoords nodesL geomL true path)

/-! ## Module state, graph load, nearest node, route query
(`errors.js` lines 15–23, 76–129, 269–318) -/

/-- The typed outcomes of the module's thrown errors:
`graphNotLoaded` is `throw new Error('Graph not loaded. Call loadGraph() first.')`,
`noPathFound` is `throw new Error('No path found between the specified points')`,
and `typeError` stands for a runtime `TypeError` (reading a property of
`undefined`). -/
inductive JsError
  | graphNotLoaded
  | noPathFound
  | typeError
  deriving DecidableEq, Repr

/-- The parsed `graph.json` artifact: `{ nodes, edges, geom }`, each field
possibly absent. `nodes` maps id to `[lat, lng]`; `edges` is a list of
`[u, v, length, accCost]` (ids already as strings — the source's `String(u)`
conversion is identity here); `geom` maps `(u, v)` to `[lat, lng]` point
lists. -/
structure GraphData where
  nodes : Option (List (String × ℚ × ℚ))
  edges : Option (List (String × String × ℚ × ℚ))
  geom : Option (List ((String × String) × List (ℚ × ℚ)))

/-- The module-level variables set by `loadGraph` (`errors.js` lines 17–23).
`cosLat` is `Math.cos((latSum / n) * (Math.PI / 180))`. -/
structure GraphState where
  nodes : List (String × ℚ × ℚ)
  adj : List (String × List (String × ℚ × ℚ))
  edgeGeom : List ((String × String) × List (ℚ × ℚ))
  nodeIds : List String
  nodeLats : List ℚ
  nodeLngs : List ℚ
  cosLat : ℚ

/-- `if (adj[uStr]) adj[uStr].push([String(v), length, accCost])`: append an
edge to the adjacency list of key `u` when that key is present, and drop it
silently otherwise. -/
def adjAppend {κ β : Type} [DecidableEq κ] :
    List (κ × List β) → κ → β → List (κ × List β)
  | [], _, _ => []
  | (k, l) :: t, u, b =>
    if k = u then (k, l ++ [b]) :: t else (k, l) :: adjAppend t u b

/-- `loadGraph()`, applied to an already-fetched artifact.  `cosFn` stands
for the real-valued map `x ↦ Math.cos(x * Math.PI / 180)` applied to the
mean latitude in degrees (a transcendental not representable on `ℚ`; no
property below depends on its values).  A missing `nodes` or `edges` field
makes the JavaScript code throw a `TypeError` (`Object.keys(undefined)`,
`for … of undefined`); with zero nodes, `latSum / n` is `NaN` in JavaScript
and `0` here (also unused).  Errors are modelled as a returned `Except`;
the JavaScript mutations performed before a throw are discarded. -/
def loadGraph (cosFn : ℚ → ℚ) (data : GraphData) : Except JsError GraphState :=
  match data.nodes with
  | none => .error .typeError
  | some nodesL =>
    let edgeGeom := data.geom.getD []
    let nodeIds := nodesL.map (fun p => p.1)
    let coordsOf := fun id => ((alookup nodesL id).getD (0, 0))
    let nodeLats := nodeIds.map (fun id => (coordsOf id).1)
    let nodeLngs := nodeIds.map (fun id => (coordsOf id).2)
    let latSum := nodeLats.foldl (· + ·) 0
    let cosLat := cosFn (latSum / (nodeIds.length : ℚ))
    match data.edges with
    | none => .error .typeError
    | some edges =>
      let adj0 := nodeIds.map (fun id => (id, ([] : List (String × ℚ × ℚ))))
      let adj := edges.foldl (fun adj e => adjAppend adj e.1 e.2) adj0
      .ok { nodes := nodesL, adj := adj, edgeGeom := edgeGeom,
            nodeIds := nodeIds, nodeLats := nodeLats, nodeLngs := nodeLngs,
            cosLat := cosLat }

/-- `findNearestNode(lat, lng)` (`errors.js` lines 113–129): linear scan for
the minimal squared planar distance in `(lat, lng·cosLat)` space; `bestIdx`
starts at `0` and `bestDist` at `Infinity`, so an empty graph returns
`nodeIds[0]`, which is `undefined` (`none`). -/
def findNearestNode (g : GraphState) (lat lng : ℚ) : Option String :=
  let lngCorrected := lng * g.cosLat
  let best :=
    (g.nodeLats.zip g.nodeLngs).enum.foldl
      (fun acc ie =>
        let dLat := ie.2.1 - lat
        let dLng := ie.2.2 * g.cosLat - lngCorrected
        let dist := dLat * dLat + dLng * dLng
        if ltOptQ dist acc.1 then (some dist, ie.1) else acc)
      ((none : Option ℚ), 0)
  g.nodeIds[best.2]?

/-- The response object of `calculateRoute` with the two geometries, the
flattened `stats` block, and the snapped endpoint coordinates
(`{lat, lng}` pairs). -/
structure RouteResult where
  accessible_route : Option (List (ℚ × ℚ))
  standard_route : Option (List (ℚ × ℚ))
  accessible_stats : RouteStats
  standard_stats : RouteStats
  snapped_start : ℚ × ℚ
  snapped_end : ℚ × ℚ
  deriving DecidableEq

/-- The adjacency table at id type `Option String`: `findNearestNode` can
produce `undefined`, and the JavaScript code feeds it unchecked into the
search, where `adj[undefined]` is `undefined`. -/
def liftAdj (adj : List (String × List (String × ℚ × ℚ))) :
    List (Option String × List (Option String × ℚ × ℚ)) :=
  adj.map (fun p => (some p.1, p.2.map (fun e => (some e.1, e.2))))

/-- The node table at id type `Option String`. -/
def liftNodes (nodes : List (String × ℚ × ℚ)) : List (Option String × ℚ × ℚ) :=
  nodes.map (fun p => (some p.1, p.2))

/-- The geometry table at id type `Option String`. -/
def liftGeom (geom : List ((String × String) × List (ℚ × ℚ))) :
    List ((Option String × Option String) × List (ℚ × ℚ)) :=
  geom.map (fun p => ((some p.1.1, some p.1.2), p.2))

/-- `calculateRoute(startLat, startLng, endLat, endLng, barrierWeight)`
(`errors.js` lines 269–318).  The module state is passed explicitly:
`none` models the not-yet-loaded state (`nodes`/`adj` still `null`).
The two trailing `typeError` cases model, in evaluation order, the
`TypeError` thrown inside `computeRouteStats` when some `adj[u]` is
`undefined`, and the one thrown when building `snapped_start`/`snapped_end`
from an `undefined` `nodes[...]` lookup (as happens on a loaded graph with
zero nodes). -/
def calculateRoute (gs : Option GraphState)
    (startLat startLng endLat endLng bw : ℚ) : Except JsError RouteResult :=
  match gs with
  | none => .error .graphNotLoaded
  | some g =>
    let startNode := findNearestNode g startLat startLng
    let endNode := findNearestNode g endLat endLng
    let startCoords := startNode.bind (alookup g.nodes)
    let endCoords := endNode.bind (alookup g.nodes)
    let adjL := liftAdj g.adj
    match dijkstra (fun x => x.isNone) adjL startNode endNode bw with
    | none => .error .noPathFound
    | some accessiblePath =>
      match dijkstra (fun x => x.isNone) adjL startNode endNode 0 with
      | none => .error .noPathFound
      | some standardPath =>
        let accessibleGeo :=
          pathToGeoJSON (liftNodes g.nodes) (liftGeom g.edgeGeom)
            (some accessiblePath)
        let standardGeo :=
          pathToGeoJSON (liftNodes g.nodes) (liftGeom g.edgeGeom)
            (some standardPath)
        match computeRouteStats adjL bw accessiblePath,
            computeRouteStats adjL 0 standardPath with
        | some aStats, some sStats =>
          match startCoords, endCoords with
          | some sc, some ec =>
            .ok { accessible_route := accessibleGeo
                  standard_route := standardGeo
                  accessible_stats := aStats
                  standard_stats := sStats
                  snapped_start := sc
                  snapped_end := ec }
          | _, _ => .error .typeError
        | _, _ => .error .typeError

/-! ## Verification of the binary heap -/

/-- The min-heap shape invariant of the backing array: every entry's
priority is at least its parent's. -/
def HeapProp (d : List (ℚ × α)) : Prop :=
  ∀ j x y, 0 < j → d[j]? = some x → d[(j - 1) / 2]? = some y → y.1 ≤ x.1

/-- Heap shape except possibly at the edge into index `i`, plus the
grandparent bound on `i`'s children: the invariant of `_bubbleUp`. -/
def AHU (d : List (ℚ × α)) (i : ℕ) : Prop :=
  (∀ j x y, 0 < j → j ≠ i → d[j]? = some x → d[(j - 1) / 2]? = some y →
    y.1 ≤ x.1) ∧
  (∀ c x y, 0 < i → (c - 1) / 2 = i → d[c]? = some x →
    d[(i - 1) / 2]? = some y → y.1 ≤ x.1)

/-- Heap shape except possibly on the edges out of index `i`, plus the
grandparent bound on `i`'s children: the invariant of `_sinkDown`. -/
def AHD (d : List (ℚ × α)) (i : ℕ) : Prop :=
  (∀ j x y, 0 < j → (j - 1) / 2 ≠ i → d[j]? = some x →
    d[(j - 1) / 2]? = some y → y.1 ≤ x.1) ∧
  (∀ c x y, 0 < i → (c - 1) / 2 = i → d[c]? = some x →
    d[(i - 1) / 2]? = some y → y.1 ≤ x.1)

/-! ## Walks, predecessor chains, and the Dijkstra loop invariant -/

/-- A directed edge of the adjacency table: `(v, len, cost)` occurs in the
neighbour list of `u`. -/
def HasEdge (adjL : List (α × List (α × ℚ × ℚ))) (u v : α) (len cost : ℚ) :
    Prop :=
  ∃ ns, alookup adjL u = some ns ∧ (v, len, cost) ∈ ns

/-- Weighted walks of the adjacency table: `WalkW adjL bw a c w` holds when
there is a walk from `a` to `c` along adjacency edges (with a choice of
parallel edge at every hop) whose total weight under `edgeWeight bw` is
`w`.  The "paths" of the specification are exactly these walks. -/
inductive WalkW (adjL : List (α × List (α × ℚ × ℚ))) (bw : ℚ) :
    α → α → ℚ → Prop
  | nil (a : α) : WalkW adjL bw a a 0
  | cons {a b c : α} {w len cost : ℚ} (hw : WalkW adjL bw a b w)
      (he : HasEdge adjL b c len cost) :
      WalkW adjL bw a c (w + edgeWeight bw len cost)

/-- Reachability along adjacency edges (independent of any weight). -/
inductive HasWalk (adjL : List (α × List (α × ℚ × ℚ))) : α → α → Prop
  | nil (a : α) : HasWalk adjL a a
  | cons {a b c : α} (h : HasWalk adjL a b)
      (he : ∃ len cost, HasEdge adjL b c len cost) : HasWalk adjL a c

/-- All edge weights of the table are nonnegative under `bw`.  This is the
specification's standing hypothesis (`length > 0`, `accessibility_cost ≥ 0`,
`barrier_weight ≥ 0`), under which Dijkstra's greedy strategy is valid. -/
def NonnegWeights (adjL : List (α × List (α × ℚ × ℚ))) (bw : ℚ) : Prop :=
  ∀ u v len cost, HasEdge adjL u v len cost → 0 ≤ edgeWeight bw len cost

/-- The predecessor chain of `x` under the map `prev`: the list
`[x, prev x, prev (prev x), …, start]`. -/
inductive ChainTo (prev : α → Option α) (start : α) : α → List α → Prop
  | base (h : prev start = none) : ChainTo prev start start [start]
  | step {x u : α} {ch : List α} (h : prev x = some u)
      (hch : ChainTo prev start u ch) : ChainTo prev start x (x :: ch)

/-- Node `x` at tentative distance `dx` is settled: all its outgoing edges
are relaxed, and `dx` is a lower bound on the weight of every walk from
`start` to `x`. -/
def ClosedAt (adjL : List (α × List (α × ℚ × ℚ))) (bw : ℚ) (start : α)
    (st : DState α) (x : α) (dx : ℚ) : Prop :=
  (∀ v len cost, HasEdge adjL x v len cost →
    ∃ dv, st.dist v = some dv ∧ dv ≤ dx + edgeWeight bw len cost) ∧
  (∀ w, WalkW adjL bw start x w → dx ≤ w)

/-- The number of occurrences of the entry `c` in a heap array (used to
state that at most one heap entry for a node is "tight"). -/
def countPair (l : List (ℚ × α)) (c : ℚ × α) : ℕ :=
  l.countP (fun e => decide (e = c))

/-- The heap-independent part of the loop invariant. -/
structure InvCore (adjL : List (α × List (α × ℚ × ℚ))) (bw : ℚ) (start : α)
    (st : DState α) : Prop where
  dist_start : st.dist start = some 0
  prev_start : st.prev start = none
  dist_walk : ∀ x dx, st.dist x = some dx → WalkW adjL bw start x dx
  prev_dom : ∀ x, (st.prev x).isSome ↔ ((st.dist x).isSome ∧ x ≠ start)
  prev_edge : ∀ x u, st.prev x = some u → ∃ len cost dx du,
    HasEdge adjL u x len cost ∧ st.dist x = some dx ∧ st.dist u = some du ∧
    du + edgeWeight bw len cost ≤ dx
  prev_chain : ∀ x, (st.prev x).isSome →
    ∃ ch, ChainTo st.prev start x ch ∧ ch.Nodup

/-- The full loop invariant. -/
structure Inv (adjL : List (α × List (α × ℚ × ℚ))) (bw : ℚ) (start : α)
    (st : DState α) extends InvCore adjL bw start st : Prop where
  heap_dist : ∀ e ∈ st.heap, ∃ dx, st.dist e.2 = some dx ∧ dx ≤ e.1
  heap_shape : HeapProp st.heap
  tight_unique : ∀ x dx, st.dist x = some dx → countPair st.heap (dx, x) ≤ 1
  open_or_closed : ∀ x dx, st.dist x = some dx →
    (dx, x) ∈ st.heap ∨ ClosedAt adjL bw start st x dx

/-- `x` is done: its distance is set and every remaining heap entry for it
is stale.  (Decidable form, used by the termination measure.) -/
def nodeDoneB (st : DState α) (x : α) : Bool :=
  match st.dist x with
  | none => false
  | some dx => st.heap.all (fun e => !(e.2 = x : Bool) || decide (dx < e.1))

/-- The termination measure of the `while` loop: heap size plus, for every
not-yet-done adjacency key, its out-degree plus one. -/
def dMeasure (adjL : List (α × List (α × ℚ × ℚ))) (st : DState α) : ℕ :=
  st.heap.length +
    (((adjL.map Prod.fst).dedup.filter (fun u => !nodeDoneB st u)).map
      (fun u => ((alookup adjL u).getD []).length + 1)).sum

/-- `o₁ ⊑ o₂` on optional distances (`none` = `Infinity`): wherever `o₂` is
finite, `o₁` is finite and at most it. -/
def dle (o₁ o₂ : Option ℚ) : Prop :=
  ∀ d₂, o₂ = some d₂ → ∃ d₁, o₁ = some d₁ ∧ d₁ ≤ d₂

/-- The invariant holding while the neighbours of a freshly popped node `u`
(popped with priority `dq`, which the stale check guarantees equals its
recorded distance) are being relaxed. -/
structure InvProc (adjL : List (α × List (α × ℚ × ℚ))) (bw : ℚ) (start u : α)
    (dq : ℚ) (st : DState α) extends InvCore adjL bw start st : Prop where
  heap_dist : ∀ e ∈ st.heap, ∃ dx, st.dist e.2 = some dx ∧ dx ≤ e.1
  heap_shape : HeapProp st.heap
  tight_unique : ∀ x dx, st.dist x = some dx → countPair st.heap (dx, x) ≤ 1
  open_or_closed : ∀ x dx, st.dist x = some dx → x ≠ u →
    (dx, x) ∈ st.heap ∨ ClosedAt adjL bw start st x dx
  dist_u : st.dist u = some dq
  u_lb : ∀ w, WalkW adjL bw start u w → dq ≤ w
  no_tight_u : countPair st.heap (dq, u) = 0

/-- All edge targets of the adjacency table, with multiplicity. -/
def targetsList (adjL : List (α × List (α × ℚ × ℚ))) : List α :=
  (adjL.map (fun p => p.2.map Prod.fst)).join

/-! ## Path weight and edge selection (specification-side measures) -/

/-- The minimum `edgeWeight` among the parallel edges `u → v`, as computed
by the `computeRouteStats` scan (`none` when `u` has no adjacency entry or
no parallel edge exists). -/
def hop (adjL : List (α × List (α × ℚ × ℚ))) (bw : ℚ) (u v : α) : Option ℚ :=
  match alookup adjL u with
  | none => none
  | some ns => (bestFor bw v ns).1

/-- The total weight of a node path under the per-hop minimum-weight
parallel-edge selection. -/
def pathWeight (adjL : List (α × List (α × ℚ × ℚ))) (bw : ℚ) :
    List α → Option ℚ
  | [] => some 0
  | [_] => some 0
  | u :: v :: rest =>
    match hop adjL bw u v, pathWeight adjL bw (v :: rest) with
    | some w, some wr => some (w + wr)
    | _, _ => none

/-- The `(length, accessibility_cost)` pairs of the edges selected per hop
by the `computeRouteStats` scan (the `(0, 0)` defaults when a hop has no
parallel edge). -/
def selEdges (adjL : List (α × List (α × ℚ × ℚ))) (bw : ℚ) :
    List α → Option (List (ℚ × ℚ))
  | [] => some []
  | [_] => some []
  | u :: v :: rest =>
    match alookup adjL u with
    | none => none
    | some ns =>
      (selEdges adjL bw (v :: rest)).map (fun es => (bestFor bw v ns).2 :: es)

/-- Total length of a selection. -/
def lenSum (es : List (ℚ × ℚ)) : ℚ := (es.map Prod.fst).sum

/-- Total accessibility cost of a selection. -/
def costSum (es : List (ℚ × ℚ)) : ℚ := (es.map Prod.snd).sum

/-- Total severity penalty (`Σ accCost^1.5`) of a selection. -/
def penSum (es : List (ℚ × ℚ)) : ℚ := (es.map (fun e => pow15 e.2)).sum

/-- Total weight of a selection at barrier weight `bw`. -/
def wSum (bw : ℚ) (es : List (ℚ × ℚ)) : ℚ :=
  (es.map (fun e => edgeWeight bw e.1 e.2)).sum

/-- Number of selected edges with positive accessibility cost. -/
def countPos (es : List (ℚ × ℚ)) : ℕ := (es.filter (fun e => 0 < e.2)).length

/-- The total severity penalty of the route, over the edges selected by the
`computeRouteStats` scan: the `Σ accCost^1.5` counterpart of the reported
`barrier_cost = Σ accCost`. -/
def selPenalty (adjL : List (α × List (α × ℚ × ℚ))) (bw : ℚ) (p : List α) :
    Option ℚ :=
  (selEdges adjL bw p).map penSum

/-- The step of `bestFor`'s scan, named for the lemmas below. -/
def bestStep (bw : ℚ) (v : α) (acc : Option ℚ × ℚ × ℚ) (e : α × ℚ × ℚ) :
    Option ℚ × ℚ × ℚ :=
  if e.1 = v then
    let w := edgeWeight bw e.2.1 e.2.2
    if ltOptQ w acc.1 then (some w, e.2.1, e.2.2) else acc
  else acc

/-- Consecutive nodes of the list are linked by the `prev` map (the reversed
form of a predecessor chain). -/
def PrevLinked (st : DState α) : List α → Prop
  | [] => True
  | [_] => True
  | u :: x :: rest => st.prev x = some u ∧ PrevLinked st (x :: rest)

/-- The selected-edge decomposition of a defined path weight: the selection
exists, sums to the path weight, and consists of actual edges. -/
def SelReal (adjL : List (α × List (α × ℚ × ℚ))) :
    List α → List (ℚ × ℚ) → Prop
  | [], es => es = []
  | [_], es => es = []
  | u :: v :: rest, es =>
    ∃ e es', es = e :: es' ∧ HasEdge adjL u v e.1 e.2 ∧
      SelReal adjL (v :: rest) es'

/-! ## The no-path case -/

/-- The light reachability invariant: every recorded distance, predecessor
and heap entry concerns a node reachable from `start`.  Unlike `Inv` it
needs no hypotheses on the edge weights, so the no-path result below holds
for arbitrary (also negative) weights. -/
structure InvR (adjL : List (α × List (α × ℚ × ℚ))) (start : α)
    (st : DState α) : Prop where
  r_dist : ∀ x, (st.dist x).isSome → HasWalk adjL start x
  r_prev : ∀ x, (st.prev x).isSome → HasWalk adjL start x
  r_heap : ∀ e ∈ st.heap, HasWalk adjL start e.2

/-! ## Geometry reconstruction -/

/-- Every consecutive pair of the path has stored forward geometry whose
endpoints are the pair's node coordinates and which has no two consecutive
duplicate points. -/
def PathGeoOK (nodesL : List (α × ℚ × ℚ))
    (geomL : List ((α × α) × List (ℚ × ℚ))) : List α → Prop
  | [] => True
  | [_] => True
  | u :: v :: rest =>
    (∃ g cu cv, alookup geomL (u, v) = some g ∧
      alookup nodesL u = some cu ∧ alookup nodesL v = some cv ∧
      g.head? = some cu ∧ g.getLast? = some cv ∧
      List.Chain' (fun a b => a ≠ b) g) ∧
    PathGeoOK nodesL geomL (v :: rest)

/-! ## Concrete fixtures for the claim witnesses and counterexamples -/

/-- A one-edge graph on node ids `0, 1`. -/
def adjC1 : List (ℕ × List (ℕ × ℚ × ℚ)) := [(0, [(1, 1, 0)]), (1, [])]

/-- The trade-off diamond: a direct edge `0 → 3` of length `1` and
accessibility cost `4`, against a detour `0 → 1 → 2 → 3` of three edges of
length `1` and cost `169/100` each (`pow15 (169/100) = 2197/1000` exactly). -/
def adjC3 : List (ℕ × List (ℕ × ℚ × ℚ)) :=
  [(0, [(3, 1, 4), (1, 1, 169/100)]), (1, [(2, 1, 169/100)]),
   (2, [(3, 1, 169/100)]), (3, [])]

/-- Two parallel edges `0 → 1`: length `2` cost `0`, and length `1`
cost `1`. -/
def adjC7 : List (ℕ × List (ℕ × ℚ × ℚ)) := [(0, [(1, 2, 0), (1, 1, 1)])]

/-- A loaded graph with two nodes and no edges. -/
def gC5 : GraphState :=
  { nodes := [("a", 0, 0), ("b", 1, 1)]
    adj := [("a", []), ("b", [])]
    edgeGeom := []
    nodeIds := ["a", "b"]
    nodeLats := [0, 1]
    nodeLngs := [0, 1]
    cosLat := 1 }

/-- The module state `loadGraph` builds from an artifact with zero nodes
and zero edges. -/
def gEmpty : GraphState :=
  { nodes := [], adj := [], edgeGeom := [], nodeIds := [],
    nodeLats := [], nodeLngs := [], cosLat := 1 }

/-! ## Theorems -/
theorem ltAt_lt_length {d : List (ℚ × α)} {j k : ℕ} (h : ltAt d j k) :
    j < d.length := by
  unfold ltAt priAt at h
  cases h₃ : d[j]? with
  | none => rw [h₃] at h; simp at h
  | some c => exact (List.getElem?_eq_some.mp h₃).1

theorem sdTarget_ne (d : List (ℚ × α)) (i : ℕ) (h : sdTarget d i ≠ i) :
    i < sdTarget d i ∧ sdTarget d i < d.length := by
  unfold sdTarget at h ⊢
  split_ifs at h ⊢ with h₁ h₂ h₃ <;>
    first
    | exact absurd rfl h
    | exact ⟨by omega, ltAt_lt_length (by assumption)⟩

theorem set_cons_perm {β : Type} {t : List β} {k : ℕ} {a b : β}
    (h : t[k]? = some b) : (b :: t.set k a).Perm (a :: t) := by
  induction t generalizing k with
  | nil => simp at h
  | cons y s ih =>
    cases k with
    | zero =>
      simp only [List.getElem?_cons_zero, Option.some.injEq] at h
      subst h
      exact List.Perm.swap _ _ _
    | succ k =>
      simp only [List.getElem?_cons_succ] at h
      have h₁ := ih h
      show (b :: y :: s.set k a).Perm (a :: y :: s)
      exact (List.Perm.swap y b _).trans ((h₁.cons y).trans (List.Perm.swap a y s))

theorem set_set_perm {β : Type} {l : List β} {i j : ℕ} {a b : β} (hij : i < j)
    (ha : l[i]? = some a) (hb : l[j]? = some b) :
    ((l.set i b).set j a).Perm l := by
  induction l generalizing i j with
  | nil => simp at ha
  | cons x t ih =>
    cases i with
    | zero =>
      simp only [List.getElem?_cons_zero, Option.some.injEq] at ha
      subst ha
      obtain ⟨k, rfl⟩ : ∃ k, j = k + 1 := ⟨j - 1, by omega⟩
      simp only [List.getElem?_cons_succ] at hb
      exact set_cons_perm hb
    | succ m =>
      obtain ⟨k, rfl⟩ : ∃ k, j = k + 1 := ⟨j - 1, by omega⟩
      simp only [List.getElem?_cons_succ] at ha hb
      exact ((ih (by omega) ha hb).cons x)

theorem bubbleUp_perm : ∀ (i : ℕ) (d : List (ℚ × α)), (bubbleUp d i).Perm d := by
  intro i
  induction i using Nat.strong_induction_on with
  | _ i ih =>
    intro d
    match i with
    | 0 => simp [bubbleUp]
    | i + 1 =>
      rw [bubbleUp]
      split
      · rename_i ci cp h₁ h₂
        split
        · exact List.Perm.refl d
        · have hp : i / 2 < i + 1 := by omega
          refine ((ih _ hp _).trans ?_)
          rw [List.set_comm _ _ _ (by omega)]
          exact set_set_perm (Nat.lt_succ_of_le (Nat.div_le_self i 2)) h₂ h₁
      · exact List.Perm.refl d

theorem sinkDown_perm : ∀ (d : List (ℚ × α)) (i : ℕ), (sinkDown d i).Perm d := by
  intro d i
  generalize hm : d.length - i = m
  induction m using Nat.strong_induction_on generalizing d i with
  | _ m ih =>
    rw [sinkDown]
    split
    · exact List.Perm.refl d
    · rename_i hs
      split
      · rename_i ci cs h₁ h₂
        have h := sdTarget_ne d i hs
        have hrec : ((d.set i cs).set (sdTarget d i) ci).length - sdTarget d i <
            m := by
          simp only [List.length_set]
          omega
        refine ((ih _ (hm ▸ hrec) _ _ rfl).trans ?_)
        exact set_set_perm h.1 h₁ h₂
      · exact List.Perm.refl d

theorem heapPush_perm (d : List (ℚ × α)) (p : ℚ) (v : α) :
    (heapPush d p v).Perm ((p, v) :: d) :=
  (bubbleUp_perm _ _).trans (List.perm_append_singleton _ _)

theorem heapPop_perm {d rest : List (ℚ × α)} {e : ℚ × α}
    (h : heapPop d = some (e, rest)) : (e :: rest).Perm d := by
  match d with
  | [] => simp [heapPop] at h
  | [x] =>
    simp only [heapPop, Option.some.injEq, Prod.mk.injEq] at h
    rw [← h.1, ← h.2]
  | x :: y :: t =>
    simp only [heapPop, Option.some.injEq, Prod.mk.injEq] at h
    rw [← h.1, ← h.2]
    refine List.Perm.cons x ?_
    refine (sinkDown_perm _ _).trans ?_
    have : ((y :: t).getLast (List.cons_ne_nil y t) :: (y :: t).dropLast).Perm
        ((y :: t).dropLast ++ [(y :: t).getLast (List.cons_ne_nil y t)]) :=
      (List.perm_append_singleton _ _).symm
    refine this.trans ?_
    rw [List.dropLast_append_getLast]

theorem getElem?_swap {d : List (ℚ × α)} {a b : ℕ} {xa xb : ℚ × α}
    (ha : d[a]? = some xa) (hb : d[b]? = some xb) (hab : a ≠ b) (k : ℕ) :
    ((d.set a xb).set b xa)[k]? =
      if k = b then some xa else if k = a then some xb else d[k]? := by
  have hal : a < d.length := (List.getElem?_eq_some.mp ha).1
  have hbl : b < d.length := (List.getElem?_eq_some.mp hb).1
  rw [List.getElem?_set, List.getElem?_set]
  simp only [List.length_set]
  by_cases h1 : k = b
  · simp [h1, hbl]
  · by_cases h2 : k = a
    · simp [h1, h2, Ne.symm hab, hab, hal]
    · simp [Ne.symm h1, Ne.symm h2, h1, h2]

theorem ltAt_false_le {d : List (ℚ × α)} {j k : ℕ} (h : ¬ltAt d j k = true)
    {x y : ℚ × α} (hx : d[j]? = some x) (hy : d[k]? = some y) : y.1 ≤ x.1 := by
  unfold ltAt priAt at h
  rw [hx, hy] at h
  simp only [Option.map_some'] at h
  exact le_of_not_lt (by simpa using h)

theorem ltAt_true_lt {d : List (ℚ × α)} {j k : ℕ} (h : ltAt d j k = true) :
    ∃ x y, d[j]? = some x ∧ d[k]? = some y ∧ x.1 < y.1 := by
  unfold ltAt priAt at h
  cases hx : d[j]? with
  | none => rw [hx] at h; simp at h
  | some x =>
    cases hy : d[k]? with
    | none => rw [hx, hy] at h; simp at h
    | some y =>
      rw [hx, hy] at h
      simp only [Option.map_some'] at h
      exact ⟨x, y, rfl, rfl, by simpa using h⟩

theorem sdTarget_eq_self {d : List (ℚ × α)} {i : ℕ} (h : sdTarget d i = i) :
    ∀ c x y, (c = 2 * i + 1 ∨ c = 2 * i + 2) → d[c]? = some x →
      d[i]? = some y → y.1 ≤ x.1 := by
  unfold sdTarget at h
  split_ifs at h with h₁ h₂ h₂
  · omega
  · omega
  · omega
  · intro c x y hc hx hy
    rcases hc with rfl | rfl
    · exact ltAt_false_le h₁ hx hy
    · exact ltAt_false_le h₂ hx hy

theorem sdTarget_spec {d : List (ℚ × α)} {i : ℕ} (h : sdTarget d i ≠ i) :
    ∃ ct ci₀, d[sdTarget d i]? = some ct ∧ d[i]? = some ci₀ ∧ ct.1 < ci₀.1 ∧
      ∀ c x, (c = 2 * i + 1 ∨ c = 2 * i + 2) → d[c]? = some x → ct.1 ≤ x.1 := by
  unfold sdTarget at h ⊢
  split_ifs at h ⊢ with h₂ h₁
  · -- inner true, outer true: target 2i+2, with d[2i+2] < d[2i+1] < d[i]
    obtain ⟨xr, xl, hr, hl, hrl⟩ := ltAt_true_lt h₁
    obtain ⟨xl', xi, hl', hi, hli⟩ := ltAt_true_lt h₂
    rw [hl] at hl'
    obtain rfl : xl = xl' := by simpa using hl'
    refine ⟨xr, xi, hr, hi, lt_trans hrl hli, ?_⟩
    intro c x hc hx
    rcases hc with rfl | rfl
    · rw [hl] at hx
      obtain rfl : xl = x := by simpa using hx
      exact le_of_lt hrl
    · rw [hr] at hx
      obtain rfl : xr = x := by simpa using hx
      exact le_rfl
  · -- inner true, outer false: target 2i+1, with d[2i+1] < d[i] ≤ ... and
    -- d[2i+1] ≤ d[2i+2] when the latter exists
    obtain ⟨xl, xi, hl, hi, hli⟩ := ltAt_true_lt h₂
    refine ⟨xl, xi, hl, hi, hli, ?_⟩
    intro c x hc hx
    rcases hc with rfl | rfl
    · rw [hl] at hx
      obtain rfl : xl = x := by simpa using hx
      exact le_rfl
    · exact ltAt_false_le h₁ hx hl
  · -- inner false, outer true: target 2i+2, with d[2i+2] < d[i] ≤ d[2i+1]
    rename_i h₃
    obtain ⟨xr, xi, hr, hi, hri⟩ := ltAt_true_lt h₃
    refine ⟨xr, xi, hr, hi, hri, ?_⟩
    intro c x hc hx
    rcases hc with rfl | rfl
    · exact le_trans (le_of_lt hri) (ltAt_false_le h₂ hx hi)
    · rw [hr] at hx
      obtain rfl : xr = x := by simpa using hx
      exact le_rfl
  · exact absurd rfl h

theorem bubbleUp_heapProp : ∀ (i : ℕ) (d : List (ℚ × α)),
    AHU d i → HeapProp (bubbleUp d i) := by
  intro i
  induction i using Nat.strong_induction_on with
  | _ i ih =>
    intro d hA
    match i with
    | 0 =>
      simp only [bubbleUp]
      intro j x y hj hx hy
      exact hA.1 j x y hj (by omega) hx hy
    | i + 1 =>
      rw [bubbleUp]
      split
      · rename_i ci cp h₁ h₂
        split
        · rename_i hle
          intro j x y hj hx hy
          by_cases hji : j = i + 1
          · subst hji
            rw [h₁] at hx
            have hidx : (i + 1 - 1) / 2 = i / 2 := by omega
            rw [hidx, h₂] at hy
            obtain rfl : ci = x := by simpa using hx
            obtain rfl : cp = y := by simpa using hy
            exact hle
          · exact hA.1 j x y hj hji hx hy
        · rename_i hlt
          apply ih (i / 2) (by omega)
          have hp : i / 2 ≠ i + 1 := by omega
          have hswap := getElem?_swap h₁ h₂ (by omega)
          constructor
          · intro j x y hj hji hx hy
            rw [hswap] at hx hy
            by_cases hj1 : j = i + 1
            · subst hj1
              have hpj : (i + 1 - 1) / 2 = i / 2 := by omega
              rw [hpj] at hy
              rw [if_neg (by omega), if_pos rfl] at hx
              rw [if_pos rfl] at hy
              obtain rfl : cp = x := by simpa using hx
              obtain rfl : ci = y := by simpa using hy
              exact le_of_lt (lt_of_not_le hlt)
            · by_cases hpj1 : (j - 1) / 2 = i + 1
              · -- j is a child of i+1
                have hjbig : i + 1 < j := by omega
                rw [hpj1, if_neg (by omega), if_pos rfl] at hy
                rw [if_neg (by omega), if_neg (by omega)] at hx
                obtain rfl : cp = y := by simpa using hy
                exact hA.2 j x cp (by omega) hpj1 hx h₂
              · by_cases hpjp : (j - 1) / 2 = i / 2
                · -- j is the sibling of i+1 (or another child of i/2)
                  rw [hpjp, if_neg hp, if_pos rfl] at hy
                  rw [if_neg hj1, if_neg hji] at hx
                  obtain rfl : ci = y := by simpa using hy
                  have := hA.1 j x cp hj hj1 hx (by rw [hpjp]; exact h₂)
                  exact le_trans (le_of_lt (lt_of_not_le hlt)) this
                · rw [if_neg hj1, if_neg hji] at hx
                  rw [if_neg hpj1, if_neg hpjp] at hy
                  exact hA.1 j x y hj hj1 hx hy
          · intro c x y hip hc hx hy
            have hppi : (i / 2 - 1) / 2 < i / 2 := by omega
            rw [hswap] at hx hy
            rw [if_neg (by omega), if_neg (by omega)] at hy
            have hcbig : i / 2 < c := by omega
            by_cases hc1 : c = i + 1
            · subst hc1
              rw [if_neg (by omega), if_pos rfl] at hx
              obtain rfl : cp = x := by simpa using hx
              exact hA.1 (i / 2) cp y hip hp h₂ hy
            · rw [if_neg hc1, if_neg (by omega)] at hx
              have h₃ := hA.1 c x cp (by omega) hc1 hx (by rw [hc]; exact h₂)
              exact le_trans (hA.1 (i / 2) cp y hip hp h₂ hy) h₃
      · rename_i hmiss
        intro j x y hj hx hy
        by_cases hj1 : j = i + 1
        · subst hj1
          have hjl : i + 1 < d.length := (List.getElem?_eq_some.mp hx).1
          have hpl : i / 2 < d.length := by omega
          have hps : d[i / 2]? = some d[i / 2] := List.getElem?_eq_getElem hpl
          exact absurd (hmiss x d[i / 2] hx hps) (by simp)
        · exact hA.1 j x y hj hj1 hx hy

theorem sinkDown_heapProp : ∀ (d : List (ℚ × α)) (i : ℕ),
    AHD d i → HeapProp (sinkDown d i) := by
  intro d i
  generalize hm : d.length - i = m
  induction m using Nat.strong_induction_on generalizing d i with
  | _ m ih =>
    intro hA
    rw [sinkDown]
    split
    · rename_i hself
      intro j x y hj hx hy
      by_cases hpj : (j - 1) / 2 = i
      · have hj' : j = 2 * i + 1 ∨ j = 2 * i + 2 := by omega
        rw [hpj] at hy
        exact sdTarget_eq_self hself j x y hj' hx hy
      · exact hA.1 j x y hj hpj hx hy
    · rename_i hne
      split
      · rename_i ci cs h₁ h₂
        obtain ⟨ht, htl⟩ := sdTarget_ne d i hne
        obtain ⟨ct, ci₀, hct, hci₀, hlt, hmin⟩ := sdTarget_spec hne
        rw [h₂] at hct
        obtain rfl : cs = ct := by simpa using hct
        rw [h₁] at hci₀
        obtain rfl : ci = ci₀ := by simpa using hci₀
        -- after the substitutions the target value is `cs` and the root
        -- value is `ci`
        have htc : sdTarget d i = 2 * i + 1 ∨ sdTarget d i = 2 * i + 2 := by
          unfold sdTarget at hne ⊢
          split_ifs at hne ⊢ <;> omega
        have hpt : (sdTarget d i - 1) / 2 = i := by omega
        have hrec : ((d.set i cs).set (sdTarget d i) ci).length -
            sdTarget d i < m := by
          simp only [List.length_set]
          omega
        apply ih _ (hm ▸ hrec) _ _ rfl
        have hswap := getElem?_swap h₁ h₂ (by omega)
        constructor
        · intro j x y hj hpj hx hy
          rw [hswap] at hx hy
          by_cases hjt : j = sdTarget d i
          · -- the moved-down entry: its parent is position i, now `cs`
            subst hjt
            rw [if_pos rfl] at hx
            rw [hpt, if_neg (by omega), if_pos rfl] at hy
            obtain rfl : ci = x := by simpa using hx
            obtain rfl : cs = y := by simpa using hy
            exact le_of_lt hlt
          · by_cases hji : j = i
            · -- position i now holds `cs`; its old parent bound comes from
              -- the grandparent clause at `c := sdTarget d i`
              have hi0 : 0 < i := hji ▸ hj
              rw [hji, if_neg (by omega), if_pos rfl] at hx
              rw [hji, if_neg (by omega), if_neg (by omega)] at hy
              obtain rfl : cs = x := by simpa using hx
              exact hA.2 (sdTarget d i) cs y hi0 hpt h₂ hy
            · by_cases hpji : (j - 1) / 2 = i
              · -- sibling of the target below i, which now holds `cs`
                rw [if_neg hjt, if_neg hji] at hx
                rw [hpji, if_neg (by omega), if_pos rfl] at hy
                obtain rfl : cs = y := by simpa using hy
                exact hmin j x (by omega) hx
              · rw [if_neg hjt, if_neg hji] at hx
                rw [if_neg (by omega), if_neg hpji] at hy
                exact hA.1 j x y hj hpji hx hy
        · intro c x y h0t hpc hx hy
          rw [hswap] at hx hy
          have hcbig : sdTarget d i < c := by omega
          rw [hpt, if_neg (by omega), if_pos rfl] at hy
          obtain rfl : cs = y := by simpa using hy
          rw [if_neg (by omega), if_neg (by omega)] at hx
          exact hA.1 c x cs (by omega) (by omega) hx (by rw [hpc]; exact h₂)
      · rename_i hmiss
        obtain ⟨ht, htl⟩ := sdTarget_ne d i hne
        have hil : i < d.length := by omega
        have hi : d[i]? = some d[i] := List.getElem?_eq_getElem hil
        have hts : d[sdTarget d i]? = some d[sdTarget d i] :=
          List.getElem?_eq_getElem htl
        exact absurd (hmiss d[i] d[sdTarget d i] hi hts) (by simp)

theorem heapPush_heapProp {d : List (ℚ × α)} (h : HeapProp d) (p : ℚ) (v : α) :
    HeapProp (heapPush d p v) := by
  apply bubbleUp_heapProp
  constructor
  · intro j x y hj hji hx hy
    have hjl : j < d.length + 1 := by
      have := (List.getElem?_eq_some.mp hx).1
      simpa using this
    have hjd : j < d.length := by
      rcases Nat.lt_or_ge j d.length with h' | h'
      · exact h'
      · omega
    rw [List.getElem?_append] at hx hy
    rw [if_pos hjd] at hx
    rw [if_pos (by omega)] at hy
    exact h j x y hj hx hy
  · intro c x y hi hc hx
    have : d.length + 1 ≤ c := by omega
    rw [List.getElem?_append, if_neg (by omega)] at hx
    have : ([(p, v)] : List (ℚ × α))[c - d.length]? = none := by
      apply List.getElem?_eq_none
      simp
      omega
    rw [this] at hx
    exact absurd hx (by simp)

theorem heapPop_heapProp {d rest : List (ℚ × α)} {e : ℚ × α}
    (h : HeapProp d) (hpop : heapPop d = some (e, rest)) : HeapProp rest := by
  match d with
  | [] => simp [heapPop] at hpop
  | [x] =>
    simp only [heapPop, Option.some.injEq, Prod.mk.injEq] at hpop
    rw [← hpop.2]
    intro j x y hj hx
    simp at hx
  | x :: y :: t =>
    simp only [heapPop, Option.some.injEq, Prod.mk.injEq] at hpop
    rw [← hpop.2]
    apply sinkDown_heapProp
    constructor
    · intro j z w hj hpj hz hw
      have hj2 : 2 ≤ j + 1 := by omega
      have hpj1 : 1 ≤ (j - 1) / 2 + 1 ∨ (j - 1) / 2 = 0 := by omega
      -- entries at positions ≥ 1 of the new root list coincide with the
      -- original list at the same positions
      have hkey : ∀ k z', 0 < k →
          ((y :: t).getLast (List.cons_ne_nil y t) :: (y :: t).dropLast)[k]? =
            some z' → (x :: y :: t)[k]? = some z' := by
        intro k z' hk hz'
        obtain ⟨k', rfl⟩ : ∃ k', k = k' + 1 := ⟨k - 1, by omega⟩
        simp only [List.getElem?_cons_succ] at hz' ⊢
        rw [List.getElem?_dropLast] at hz'
        by_cases hk' : k' < (y :: t).length - 1
        · rw [if_pos hk'] at hz'
          exact hz'
        · rw [if_neg hk'] at hz'
          exact absurd hz' (by simp)
      have hz' := hkey j z hj hz
      by_cases hpj0 : (j - 1) / 2 = 0
      · exact absurd hpj0 hpj
      · have hw' := hkey ((j - 1) / 2) w (by omega) hw
        exact h j z w (by omega) hz' hw'
    · intro c z w h0 _ _ _
      exact absurd h0 (by omega)

theorem heapProp_root_le {d : List (ℚ × α)} (h : HeapProp d) {r : ℚ × α}
    (hr : d[0]? = some r) : ∀ e ∈ d, r.1 ≤ e.1 := by
  suffices H : ∀ (j : ℕ) (x : ℚ × α), d[j]? = some x → r.1 ≤ x.1 by
    intro e he
    obtain ⟨j, hj⟩ := List.getElem?_of_mem he
    exact H j e hj
  intro j
  induction j using Nat.strong_induction_on with
  | _ j ih =>
    intro x hx
    match j with
    | 0 =>
      rw [hr] at hx
      obtain rfl : r = x := by simpa using hx
      exact le_rfl
    | j + 1 =>
      have hjl : j + 1 < d.length := (List.getElem?_eq_some.mp hx).1
      have hpl : (j + 1 - 1) / 2 < d.length := by omega
      have hy : d[(j + 1 - 1) / 2]? = some d[(j + 1 - 1) / 2] :=
        List.getElem?_eq_getElem hpl
      have h₁ := h (j + 1) x _ (by omega) hx hy
      have h₂ := ih ((j + 1 - 1) / 2) (by omega) _ hy
      exact le_trans h₂ h₁

theorem countPair_perm {l₁ l₂ : List (ℚ × α)} (h : l₁.Perm l₂) (c : ℚ × α) :
    countPair l₁ c = countPair l₂ c :=
  h.countP_eq _

theorem countPair_cons (e : ℚ × α) (l : List (ℚ × α)) (c : ℚ × α) :
    countPair (e :: l) c = countPair l c + (if e = c then 1 else 0) := by
  simp [countPair, List.countP_cons]

theorem countPair_eq_zero {l : List (ℚ × α)} {c : ℚ × α} :
    countPair l c = 0 ↔ c ∉ l := by
  rw [countPair, List.countP_eq_zero]
  constructor
  · intro h hc
    have := h c hc
    simp at this
  · intro h a ha
    simp only [decide_eq_true_eq]
    intro hac
    rw [hac] at ha
    exact h ha

theorem walkW_nonneg {adjL : List (α × List (α × ℚ × ℚ))} {bw : ℚ}
    (hnn : NonnegWeights adjL bw) {a b : α} {w : ℚ}
    (h : WalkW adjL bw a b w) : 0 ≤ w := by
  induction h with
  | nil => exact le_rfl
  | cons hw he ih => exact add_nonneg ih (hnn _ _ _ _ he)

theorem walkW_toHasWalk {adjL : List (α × List (α × ℚ × ℚ))} {bw : ℚ}
    {a b : α} {w : ℚ} (h : WalkW adjL bw a b w) : HasWalk adjL a b := by
  induction h with
  | nil => exact HasWalk.nil _
  | cons hw he ih => exact HasWalk.cons ih ⟨_, _, he⟩

theorem hasWalk_toWalkW {adjL : List (α × List (α × ℚ × ℚ))} (bw : ℚ)
    {a b : α} (h : HasWalk adjL a b) : ∃ w, WalkW adjL bw a b w := by
  induction h with
  | nil => exact ⟨0, WalkW.nil _⟩
  | cons h he ih =>
    obtain ⟨w, hw⟩ := ih
    obtain ⟨len, cost, he⟩ := he
    exact ⟨_, WalkW.cons hw he⟩

theorem chainTo_unique {prev : α → Option α} {start x : α} {ch₁ ch₂ : List α}
    (h₁ : ChainTo prev start x ch₁) (h₂ : ChainTo prev start x ch₂) :
    ch₁ = ch₂ := by
  induction h₁ generalizing ch₂ with
  | base h =>
    cases h₂ with
    | base _ => rfl
    | step h' _ => rw [h] at h'; exact absurd h' (by simp)
  | step h hch ih =>
    cases h₂ with
    | base h' => rw [h'] at h; exact absurd h (by simp)
    | step h' hch' =>
      rw [h] at h'
      obtain rfl : _ = _ := by exact Option.some_inj.mp h'
      rw [ih hch']

theorem chainTo_head {prev : α → Option α} {start x : α} {ch : List α}
    (h : ChainTo prev start x ch) : ∃ t, ch = x :: t := by
  cases h with
  | base _ => exact ⟨[], rfl⟩
  | step _ _ => exact ⟨_, rfl⟩

theorem chainTo_last {prev : α → Option α} {start x : α} {ch : List α}
    (h : ChainTo prev start x ch) : ch.getLast? = some start := by
  induction h with
  | base _ => rfl
  | step h hch ih =>
    obtain ⟨t, rfl⟩ := chainTo_head hch
    rw [List.getLast?_cons_cons]
    exact ih

theorem chainTo_mem_suffix {prev : α → Option α} {start x y : α}
    {ch : List α} (h : ChainTo prev start x ch) (hy : y ∈ ch) :
    ∃ ch₂, ChainTo prev start y ch₂ ∧ ∃ ch₁, ch = ch₁ ++ ch₂ := by
  induction h with
  | base hb =>
    rw [show y = start from by simpa using hy]
    exact ⟨[start], ChainTo.base hb, [], rfl⟩
  | step h hch ih =>
    rename_i x' u ch'
    rcases List.mem_cons.mp hy with rfl | hy'
    · exact ⟨_, ChainTo.step h hch, [], rfl⟩
    · obtain ⟨ch₂, hc₂, ch₁, rfl⟩ := ih hy'
      exact ⟨ch₂, hc₂, x' :: ch₁, rfl⟩

theorem chainTo_update_not_mem {prev : α → Option α} {start x v : α}
    {o : Option α} {ch : List α} (h : ChainTo prev start x ch)
    (hv : v ∉ ch) :
    ChainTo (fun y => if y = v then o else prev y) start x ch := by
  induction h with
  | base hb =>
    refine ChainTo.base ?_
    have : start ≠ v := by
      intro hsv
      exact hv (by simp [hsv])
    simpa [this]
  | step h hch ih =>
    rename_i x' u ch'
    have hx : x' ≠ v := fun hxv => hv (by simp [hxv])
    refine ChainTo.step ?_ (ih (fun hm => hv (List.mem_cons_of_mem _ hm)))
    simpa [hx]

theorem chainTo_cons_inv {prev : α → Option α} {start x p : α} {l : List α}
    (h : ChainTo prev start x (p :: l)) (hl : l ≠ []) :
    x = p ∧ ∃ u, prev x = some u ∧ ChainTo prev start u l := by
  cases h with
  | base hb => exact absurd rfl hl
  | step h hch => exact ⟨rfl, _, h, hch⟩

theorem chainTo_splice {prev prev' : α → Option α} {start x v : α}
    {pre suf chV : List α}
    (h : ChainTo prev start x (pre ++ v :: suf))
    (hnew : ChainTo prev' start v chV)
    (hpre : ∀ y ∈ pre, prev' y = prev y) :
    ChainTo prev' start x (pre ++ chV) := by
  induction pre generalizing x with
  | nil =>
    obtain ⟨t, ht⟩ := chainTo_head h
    simp only [List.nil_append] at ht ⊢
    rw [show x = v from by simpa using (congrArg List.head? ht).symm]
    exact hnew
  | cons p pre' ih =>
    rw [List.cons_append] at h
    obtain ⟨rfl, u, hu, hch⟩ := chainTo_cons_inv h (by simp)
    refine ChainTo.step ?_ (ih hch (fun y hy => hpre y (List.mem_cons_of_mem _ hy)))
    rw [hpre x (by simp)]
    exact hu

theorem chainTo_before_mem {prev : α → Option α} {start x v y : α}
    {pre suf : List α} (h : ChainTo prev start x (pre ++ v :: suf))
    (hy : y ∈ pre) :
    ∃ chY, ChainTo prev start y chY ∧ v ∈ chY := by
  induction pre generalizing x with
  | nil => simp at hy
  | cons p pre' ih =>
    rw [List.cons_append] at h
    obtain ⟨rfl, u, hu, hch⟩ := chainTo_cons_inv h (by simp)
    rcases List.mem_cons.mp hy with rfl | hy'
    · exact ⟨y :: (pre' ++ v :: suf), ChainTo.step hu hch, by simp⟩
    · exact ih hch hy'

theorem chainTo_dist_le {adjL : List (α × List (α × ℚ × ℚ))} {bw : ℚ}
    {start : α} {st : DState α} (hnn : NonnegWeights adjL bw)
    (hC : InvCore adjL bw start st) {x y : α} {ch : List α}
    (h : ChainTo st.prev start x ch) (hy : y ∈ ch) :
    ∃ dy dx, st.dist y = some dy ∧ st.dist x = some dx ∧ dy ≤ dx := by
  induction h with
  | base hb =>
    obtain rfl : y = start := by simpa using hy
    exact ⟨0, 0, hC.dist_start, hC.dist_start, le_rfl⟩
  | step h hch ih =>
    rename_i x' u ch'
    obtain ⟨len, cost, dx, du, he, hdx, hdu, hle⟩ := hC.prev_edge _ _ h
    have hdux : du ≤ dx :=
      le_trans (le_add_of_nonneg_right (hnn _ _ _ _ he)) hle
    rcases List.mem_cons.mp hy with rfl | hy'
    · exact ⟨dx, dx, hdx, hdx, le_rfl⟩
    · obtain ⟨dy, du', hdy, hdu', hled⟩ := ih hy'
      rw [hdu] at hdu'
      obtain rfl : du = du' := by simpa using hdu'
      exact ⟨dy, dx, hdy, hdx, le_trans hled hdux⟩

theorem ltOptQ_true {nd : ℚ} {o : Option ℚ} (h : ltOptQ nd o = true) :
    o = none ∨ ∃ dov, o = some dov ∧ nd < dov := by
  cases o with
  | none => exact Or.inl rfl
  | some dov =>
    refine Or.inr ⟨dov, rfl, ?_⟩
    simpa [ltOptQ] using h

theorem ltOptQ_false {nd : ℚ} {o : Option ℚ} (h : ¬ltOptQ nd o = true) :
    ∃ dov, o = some dov ∧ dov ≤ nd := by
  cases o with
  | none => exact absurd rfl h
  | some dov =>
    refine ⟨dov, rfl, ?_⟩
    simpa [ltOptQ] using h

theorem gtOptQ_false {dq : ℚ} {o : Option ℚ} (h : ¬gtOptQ dq o = true) :
    o = none ∨ ∃ du, o = some du ∧ dq ≤ du := by
  cases o with
  | none => exact Or.inl rfl
  | some du =>
    refine Or.inr ⟨du, rfl, ?_⟩
    simpa [gtOptQ] using h

theorem dle_refl (o : Option ℚ) : dle o o := fun d₂ h => ⟨d₂, h, le_rfl⟩

theorem dle_trans {o₁ o₂ o₃ : Option ℚ} (h₁ : dle o₁ o₂) (h₂ : dle o₂ o₃) :
    dle o₁ o₃ := by
  intro d₃ h₃
  obtain ⟨d₂, hd₂, hle₂⟩ := h₂ d₃ h₃
  obtain ⟨d₁, hd₁, hle₁⟩ := h₁ d₂ hd₂
  exact ⟨d₁, hd₁, le_trans hle₁ hle₂⟩

theorem relaxOne_preserving {adjL : List (α × List (α × ℚ × ℚ))} {bw : ℚ}
    {start u : α} {dq : ℚ} {st : DState α} {e : α × ℚ × ℚ}
    (hnn : NonnegWeights adjL bw)
    (he : HasEdge adjL u e.1 e.2.1 e.2.2)
    (hI : InvProc adjL bw start u dq st) :
    InvProc adjL bw start u dq (relaxOne bw dq u st e) ∧
    (∀ x, dle ((relaxOne bw dq u st e).dist x) (st.dist x)) ∧
    (∃ dv, (relaxOne bw dq u st e).dist e.1 = some dv ∧
      dv ≤ dq + edgeWeight bw e.2.1 e.2.2) := by
  by_cases himp : ltOptQ (dq + edgeWeight bw e.2.1 e.2.2) (st.dist e.1) = true
  case neg =>
    obtain ⟨dov, hdov, hle⟩ := ltOptQ_false himp
    have hid : relaxOne bw dq u st e = st := by
      simp [relaxOne, himp]
    rw [hid]
    exact ⟨hI, fun x => dle_refl _, ⟨dov, hdov, hle⟩⟩
  case pos =>
    set v := e.1 with hv
    set w := edgeWeight bw e.2.1 e.2.2 with hw
    set nd := dq + w with hnd
    have hw0 : 0 ≤ w := hnn _ _ _ _ he
    have hdq0 : 0 ≤ dq :=
      walkW_nonneg hnn (hI.dist_walk u dq hI.dist_u)
    have hnd0 : 0 ≤ nd := add_nonneg hdq0 hw0
    have hvstart : v ≠ start := by
      intro hvs
      rcases ltOptQ_true himp with hnone | ⟨dov, hdov, hlt⟩
      · rw [hvs, hI.dist_start] at hnone; exact absurd hnone (by simp)
      · rw [hvs, hI.dist_start] at hdov
        have : dov = 0 := by simpa using hdov.symm
        rw [this] at hlt
        exact absurd hlt (not_lt.mpr hnd0)
    have hvu : v ≠ u := by
      intro hvu
      rcases ltOptQ_true himp with hnone | ⟨dov, hdov, hlt⟩
      · rw [hvu, hI.dist_u] at hnone; exact absurd hnone (by simp)
      · rw [hvu, hI.dist_u] at hdov
        have : dov = dq := by simpa using hdov.symm
        rw [this] at hlt
        exact absurd hlt (not_lt.mpr (le_add_of_nonneg_right hw0))
    have hstep : relaxOne bw dq u st e =
        { dist := fun x => if x = v then some nd else st.dist x
          prev := fun x => if x = v then some u else st.prev x
          heap := heapPush st.heap nd v } := by
      simp [relaxOne, himp, hv, hw, hnd]
    rw [hstep]
    set st₁ : DState α :=
      { dist := fun x => if x = v then some nd else st.dist x
        prev := fun x => if x = v then some u else st.prev x
        heap := heapPush st.heap nd v } with hst₁
    have hperm : st₁.heap.Perm ((nd, v) :: st.heap) := heapPush_perm _ _ _
    have hmem : ∀ e' : ℚ × α, e' ∈ st₁.heap ↔ e' = (nd, v) ∨ e' ∈ st.heap := by
      intro e'
      rw [hperm.mem_iff]
      simp
    have hcount : ∀ c : ℚ × α,
        countPair st₁.heap c = countPair ((nd, v) :: st.heap) c :=
      fun c => countPair_perm hperm c
    have hdist₁ : ∀ x, st₁.dist x = if x = v then some nd else st.dist x :=
      fun x => rfl
    have hprev₁ : ∀ x, st₁.prev x = if x = v then some u else st.prev x :=
      fun x => rfl
    have hdmono : ∀ x, dle (st₁.dist x) (st.dist x) := by
      intro x d₂ h₂
      rw [hdist₁]
      by_cases hx : x = v
      · rcases ltOptQ_true himp with hnone | ⟨dov, hdov, hlt⟩
        · rw [hx] at h₂; rw [h₂] at hnone; exact absurd hnone (by simp)
        · rw [hx] at h₂; rw [h₂] at hdov
          obtain rfl : d₂ = dov := by simpa using hdov
          exact ⟨nd, by simp [hx], le_of_lt hlt⟩
      · exact ⟨d₂, by simp [hx, h₂], le_rfl⟩
    have hold_v_entry : ∀ p, (p, v) ∈ st.heap → nd < p := by
      intro p hp
      obtain ⟨dx, hdx, hlep⟩ := hI.heap_dist (p, v) hp
      rcases ltOptQ_true himp with hnone | ⟨dov, hdov, hlt⟩
      · rw [hnone] at hdx; exact absurd hdx (by simp)
      · rw [hdov] at hdx
        obtain rfl : dov = dx := by simpa using hdx
        exact lt_of_lt_of_le hlt hlep
    have hwalkv : WalkW adjL bw start v nd :=
      WalkW.cons (hI.dist_walk u dq hI.dist_u) he
    have hchainv : ∃ chV, ChainTo st₁.prev start v chV ∧ chV.Nodup ∧
        ∀ y ∈ chV, y = v ∨ ∃ chY, ChainTo st.prev start y chY ∧ v ∉ chY := by
      by_cases hu : u = start
      · refine ⟨[v, start], ?_, by simp [hvstart], ?_⟩
        · refine ChainTo.step (by rw [hprev₁, if_pos rfl, hu]) ?_
          exact ChainTo.base (by rw [hprev₁, if_neg (fun h => hvstart h.symm)]
                                 exact hI.prev_start)
        · intro y hy
          rcases (by simpa using hy : y = v ∨ y = start) with rfl | rfl
          · exact Or.inl rfl
          · refine Or.inr ⟨[y], ChainTo.base hI.prev_start, by simp [hvstart]⟩
      · have hus : (st.prev u).isSome := by
          rw [hI.prev_dom u]
          exact ⟨by rw [hI.dist_u]; simp, hu⟩
        obtain ⟨chU, hchU, hndU⟩ := hI.prev_chain u hus
        have hvnot : v ∉ chU := by
          intro hvin
          obtain ⟨dy, dxu, hdy, hdxu, hled⟩ :=
            chainTo_dist_le hnn hI.toInvCore hchU hvin
          rw [hI.dist_u] at hdxu
          obtain rfl : dq = dxu := by simpa using hdxu
          rcases ltOptQ_true himp with hnone | ⟨dov, hdov, hlt⟩
          · rw [hdy] at hnone; exact absurd hnone (by simp)
          · rw [hdy] at hdov
            obtain rfl : dy = dov := by simpa using hdov
            have : nd < dq := lt_of_lt_of_le hlt hled
            exact absurd this (not_lt.mpr (le_add_of_nonneg_right hw0))
        refine ⟨v :: chU, ?_, ?_, ?_⟩
        · refine ChainTo.step (by rw [hprev₁, if_pos rfl]) ?_
          have := chainTo_update_not_mem (o := some u) (v := v) hchU hvnot
          exact this
        · exact List.nodup_cons.mpr ⟨hvnot, hndU⟩
        · intro y hy
          rcases List.mem_cons.mp hy with rfl | hy'
          · exact Or.inl rfl
          · obtain ⟨chY, hchY, c₁, hc₁⟩ := chainTo_mem_suffix hchU hy'
            refine Or.inr ⟨chY, hchY, fun hc => hvnot ?_⟩
            rw [hc₁]
            exact List.mem_append_right _ hc
    refine ⟨?_, hdmono, ⟨nd, by rw [hdist₁, if_pos rfl], le_rfl⟩⟩
    obtain ⟨chV, hchV, hndV, hprop⟩ := hchainv
    refine ⟨⟨?_, ?_, ?_, ?_, ?_, ?_⟩, ?_, ?_, ?_, ?_, ?_, ?_, ?_⟩
    · -- dist_start
      rw [hdist₁, if_neg (fun h => hvstart h.symm)]
      exact hI.dist_start
    · -- prev_start
      rw [hprev₁, if_neg (fun h => hvstart h.symm)]
      exact hI.prev_start
    · -- dist_walk
      intro x dx hdx
      rw [hdist₁] at hdx
      by_cases hx : x = v
      · rw [if_pos hx] at hdx
        obtain rfl : nd = dx := by simpa using hdx
        rw [hx]
        exact hwalkv
      · rw [if_neg hx] at hdx
        exact hI.dist_walk x dx hdx
    · -- prev_dom
      intro x
      rw [hdist₁, hprev₁]
      by_cases hx : x = v
      · simp [hx, hvstart]
      · simp only [if_neg hx]
        exact hI.prev_dom x
    · -- prev_edge
      intro x y hxy
      rw [hprev₁] at hxy
      by_cases hx : x = v
      · rw [if_pos hx] at hxy
        obtain rfl : u = y := by simpa using hxy
        rw [hx]
        refine ⟨e.2.1, e.2.2, nd, dq, he, ?_, ?_, le_rfl⟩
        · rw [hdist₁, if_pos rfl]
        · rw [hdist₁, if_neg (fun h => hvu h.symm)]
          exact hI.dist_u
      · rw [if_neg hx] at hxy
        obtain ⟨len₂, cost₂, dx, dy, he₂, hdx, hdy, hle₂⟩ := hI.prev_edge x y hxy
        by_cases hy : y = v
        · rcases ltOptQ_true himp with hnone | ⟨dov, hdov, hlt⟩
          · rw [hy, hnone] at hdy; exact absurd hdy (by simp)
          · rw [hy, hdov] at hdy
            obtain rfl : dov = dy := by simpa using hdy
            refine ⟨len₂, cost₂, dx, nd, he₂, ?_, ?_, ?_⟩
            · rw [hdist₁, if_neg hx]; exact hdx
            · rw [hdist₁, if_pos hy]
            · exact le_trans (le_of_lt (add_lt_add_right hlt _)) hle₂
        · refine ⟨len₂, cost₂, dx, dy, he₂, ?_, ?_, hle₂⟩
          · rw [hdist₁, if_neg hx]; exact hdx
          · rw [hdist₁, if_neg hy]; exact hdy
    · -- prev_chain
      intro x hx
      by_cases hxv : x = v
      · rw [hxv]
        exact ⟨chV, hchV, hndV⟩
      · rw [hprev₁, if_neg hxv] at hx
        obtain ⟨chX, hchX, hndX⟩ := hI.prev_chain x hx
        by_cases hvin : v ∈ chX
        · -- splice the new chain of `v` into the old chain at `v`
          obtain ⟨pre, suf, hsplit⟩ := List.append_of_mem hvin
          rw [hsplit] at hchX hndX
          have hndpre : pre.Nodup := (List.nodup_append.mp hndX).1
          have hdisj := (List.nodup_append.mp hndX).2.2
          have hvpre : v ∉ pre := fun hc => hdisj hc (by simp)
          have hpre_same : ∀ y ∈ pre, st₁.prev y = st.prev y := by
            intro y hy
            rw [hprev₁, if_neg (fun h => hvpre (by rw [← h]; exact hy))]
          refine ⟨pre ++ chV, chainTo_splice hchX hchV hpre_same, ?_⟩
          rw [List.nodup_append]
          refine ⟨hndpre, hndV, ?_⟩
          intro y hy hy'
          have hyv : y ≠ v := fun h => hvpre (by rw [← h]; exact hy)
          obtain ⟨chY₁, hchY₁, hvY₁⟩ := chainTo_before_mem hchX hy
          rcases hprop y hy' with rfl | ⟨chY₂, hchY₂, hvY₂⟩
          · exact hyv rfl
          · rw [chainTo_unique hchY₁ hchY₂] at hvY₁
            exact hvY₂ hvY₁
        · exact ⟨chX, chainTo_update_not_mem hchX hvin, hndX⟩
    · -- heap_dist
      intro e' he'
      rcases (hmem e').mp he' with rfl | hin
      · exact ⟨nd, by rw [hdist₁, if_pos rfl], le_rfl⟩
      · obtain ⟨dx, hdx, hlep⟩ := hI.heap_dist e' hin
        by_cases hx : e'.2 = v
        · have hin' : (e'.1, v) ∈ st.heap := by
            rw [← hx, Prod.mk.eta]
            exact hin
          exact ⟨nd, by rw [hdist₁, if_pos hx], le_of_lt (hold_v_entry e'.1 hin')⟩
        · exact ⟨dx, by rw [hdist₁, if_neg hx]; exact hdx, hlep⟩
    · -- heap_shape
      exact heapPush_heapProp hI.heap_shape nd v
    · -- tight_unique
      intro x dx hdx
      rw [hcount, countPair_cons]
      rw [hdist₁] at hdx
      by_cases hx : x = v
      · rw [if_pos hx] at hdx
        obtain rfl : nd = dx := by simpa using hdx
        rw [hx, if_pos rfl]
        have : countPair st.heap (nd, v) = 0 := by
          rw [countPair_eq_zero]
          intro hmem'
          exact absurd (hold_v_entry nd hmem') (lt_irrefl nd)
        omega
      · rw [if_neg hx] at hdx
        rw [if_neg (by simp [Ne.symm hx])]
        have := hI.tight_unique x dx hdx
        omega
    · -- open_or_closed
      intro x dx hdx hxu
      rw [hdist₁] at hdx
      by_cases hx : x = v
      · rw [if_pos hx] at hdx
        obtain rfl : nd = dx := by simpa using hdx
        left
        rw [hx]
        exact (hmem (nd, v)).mpr (Or.inl rfl)
      · rw [if_neg hx] at hdx
        rcases hI.open_or_closed x dx hdx hxu with hopen | hclosed
        · exact Or.inl ((hmem (dx, x)).mpr (Or.inr hopen))
        · right
          constructor
          · intro v₂ len₂ cost₂ he₂
            obtain ⟨dv₂, hdv₂, hlev₂⟩ := hclosed.1 v₂ len₂ cost₂ he₂
            obtain ⟨d₁, hd₁, hled₁⟩ := hdmono v₂ dv₂ hdv₂
            exact ⟨d₁, hd₁, le_trans hled₁ hlev₂⟩
          · exact hclosed.2
    · -- dist_u
      rw [hdist₁, if_neg (fun h => hvu h.symm)]
      exact hI.dist_u
    · -- u_lb
      exact hI.u_lb
    · -- no_tight_u
      rw [hcount, countPair_cons, if_neg (by simp [hvu])]
      simpa using hI.no_tight_u

theorem relaxNeighbors_preserving {adjL : List (α × List (α × ℚ × ℚ))}
    {bw : ℚ} {start u : α} {dq : ℚ} {ns₀ : List (α × ℚ × ℚ)}
    (hnn : NonnegWeights adjL bw) (hns : alookup adjL u = some ns₀) :
    ∀ (ns : List (α × ℚ × ℚ)) (st : DState α), (∀ e ∈ ns, e ∈ ns₀) →
    InvProc adjL bw start u dq st →
    InvProc adjL bw start u dq (relaxNeighbors bw dq u ns st) ∧
    (∀ x, dle ((relaxNeighbors bw dq u ns st).dist x) (st.dist x)) ∧
    (∀ e ∈ ns, ∃ dv, (relaxNeighbors bw dq u ns st).dist e.1 = some dv ∧
      dv ≤ dq + edgeWeight bw e.2.1 e.2.2) := by
  intro ns
  induction ns with
  | nil =>
    intro st _ hI
    exact ⟨hI, fun x => dle_refl _, by simp⟩
  | cons e ns ih =>
    intro st hsub hI
    have he : HasEdge adjL u e.1 e.2.1 e.2.2 := ⟨ns₀, hns, hsub e (by simp)⟩
    obtain ⟨hI₁, hmono₁, dv, hdv, hdvle⟩ := relaxOne_preserving hnn he hI
    have hrw : relaxNeighbors bw dq u (e :: ns) st =
        relaxNeighbors bw dq u ns (relaxOne bw dq u st e) := rfl
    obtain ⟨hI₂, hmono₂, hpost⟩ :=
      ih (relaxOne bw dq u st e) (fun e' he' => hsub e' (by simp [he'])) hI₁
    refine ⟨by rw [hrw]; exact hI₂, ?_, ?_⟩
    · intro x
      rw [hrw]
      exact dle_trans (hmono₂ x) (hmono₁ x)
    · intro e' he'
      rcases List.mem_cons.mp he' with rfl | he''
      · obtain ⟨d₁, hd₁, hled₁⟩ := hmono₂ e'.1 dv hdv
        exact ⟨d₁, by rw [hrw]; exact hd₁, le_trans hled₁ hdvle⟩
      · obtain ⟨d₁, hd₁, hled₁⟩ := hpost e' he''
        exact ⟨d₁, by rw [hrw]; exact hd₁, hled₁⟩

theorem walk_lb {adjL : List (α × List (α × ℚ × ℚ))} {bw : ℚ} {start : α}
    {st : DState α} (hnn : NonnegWeights adjL bw)
    (hI : Inv adjL bw start st) {dq : ℚ}
    (hmin : ∀ e ∈ st.heap, dq ≤ e.1) :
    ∀ z w, WalkW adjL bw start z w →
      (∃ dz, st.dist z = some dz ∧ dz ≤ w) ∨ dq ≤ w := by
  intro z w hwalk
  induction hwalk with
  | nil => exact Or.inl ⟨0, hI.dist_start, le_rfl⟩
  | cons hw he ih =>
    rename_i a b c w' len cost
    have hwedge : 0 ≤ edgeWeight bw len cost := hnn _ _ _ _ he
    rcases ih with ⟨db, hdb, hdbw⟩ | hq
    · rcases hI.open_or_closed b db hdb with hopen | hclosed
      · exact Or.inr (le_trans (hmin _ hopen) (by linarith))
      · obtain ⟨dc, hdc, hdcw⟩ := hclosed.1 c len cost he
        exact Or.inl ⟨dc, hdc, by linarith⟩
    · exact Or.inr (by linarith)

theorem heapPop_head {d rest : List (ℚ × α)} {e : ℚ × α}
    (h : heapPop d = some (e, rest)) : d[0]? = some e := by
  match d with
  | [] => simp [heapPop] at h
  | [x] =>
    simp only [heapPop, Option.some.injEq, Prod.mk.injEq] at h
    rw [← h.1]
    rfl
  | x :: y :: t =>
    simp only [heapPop, Option.some.injEq, Prod.mk.injEq] at h
    rw [← h.1]
    rfl

/-- Facts available at any pop from a state satisfying the invariant. -/
theorem pop_facts {adjL : List (α × List (α × ℚ × ℚ))} {bw : ℚ} {start : α}
    {st : DState α} {dq : ℚ} {u : α} {rest : List (ℚ × α)}
    (hI : Inv adjL bw start st)
    (hpop : heapPop st.heap = some ((dq, u), rest)) :
    ((dq, u) :: rest).Perm st.heap ∧ (∀ e ∈ st.heap, dq ≤ e.1) ∧
      (∃ du, st.dist u = some du ∧ du ≤ dq) ∧ HeapProp rest := by
  have hperm := heapPop_perm hpop
  have hmin := heapProp_root_le hI.heap_shape (heapPop_head hpop)
  have hmem : (dq, u) ∈ st.heap :=
    hperm.mem_iff.mp (List.mem_cons_self _ _)
  obtain ⟨du, hdu, hdule⟩ := hI.heap_dist (dq, u) hmem
  exact ⟨hperm, hmin, ⟨du, hdu, hdule⟩, heapPop_heapProp hI.heap_shape hpop⟩

/-- The heap-independent invariant part survives any heap replacement. -/
theorem invCore_heap_irrel {adjL : List (α × List (α × ℚ × ℚ))} {bw : ℚ}
    {start : α} {st : DState α} {h' : List (ℚ × α)}
    (hC : InvCore adjL bw start st) :
    InvCore adjL bw start { st with heap := h' } :=
  ⟨hC.dist_start, hC.prev_start, hC.dist_walk, hC.prev_dom, hC.prev_edge,
    hC.prev_chain⟩

/-- Invariant preservation for a pop that is skipped (stale entry). -/
theorem pop_stale_inv {adjL : List (α × List (α × ℚ × ℚ))} {bw : ℚ}
    {start : α} {st : DState α} {dq : ℚ} {u : α} {rest : List (ℚ × α)}
    (hI : Inv adjL bw start st)
    (hpop : heapPop st.heap = some ((dq, u), rest))
    (hstale : gtOptQ dq (st.dist u) = true) :
    Inv adjL bw start { st with heap := rest } := by
  obtain ⟨hperm, hmin, ⟨du, hdu, hdule⟩, hrest⟩ := pop_facts hI hpop
  have hdult : du < dq := by
    rw [hdu] at hstale
    simpa [gtOptQ] using hstale
  refine ⟨invCore_heap_irrel hI.toInvCore, ?_, hrest, ?_, ?_⟩
  · intro e he
    exact hI.heap_dist e (hperm.mem_iff.mp (List.mem_cons_of_mem _ he))
  · intro x dx hdx
    have hdx' : st.dist x = some dx := hdx
    have h₁ := hI.tight_unique x dx hdx'
    have h₂ : countPair st.heap (dx, x) =
        countPair rest (dx, x) + (if (dq, u) = (dx, x) then 1 else 0) := by
      rw [← countPair_perm hperm, countPair_cons]
    show countPair rest (dx, x) ≤ 1
    omega
  · intro x dx hdx
    have hdx' : st.dist x = some dx := hdx
    rcases hI.open_or_closed x dx hdx' with hopen | hclosed
    · have hmemc : (dx, x) ∈ (dq, u) :: rest := hperm.mem_iff.mpr hopen
      rcases List.mem_cons.mp hmemc with heq | hmemr
      · exfalso
        obtain ⟨hdxq, hxu⟩ := Prod.ext_iff.mp heq
        simp only at hdxq hxu
        rw [hxu, hdu] at hdx'
        have : du = dx := by simpa using hdx'
        linarith
      · exact Or.inl hmemr
    · exact Or.inr hclosed

/-- A non-stale pop yields the processing invariant on the popped state. -/
theorem pop_proc {adjL : List (α × List (α × ℚ × ℚ))} {bw : ℚ}
    {start : α} {st : DState α} {dq : ℚ} {u : α} {rest : List (ℚ × α)}
    (hnn : NonnegWeights adjL bw) (hI : Inv adjL bw start st)
    (hpop : heapPop st.heap = some ((dq, u), rest))
    (hfresh : ¬gtOptQ dq (st.dist u) = true) :
    st.dist u = some dq ∧
      InvProc adjL bw start u dq { st with heap := rest } := by
  obtain ⟨hperm, hmin, ⟨du, hdu, hdule⟩, hrest⟩ := pop_facts hI hpop
  have hdueq : du = dq := by
    rcases gtOptQ_false hfresh with hnone | ⟨du', hdu', hled⟩
    · rw [hdu] at hnone; exact absurd hnone (by simp)
    · rw [hdu] at hdu'
      obtain rfl : du = du' := by simpa using hdu'
      exact le_antisymm hdule hled
  subst hdueq
  have hulb : ∀ w, WalkW adjL bw start u w → du ≤ w := by
    intro w hw
    rcases walk_lb hnn hI hmin u w hw with ⟨dz, hdz, hdzw⟩ | hq
    · rw [hdu] at hdz
      obtain rfl : du = dz := by simpa using hdz
      exact hdzw
    · exact hq
  have hcnt : countPair rest (du, u) = 0 := by
    have h₁ := hI.tight_unique u du hdu
    have h₂ : countPair st.heap (du, u) =
        countPair rest (du, u) + 1 := by
      rw [← countPair_perm hperm, countPair_cons, if_pos rfl]
    omega
  refine ⟨hdu, invCore_heap_irrel hI.toInvCore, ?_, hrest, ?_, ?_, hdu, hulb, hcnt⟩
  · intro e he
    exact hI.heap_dist e (hperm.mem_iff.mp (List.mem_cons_of_mem _ he))
  · intro x dx hdx
    have hdx' : st.dist x = some dx := hdx
    have h₁ := hI.tight_unique x dx hdx'
    have h₂ : countPair st.heap (dx, x) =
        countPair rest (dx, x) + (if (du, u) = (dx, x) then 1 else 0) := by
      rw [← countPair_perm hperm, countPair_cons]
    show countPair rest (dx, x) ≤ 1
    omega
  · intro x dx hdx hxu
    have hdx' : st.dist x = some dx := hdx
    rcases hI.open_or_closed x dx hdx' with hopen | hclosed
    · have hmemc : (dx, x) ∈ (du, u) :: rest := hperm.mem_iff.mpr hopen
      rcases List.mem_cons.mp hmemc with heq | hmemr
      · exfalso
        exact hxu (by simpa using (Prod.ext_iff.mp heq).2)
      · exact Or.inl hmemr
    · exact Or.inr hclosed

/-- After all neighbours of `u` are relaxed, the full invariant holds
again, with `u` now settled. -/
theorem proc_to_inv {adjL : List (α × List (α × ℚ × ℚ))} {bw : ℚ}
    {start u : α} {dq : ℚ} {st : DState α} {ns : List (α × ℚ × ℚ)}
    (hns : alookup adjL u = some ns) (hI : InvProc adjL bw start u dq st)
    (hrelaxed : ∀ e ∈ ns, ∃ dv, st.dist e.1 = some dv ∧
      dv ≤ dq + edgeWeight bw e.2.1 e.2.2) :
    Inv adjL bw start st := by
  refine ⟨hI.toInvCore, hI.heap_dist, hI.heap_shape, hI.tight_unique, ?_⟩
  intro x dx hdx
  by_cases hxu : x = u
  · subst hxu
    rw [hI.dist_u] at hdx
    obtain rfl : dq = dx := by simpa using hdx
    right
    constructor
    · intro v len cost he
      obtain ⟨ns', hns', hmem'⟩ := he
      rw [hns] at hns'
      obtain rfl : ns = ns' := by simpa using hns'
      exact hrelaxed (v, len, cost) hmem'
    · exact hI.u_lb
  · exact hI.open_or_closed x dx hdx hxu

/-- Invariant preservation for a non-stale pop of a node with no adjacency
entry (`if (!neighbors) continue`): the node becomes settled vacuously. -/
theorem pop_noadj_inv {adjL : List (α × List (α × ℚ × ℚ))} {bw : ℚ}
    {start : α} {st : DState α} {dq : ℚ} {u : α} {rest : List (ℚ × α)}
    (hnn : NonnegWeights adjL bw) (hI : Inv adjL bw start st)
    (hpop : heapPop st.heap = some ((dq, u), rest))
    (hfresh : ¬gtOptQ dq (st.dist u) = true)
    (hnoadj : alookup adjL u = none) :
    Inv adjL bw start { st with heap := rest } := by
  obtain ⟨hdu, hproc⟩ := pop_proc hnn hI hpop hfresh
  refine ⟨hproc.toInvCore, hproc.heap_dist, hproc.heap_shape,
    hproc.tight_unique, ?_⟩
  intro x dx hdx
  by_cases hxu : x = u
  · subst hxu
    have hdx' : st.dist x = some dx := hdx
    rw [hdu] at hdx'
    obtain rfl : dq = dx := by simpa using hdx'
    right
    constructor
    · intro v len cost he
      obtain ⟨ns', hns', _⟩ := he
      rw [hnoadj] at hns'
      exact absurd hns' (by simp)
    · exact hproc.u_lb
  · exact hproc.open_or_closed x dx hdx hxu

theorem relaxOne_heap_facts {adjL : List (α × List (α × ℚ × ℚ))} {bw : ℚ}
    {start u : α} {dq : ℚ} {st : DState α} {e : α × ℚ × ℚ}
    (he : HasEdge adjL u e.1 e.2.1 e.2.2)
    (hI : InvProc adjL bw start u dq st) :
    (∀ e' ∈ (relaxOne bw dq u st e).heap, e' ∈ st.heap ∨
      (WalkW adjL bw start e'.2 e'.1 ∧
        ∀ dx₀, st.dist e'.2 = some dx₀ → e'.1 < dx₀)) ∧
    (relaxOne bw dq u st e).heap.length ≤ st.heap.length + 1 := by
  by_cases himp : ltOptQ (dq + edgeWeight bw e.2.1 e.2.2) (st.dist e.1) = true
  case neg =>
    have hid : relaxOne bw dq u st e = st := by
      simp [relaxOne, himp]
    rw [hid]
    exact ⟨fun e' he' => Or.inl he', by omega⟩
  case pos =>
    have hstep : (relaxOne bw dq u st e).heap =
        heapPush st.heap (dq + edgeWeight bw e.2.1 e.2.2) e.1 := by
      simp [relaxOne, himp]
    rw [hstep]
    have hperm := heapPush_perm st.heap (dq + edgeWeight bw e.2.1 e.2.2) e.1
    constructor
    · intro e' he'
      rcases List.mem_cons.mp (hperm.mem_iff.mp he') with rfl | hin
      · refine Or.inr ⟨WalkW.cons (hI.dist_walk u dq hI.dist_u) he, ?_⟩
        intro dx₀ hdx₀
        rcases ltOptQ_true himp with hnone | ⟨dov, hdov, hlt⟩
        · rw [hnone] at hdx₀
          exact absurd hdx₀ (by simp)
        · rw [hdov] at hdx₀
          obtain rfl : dov = dx₀ := by simpa using hdx₀
          exact hlt
      · exact Or.inl hin
    · rw [hperm.length_eq]
      simp

theorem relaxNeighbors_heap_facts {adjL : List (α × List (α × ℚ × ℚ))}
    {bw : ℚ} {start u : α} {dq : ℚ} {ns₀ : List (α × ℚ × ℚ)}
    (hnn : NonnegWeights adjL bw) (hns : alookup adjL u = some ns₀) :
    ∀ (ns : List (α × ℚ × ℚ)) (st : DState α), (∀ e ∈ ns, e ∈ ns₀) →
    InvProc adjL bw start u dq st →
    (∀ e' ∈ (relaxNeighbors bw dq u ns st).heap, e' ∈ st.heap ∨
      (WalkW adjL bw start e'.2 e'.1 ∧
        ∀ dx₀, st.dist e'.2 = some dx₀ → e'.1 < dx₀)) ∧
    (relaxNeighbors bw dq u ns st).heap.length ≤ st.heap.length + ns.length := by
  intro ns
  induction ns with
  | nil =>
    intro st _ _
    exact ⟨fun e' he' => Or.inl he', by simp [relaxNeighbors]⟩
  | cons e ns ih =>
    intro st hsub hI
    have he : HasEdge adjL u e.1 e.2.1 e.2.2 := ⟨ns₀, hns, hsub e (by simp)⟩
    obtain ⟨hI₁, hmono₁, _⟩ := relaxOne_preserving hnn he hI
    obtain ⟨hmem₁, hlen₁⟩ := relaxOne_heap_facts he hI
    have hrw : relaxNeighbors bw dq u (e :: ns) st =
        relaxNeighbors bw dq u ns (relaxOne bw dq u st e) := rfl
    obtain ⟨hmem₂, hlen₂⟩ :=
      ih (relaxOne bw dq u st e) (fun e' he' => hsub e' (by simp [he'])) hI₁
    rw [hrw]
    constructor
    · intro e' he'
      rcases hmem₂ e' he' with hin | ⟨hwalk, hbound⟩
      · rcases hmem₁ e' hin with hin₀ | ⟨hwalk₀, hbound₀⟩
        · exact Or.inl hin₀
        · exact Or.inr ⟨hwalk₀, hbound₀⟩
      · refine Or.inr ⟨hwalk, ?_⟩
        intro dx₀ hdx₀
        obtain ⟨d₁, hd₁, hled₁⟩ := hmono₁ e'.2 dx₀ hdx₀
        exact lt_of_lt_of_le (hbound d₁ hd₁) hled₁
    · simp only [List.length_cons]
      omega

theorem nodeDoneB_iff {st : DState α} {x : α} :
    nodeDoneB st x = true ↔
      ∃ dx, st.dist x = some dx ∧ ∀ e ∈ st.heap, e.2 = x → dx < e.1 := by
  unfold nodeDoneB
  cases hd : st.dist x with
  | none => simp
  | some dx =>
    simp only [List.all_eq_true, Option.some.injEq]
    constructor
    · intro h
      refine ⟨dx, rfl, ?_⟩
      intro e he hex
      have := h e he
      rcases Bool.or_eq_true_iff.mp this with h' | h'
      · simp [hex] at h'
      · simpa using h'
    · rintro ⟨dx', hdx', hall⟩
      obtain rfl : dx = dx' := by simpa using hdx'
      intro e he
      by_cases hex : e.2 = x
      · simp [hex, hall e he hex]
      · simp [hex]

theorem sum_filter_mono {β : Type} {l : List β} {f : β → ℕ} {p q : β → Bool}
    (h : ∀ x ∈ l, q x = true → p x = true) :
    ((l.filter q).map f).sum ≤ ((l.filter p).map f).sum := by
  induction l with
  | nil => simp
  | cons a t ih =>
    have ih' := ih (fun x hx hq => h x (by simp [hx]) hq)
    by_cases hq : q a = true
    · rw [List.filter_cons_of_pos hq, List.filter_cons_of_pos (h a (by simp) hq)]
      simpa using ih'
    · rw [List.filter_cons_of_neg (by simpa using hq)]
      by_cases hp : p a = true
      · rw [List.filter_cons_of_pos hp]
        simp only [List.map_cons, List.sum_cons]
        omega
      · rw [List.filter_cons_of_neg (by simpa using hp)]
        exact ih'

theorem sum_filter_flip {β : Type} {l : List β} {f : β → ℕ} {p q : β → Bool}
    (h : ∀ x ∈ l, q x = true → p x = true) {u : β} (hu : u ∈ l)
    (hpu : p u = true) (hqu : q u = false) :
    ((l.filter q).map f).sum + f u ≤ ((l.filter p).map f).sum := by
  induction l with
  | nil => simp at hu
  | cons a t ih =>
    have hsub : ∀ x ∈ t, q x = true → p x = true :=
      fun x hx hq => h x (by simp [hx]) hq
    rcases List.mem_cons.mp hu with rfl | hut
    · rw [List.filter_cons_of_neg (by simp [hqu]), List.filter_cons_of_pos hpu]
      simp only [List.map_cons, List.sum_cons]
      have := sum_filter_mono (l := t) (f := f) hsub
      omega
    · have ih' := ih hsub hut
      by_cases hq : q a = true
      · rw [List.filter_cons_of_pos hq, List.filter_cons_of_pos (h a (by simp) hq)]
        simp only [List.map_cons, List.sum_cons]
        omega
      · rw [List.filter_cons_of_neg (by simpa using hq)]
        by_cases hp : p a = true
        · rw [List.filter_cons_of_pos hp]
          simp only [List.map_cons, List.sum_cons]
          omega
        · rw [List.filter_cons_of_neg (by simpa using hp)]
          exact ih'

theorem heapPop_eq_none {d : List (ℚ × α)} : heapPop d = none ↔ d = [] := by
  cases d with
  | nil => simp [heapPop]
  | cons x t => cases t <;> simp [heapPop]

theorem alookup_mem_keys {κ β : Type} [DecidableEq κ] {l : List (κ × β)}
    {k : κ} {b : β} (h : alookup l k = some b) : k ∈ l.map Prod.fst := by
  induction l with
  | nil => simp [alookup] at h
  | cons e t ih =>
    rcases e with ⟨k', b'⟩
    by_cases hk : k = k'
    · simp [hk]
    · simp only [alookup, if_neg hk] at h
      simp [ih h]

/-- The termination measure strictly drops when an entry is popped and the
rest of the iteration leaves the state otherwise unchanged. -/
theorem measure_skip {adjL : List (α × List (α × ℚ × ℚ))} {st : DState α}
    {dq : ℚ} {u : α} {rest : List (ℚ × α)}
    (hperm : ((dq, u) :: rest).Perm st.heap) :
    dMeasure adjL { st with heap := rest } < dMeasure adjL st := by
  have hlen : st.heap.length = rest.length + 1 := by
    rw [← hperm.length_eq]
    simp
  have hmono : ∀ x, nodeDoneB st x = true →
      nodeDoneB { st with heap := rest } x = true := by
    intro x hx
    rw [nodeDoneB_iff] at hx ⊢
    obtain ⟨dx, hdx, hall⟩ := hx
    exact ⟨dx, hdx, fun e he hex =>
      hall e (hperm.mem_iff.mp (List.mem_cons_of_mem _ he)) hex⟩
  have hsum := sum_filter_mono (l := (adjL.map Prod.fst).dedup)
    (f := fun u => ((alookup adjL u).getD []).length + 1)
    (p := fun v => !nodeDoneB st v)
    (q := fun v => !nodeDoneB { st with heap := rest } v)
    (by
      intro x _ hq
      by_cases hdone : nodeDoneB st x = true
      · exfalso
        have h' := hmono x hdone
        simp [h'] at hq
      · rw [Bool.not_eq_true] at hdone
        simp [hdone])
  unfold dMeasure
  simp only
  omega

/-- A non-stale pop of a node with an adjacency list: the relaxation
re-establishes the invariant and strictly decreases the measure. -/
theorem process_step {adjL : List (α × List (α × ℚ × ℚ))} {bw : ℚ}
    {start : α} {st : DState α} {dq : ℚ} {u : α} {rest : List (ℚ × α)}
    {ns : List (α × ℚ × ℚ)}
    (hnn : NonnegWeights adjL bw) (hI : Inv adjL bw start st)
    (hpop : heapPop st.heap = some ((dq, u), rest))
    (hfresh : ¬gtOptQ dq (st.dist u) = true)
    (hns : alookup adjL u = some ns) :
    Inv adjL bw start (relaxNeighbors bw dq u ns { st with heap := rest }) ∧
    dMeasure adjL (relaxNeighbors bw dq u ns { st with heap := rest }) <
      dMeasure adjL st := by
  obtain ⟨hperm, hmin, _, _⟩ := pop_facts hI hpop
  obtain ⟨hdu, hproc⟩ := pop_proc hnn hI hpop hfresh
  set st₀ : DState α := { st with heap := rest } with hst₀
  obtain ⟨hproc₂, hmono₂, hrelaxed⟩ :=
    relaxNeighbors_preserving hnn hns ns st₀ (fun e he => he) hproc
  obtain ⟨hhmem, hhlen⟩ :=
    relaxNeighbors_heap_facts hnn hns ns st₀ (fun e he => he) hproc
  set st₂ : DState α := relaxNeighbors bw dq u ns st₀ with hst₂
  have hInv₂ : Inv adjL bw start st₂ := proc_to_inv hns hproc₂ hrelaxed
  refine ⟨hInv₂, ?_⟩
  -- measure bookkeeping
  have hlen : st.heap.length = rest.length + 1 := by
    rw [← hperm.length_eq]
    simp
  have hulen : st₂.heap.length ≤ rest.length + ns.length := hhlen
  have hukey : u ∈ (adjL.map Prod.fst).dedup :=
    List.mem_dedup.mpr (alookup_mem_keys hns)
  have hfu : ((alookup adjL u).getD []).length + 1 = ns.length + 1 := by
    rw [hns]
    rfl
  -- u was not done before the pop
  have hu_not_done : nodeDoneB st u = false := by
    by_contra h
    rw [Bool.not_eq_false, nodeDoneB_iff] at h
    obtain ⟨dx, hdx, hall⟩ := h
    rw [hdu] at hdx
    obtain rfl : dq = dx := by simpa using hdx
    have hmem : (dq, u) ∈ st.heap := hperm.mem_iff.mp (List.mem_cons_self _ _)
    exact absurd (hall (dq, u) hmem rfl) (lt_irrefl dq)
  -- u is done afterwards
  have hu_done : nodeDoneB st₂ u = true := by
    rw [nodeDoneB_iff]
    refine ⟨dq, hproc₂.dist_u, ?_⟩
    intro e he hex
    obtain ⟨dx, hdx, hlex⟩ := hproc₂.heap_dist e he
    rw [hex, hproc₂.dist_u] at hdx
    obtain rfl : dq = dx := by simpa using hdx
    rcases lt_or_eq_of_le hlex with h | h
    · exact h
    · exfalso
      have : (dq, u) ∈ st₂.heap := by
        have : e = (dq, u) := by
          rcases e with ⟨p, z⟩
          simp only at hex h
          rw [hex, ← h]
        rw [← this]
        exact he
      have hzero := hproc₂.no_tight_u
      rw [countPair_eq_zero] at hzero
      exact hzero this
  -- done nodes stay done
  have hkeep : ∀ x, nodeDoneB st x = true → nodeDoneB st₂ x = true := by
    intro x hx
    rw [nodeDoneB_iff] at hx
    obtain ⟨dx, hdx, hall⟩ := hx
    have hxu : x ≠ u := by
      intro h
      rw [h] at hdx hall
      rw [hdu] at hdx
      obtain rfl : dq = dx := by simpa using hdx
      exact absurd (hall (dq, u) (hperm.mem_iff.mp (List.mem_cons_self _ _)) rfl)
        (lt_irrefl dq)
    have hclosed : ClosedAt adjL bw start st x dx := by
      rcases hI.open_or_closed x dx hdx with hopen | hclosed
      · exact absurd (hall (dx, x) hopen rfl) (lt_irrefl dx)
      · exact hclosed
    -- the distance of x is unchanged
    have hdx₂ : st₂.dist x = some dx := by
      obtain ⟨dx', hdx', hled'⟩ := hmono₂ x dx hdx
      have hwx : WalkW adjL bw start x dx' := hInv₂.dist_walk x dx' hdx'
      have := hclosed.2 dx' hwx
      have : dx' = dx := le_antisymm hled' this
      rw [← this]
      exact hdx'
    rw [nodeDoneB_iff]
    refine ⟨dx, hdx₂, ?_⟩
    intro e he hex
    rcases hhmem e he with hin | ⟨hwalk, hbound⟩
    · exact hall e (hperm.mem_iff.mp (List.mem_cons_of_mem _ hin)) hex
    · exfalso
      rw [hex] at hwalk hbound
      have h₁ : e.1 < dx := hbound dx hdx
      have h₂ : dx ≤ e.1 := hclosed.2 e.1 hwalk
      linarith
  have hsum := sum_filter_flip (l := (adjL.map Prod.fst).dedup)
    (f := fun u => ((alookup adjL u).getD []).length + 1)
    (p := fun v => !nodeDoneB st v) (q := fun v => !nodeDoneB st₂ v)
    (by
      intro x _ hq
      by_cases hdone : nodeDoneB st x = true
      · exfalso
        have h' := hkeep x hdone
        simp [h'] at hq
      · rw [Bool.not_eq_true] at hdone
        simp [hdone])
    hukey (by simp [hu_not_done]) (by simp [hu_done])
  unfold dMeasure
  simp only [] at hsum
  rw [hfu] at hsum
  omega

/-- The main loop theorem: started from an invariant state with enough
fuel, the `while` loop reaches either an empty heap (with the invariant
intact) or the early exit at `endNode` (with the popped node's recorded
distance optimal). -/
theorem dijkstraLoop_main {adjL : List (α × List (α × ℚ × ℚ))} {bw : ℚ}
    {start endNode : α} (hnn : NonnegWeights adjL bw) :
    ∀ (fuel : ℕ) (st : DState α), Inv adjL bw start st →
      dMeasure adjL st ≤ fuel →
      (Inv adjL bw start (dijkstraLoop adjL bw endNode fuel st) ∧
        (dijkstraLoop adjL bw endNode fuel st).heap = []) ∨
      (InvCore adjL bw start (dijkstraLoop adjL bw endNode fuel st) ∧
        ∃ de, (dijkstraLoop adjL bw endNode fuel st).dist endNode = some de ∧
          ∀ w, WalkW adjL bw start endNode w → de ≤ w) := by
  intro fuel
  induction fuel with
  | zero =>
    intro st hI hμ
    left
    have hlen : st.heap.length = 0 := by
      unfold dMeasure at hμ
      omega
    have hnil : st.heap = [] := List.length_eq_zero.mp hlen
    exact ⟨hI, hnil⟩
  | succ fuel ih =>
    intro st hI hμ
    rw [dijkstraLoop]
    cases hpop : heapPop st.heap with
    | none =>
      left
      exact ⟨hI, heapPop_eq_none.mp hpop⟩
    | some pr =>
      obtain ⟨⟨dq, u⟩, rest⟩ := pr
      dsimp only
      by_cases hend : u = endNode
      · rw [if_pos hend]
        right
        obtain ⟨hperm, hmin, ⟨du, hdu, hdule⟩, hrest⟩ := pop_facts hI hpop
        refine ⟨invCore_heap_irrel hI.toInvCore, du, ?_, ?_⟩
        · show st.dist endNode = some du
          rw [← hend]
          exact hdu
        · intro w hw
          rcases walk_lb hnn hI hmin endNode w hw with ⟨dz, hdz, hzw⟩ | hq
          · rw [← hend, hdu] at hdz
            obtain rfl : du = dz := by simpa using hdz
            exact hzw
          · exact le_trans hdule hq
      · rw [if_neg hend]
        by_cases hstale : gtOptQ dq (st.dist u) = true
        · rw [if_pos hstale]
          have hI' := pop_stale_inv hI hpop hstale
          have hμ' : dMeasure adjL { st with heap := rest } < dMeasure adjL st :=
            measure_skip (heapPop_perm hpop)
          exact ih _ hI' (by omega)
        · rw [if_neg hstale]
          cases hadj : alookup adjL u with
          | none =>
            have hI' := pop_noadj_inv hnn hI hpop hstale hadj
            have hμ' : dMeasure adjL { st with heap := rest } <
                dMeasure adjL st :=
              measure_skip (heapPop_perm hpop)
            exact ih _ hI' (by omega)
          | some ns =>
            obtain ⟨hI₂, hμ₂⟩ := process_step hnn hI hpop hstale hadj
            exact ih _ hI₂ (by omega)

/-- The initial search state satisfies the invariant. -/
theorem init_inv (adjL : List (α × List (α × ℚ × ℚ))) (bw : ℚ) (start : α) :
    Inv adjL bw start
      { dist := fun x => if x = start then some 0 else none
        prev := fun _ => none
        heap := [(0, start)] } := by
  refine ⟨⟨?_, ?_, ?_, ?_, ?_, ?_⟩, ?_, ?_, ?_, ?_⟩
  · simp
  · simp
  · intro x dx hdx
    by_cases hx : x = start
    · rw [hx]
      simp only [hx, if_pos rfl] at hdx
      obtain rfl : (0 : ℚ) = dx := by simpa using hdx
      exact WalkW.nil start
    · simp [hx] at hdx
  · intro x
    by_cases hx : x = start <;> simp [hx]
  · intro x u h
    simp at h
  · intro x h
    simp at h
  · intro e he
    obtain rfl : e = (0, start) := by simpa using he
    exact ⟨0, by simp, le_rfl⟩
  · intro j x y hj hx
    rcases j with _ | j
    · omega
    · rcases j with _ | j <;> simp at hx
  · intro x dx hdx
    show List.countP _ _ ≤ 1
    simp [List.countP_cons]
    split <;> omega
  · intro x dx hdx
    have hdx' : (if x = start then some (0 : ℚ) else none) = some dx := hdx
    by_cases hx : x = start
    · rw [hx] at hdx' ⊢
      rw [if_pos rfl] at hdx'
      obtain rfl : (0 : ℚ) = dx := by simpa using hdx'
      left
      simp
    · rw [if_neg hx] at hdx'
      exact absurd hdx' (by simp)

theorem foldl_add_sum {β : Type} (f : β → ℕ) :
    ∀ (l : List β) (n : ℕ), l.foldl (fun a p => a + f p) n = n + (l.map f).sum := by
  intro l
  induction l with
  | nil => simp
  | cons a t ih =>
    intro n
    simp only [List.foldl_cons, List.map_cons, List.sum_cons]
    rw [ih]
    omega

theorem alookup_mem {κ β : Type} [DecidableEq κ] {l : List (κ × β)} {k : κ}
    {b : β} (h : alookup l k = some b) : (k, b) ∈ l := by
  induction l with
  | nil => simp [alookup] at h
  | cons e t ih =>
    rcases e with ⟨k', b'⟩
    by_cases hk : k = k'
    · subst hk
      simp only [alookup, if_pos rfl] at h
      obtain rfl : b' = b := by simpa using h
      simp
    · simp only [alookup, if_neg hk] at h
      simp [ih h]

theorem mem_keys_isSome {κ β : Type} [DecidableEq κ] {l : List (κ × β)}
    {k : κ} (h : k ∈ l.map Prod.fst) : (alookup l k).isSome := by
  induction l with
  | nil => simp at h
  | cons e t ih =>
    rcases e with ⟨k', b'⟩
    by_cases hk : k = k'
    · simp [alookup, hk]
    · simp only [List.map_cons, List.mem_cons] at h
      rcases h with h | h
      · exact absurd h hk
      · simp only [alookup, if_neg hk]
        exact ih h

theorem sum_dedup_keys_le {adjL : List (α × List (α × ℚ × ℚ))} :
    ∀ (ks : List α), ks.Nodup → (∀ k ∈ ks, (alookup adjL k).isSome) →
    (ks.map (fun u => ((alookup adjL u).getD []).length + 1)).sum ≤
      (adjL.map (fun p => p.2.length + 1)).sum := by
  induction adjL with
  | nil =>
    intro ks hnd hall
    have : ks = [] := by
      rcases ks with _ | ⟨k, t⟩
      · rfl
      · have := hall k (by simp)
        simp [alookup] at this
    rw [this]
    simp
  | cons a t ih =>
    intro ks hnd hall
    by_cases ha : a.1 ∈ ks
    · have hperm : ks.Perm (a.1 :: ks.erase a.1) := List.perm_cons_erase ha
      rw [(hperm.map _).sum_eq]
      simp only [List.map_cons, List.sum_cons]
      have hfa : ((alookup (a :: t) a.1).getD []).length + 1 = a.2.length + 1 := by
        rcases a with ⟨k', es⟩
        simp [alookup]
      rw [hfa]
      have hsub : ∀ k ∈ ks.erase a.1, k ≠ a.1 := by
        intro k hk
        exact (List.Nodup.mem_erase_iff hnd |>.mp hk).1
      have hcongr : (ks.erase a.1).map
          (fun u => ((alookup (a :: t) u).getD []).length + 1) =
          (ks.erase a.1).map (fun u => ((alookup t u).getD []).length + 1) := by
        apply List.map_congr_left
        intro k hk
        rcases a with ⟨k', es⟩
        have : k ≠ k' := hsub k hk
        simp [alookup, this]
      have hall' : ∀ k ∈ ks.erase a.1, (alookup t k).isSome := by
        intro k hk
        have := hall k (List.mem_of_mem_erase hk)
        rcases a with ⟨k', es⟩
        have hne : k ≠ k' := hsub k hk
        simpa [alookup, hne] using this
      have := ih (ks.erase a.1) (hnd.erase a.1) hall'
      rw [hcongr] at *
      omega
    · have hsub : ∀ k ∈ ks, k ≠ a.1 := fun k hk h => ha (h ▸ hk)
      have hcongr : ks.map (fun u => ((alookup (a :: t) u).getD []).length + 1) =
          ks.map (fun u => ((alookup t u).getD []).length + 1) := by
        apply List.map_congr_left
        intro k hk
        rcases a with ⟨k', es⟩
        have : k ≠ k' := hsub k hk
        simp [alookup, this]
      have hall' : ∀ k ∈ ks, (alookup t k).isSome := by
        intro k hk
        have := hall k hk
        rcases a with ⟨k', es⟩
        have hne : k ≠ k' := hsub k hk
        simpa [alookup, hne] using this
      rw [hcongr]
      have := ih ks hnd hall'
      simp only [List.map_cons, List.sum_cons]
      omega

theorem dMeasure_le (adjL : List (α × List (α × ℚ × ℚ))) (st : DState α) :
    dMeasure adjL st ≤
      st.heap.length + (adjL.map (fun p => p.2.length + 1)).sum := by
  unfold dMeasure
  have h₁ : (((adjL.map Prod.fst).dedup.filter (fun u => !nodeDoneB st u)).map
      (fun u => ((alookup adjL u).getD []).length + 1)).sum ≤
      (((adjL.map Prod.fst).dedup).map
        (fun u => ((alookup adjL u).getD []).length + 1)).sum := by
    have := sum_filter_mono (l := (adjL.map Prod.fst).dedup)
      (f := fun u => ((alookup adjL u).getD []).length + 1)
      (p := fun _ => true) (q := fun u => !nodeDoneB st u)
      (fun x hx hq => rfl)
    rwa [List.filter_true] at this
  have h₂ := @sum_dedup_keys_le α _ adjL (adjL.map Prod.fst).dedup
    (List.nodup_dedup _) (fun k hk => mem_keys_isSome (List.mem_dedup.mp hk))
  omega

theorem dMeasure_init_le {adjL : List (α × List (α × ℚ × ℚ))} {start : α} :
    dMeasure adjL
      { dist := fun x => if x = start then some 0 else none
        prev := fun _ => none
        heap := [(0, start)] } ≤ loopFuel adjL := by
  have h := dMeasure_le adjL
    { dist := fun x => if x = start then some 0 else none
      prev := fun _ => none
      heap := [(0, start)] }
  unfold loopFuel
  rw [foldl_add_sum (fun p => p.2.length + 1) adjL 0]
  have h₃ : ([((0 : ℚ), start)] : List (ℚ × α)).length = 1 := rfl
  simp only [h₃] at h
  omega

theorem reconstruct_chain {prev : α → Option α} {start x : α} {ch : List α}
    (h : ChainTo prev start x ch) :
    ∀ fuel, ch.length ≤ fuel →
      reconstruct (fun _ => false) prev fuel x = ch := by
  induction h with
  | base hb =>
    intro fuel hf
    obtain ⟨f, rfl⟩ : ∃ f, fuel = f + 1 := ⟨fuel - 1, by simp at hf; omega⟩
    simp [reconstruct, hb]
  | step h hch ih =>
    rename_i x' u ch'
    intro fuel hf
    obtain ⟨f, rfl⟩ : ∃ f, fuel = f + 1 :=
      ⟨fuel - 1, by simp at hf; omega⟩
    simp only [reconstruct, h, Bool.false_eq_true, if_false]
    rw [ih f (by simp at hf; omega)]

theorem chainTo_mem_elem {prev : α → Option α} {start x : α} {ch : List α}
    (h : ChainTo prev start x ch) :
    ∀ y ∈ ch, y = start ∨ (prev y).isSome := by
  induction h with
  | base hb =>
    intro y hy
    exact Or.inl (by simpa using hy)
  | step h hch ih =>
    intro y hy
    rcases List.mem_cons.mp hy with rfl | hy'
    · exact Or.inr (by simp [h])
    · exact ih y hy'

theorem hasEdge_target {adjL : List (α × List (α × ℚ × ℚ))} {u x : α}
    {len cost : ℚ} (h : HasEdge adjL u x len cost) : x ∈ targetsList adjL := by
  obtain ⟨ns, hns, hmem⟩ := h
  have h₁ : (u, ns) ∈ adjL := alookup_mem hns
  have h₂ : ns.map Prod.fst ∈ adjL.map (fun p => p.2.map Prod.fst) :=
    List.mem_map.mpr ⟨(u, ns), h₁, rfl⟩
  have h₃ : x ∈ ns.map Prod.fst := List.mem_map.mpr ⟨(x, len, cost), hmem, rfl⟩
  exact List.mem_join.mpr ⟨ns.map Prod.fst, h₂, h₃⟩

theorem chain_length_le {adjL : List (α × List (α × ℚ × ℚ))} {bw : ℚ}
    {start : α} {st : DState α} [DecidableEq α]
    (hC : InvCore adjL bw start st) {x : α} {ch : List α}
    (h : ChainTo st.prev start x ch) (hnd : ch.Nodup) :
    ch.length ≤ 1 + (targetsList adjL).length := by
  have hsub : ∀ y ∈ ch, y ∈ start :: targetsList adjL := by
    intro y hy
    rcases chainTo_mem_elem h y hy with rfl | hsome
    · simp
    · rw [Option.isSome_iff_exists] at hsome
      obtain ⟨u, hu⟩ := hsome
      obtain ⟨len, cost, dx, du, he, _, _, _⟩ := hC.prev_edge y u hu
      exact List.mem_cons_of_mem _ (hasEdge_target he)
  calc ch.length = ch.toFinset.card := (List.toFinset_card_of_nodup hnd).symm
    _ ≤ (start :: targetsList adjL).toFinset.card := by
        apply Finset.card_le_card
        intro y hy
        rw [List.mem_toFinset] at *
        exact hsub y (by simpa using hy)
    _ ≤ (start :: targetsList adjL).length := List.toFinset_card_le _
    _ = 1 + (targetsList adjL).length := by simp [Nat.add_comm]

theorem targetsList_length {adjL : List (α × List (α × ℚ × ℚ))} :
    (targetsList adjL).length = (adjL.map (fun p => p.2.length)).sum := by
  unfold targetsList
  rw [List.length_join]
  rw [List.map_map]
  congr 1
  apply List.map_congr_left
  intro p _
  simp

theorem chain_length_le_recFuel {adjL : List (α × List (α × ℚ × ℚ))} {bw : ℚ}
    {start : α} {st : DState α} [DecidableEq α]
    (hC : InvCore adjL bw start st) {x : α} {ch : List α}
    (h : ChainTo st.prev start x ch) (hnd : ch.Nodup) :
    ch.length ≤ recFuel adjL := by
  have h₁ := chain_length_le hC h hnd
  have h₂ : (targetsList adjL).length = (adjL.map (fun p => p.2.length)).sum :=
    targetsList_length
  unfold recFuel
  rw [foldl_add_sum (fun p => p.2.length) adjL 0]
  omega

theorem bestFor_eq_foldl (bw : ℚ) (v : α) (ns : List (α × ℚ × ℚ)) :
    bestFor bw v ns = ns.foldl (bestStep bw v) (none, 0, 0) := rfl

theorem bestFor_go {bw : ℚ} {v : α} (Q : ℚ × ℚ → Prop) :
    ∀ (ns : List (α × ℚ × ℚ)) (acc : Option ℚ × ℚ × ℚ),
      (acc = ((none : Option ℚ), (0 : ℚ), (0 : ℚ)) ∨
        ∃ len cost, acc = (some (edgeWeight bw len cost), len, cost) ∧
          Q (len, cost)) →
      (∀ e ∈ ns, e.1 = v → Q (e.2.1, e.2.2)) →
      (ns.foldl (bestStep bw v) acc = acc ∨
        ∃ len cost, ns.foldl (bestStep bw v) acc =
          (some (edgeWeight bw len cost), len, cost) ∧ Q (len, cost)) ∧
      dle (ns.foldl (bestStep bw v) acc).1 acc.1 ∧
      (∀ e ∈ ns, e.1 = v →
        ∃ w, (ns.foldl (bestStep bw v) acc).1 = some w ∧
          w ≤ edgeWeight bw e.2.1 e.2.2) := by
  intro ns
  induction ns with
  | nil =>
    intro acc hacc _
    refine ⟨Or.inl rfl, dle_refl _, ?_⟩
    intro e he
    simp at he
  | cons e ns ih =>
    intro acc hacc hQ
    rw [List.foldl_cons]
    by_cases hev : e.1 = v
    · by_cases himp : ltOptQ (edgeWeight bw e.2.1 e.2.2) acc.1 = true
      · have hstep : bestStep bw v acc e =
            (some (edgeWeight bw e.2.1 e.2.2), e.2.1, e.2.2) := by
          unfold bestStep
          rw [if_pos hev]
          simp only [himp, if_pos]
        rw [hstep]
        have hQ' : Q (e.2.1, e.2.2) := hQ e (List.mem_cons_self _ _) hev
        obtain ⟨hdisj, hdle, hmin⟩ := ih
          (some (edgeWeight bw e.2.1 e.2.2), e.2.1, e.2.2)
          (Or.inr ⟨e.2.1, e.2.2, rfl, hQ'⟩)
          (fun e' he' hv => hQ e' (List.mem_cons_of_mem _ he') hv)
        refine ⟨?_, ?_, ?_⟩
        · rcases hdisj with heq | hex
          · exact Or.inr ⟨e.2.1, e.2.2, heq, hQ'⟩
          · exact Or.inr hex
        · intro d₂ h₂
          obtain ⟨d₁, hd₁, hle₁⟩ := hdle (edgeWeight bw e.2.1 e.2.2) rfl
          rcases ltOptQ_true himp with hn | ⟨dov, hov, hlt⟩
          · rw [hn] at h₂
            exact absurd h₂ (by simp)
          · rw [hov] at h₂
            obtain rfl : dov = d₂ := by simpa using h₂
            exact ⟨d₁, hd₁, le_trans hle₁ (le_of_lt hlt)⟩
        · intro e' he' hv
          rcases List.mem_cons.mp he' with rfl | hmem
          · obtain ⟨d₁, hd₁, hle₁⟩ := hdle (edgeWeight bw e'.2.1 e'.2.2) rfl
            exact ⟨d₁, hd₁, hle₁⟩
          · exact hmin e' hmem hv
      · have hstep : bestStep bw v acc e = acc := by
          unfold bestStep
          rw [if_pos hev]
          simp only [himp, if_neg]
          simp [himp]
        rw [hstep]
        obtain ⟨hdisj, hdle, hmin⟩ := ih acc hacc
          (fun e' he' hv => hQ e' (List.mem_cons_of_mem _ he') hv)
        refine ⟨hdisj, hdle, ?_⟩
        intro e' he' hv
        rcases List.mem_cons.mp he' with rfl | hmem
        · obtain ⟨dov, hov, hle⟩ := ltOptQ_false himp
          obtain ⟨d₁, hd₁, hle₁⟩ := hdle dov hov
          exact ⟨d₁, hd₁, le_trans hle₁ hle⟩
        · exact hmin e' hmem hv
    · have hstep : bestStep bw v acc e = acc := by
        unfold bestStep
        rw [if_neg hev]
      rw [hstep]
      obtain ⟨hdisj, hdle, hmin⟩ := ih acc hacc
        (fun e' he' hv => hQ e' (List.mem_cons_of_mem _ he') hv)
      refine ⟨hdisj, hdle, ?_⟩
      intro e' he' hv
      rcases List.mem_cons.mp he' with rfl | hmem
      · exact absurd hv hev
      · exact hmin e' hmem hv

/-- Full specification of the parallel-edge scan: either no parallel edge
`u → v` exists and the defaults `(none, 0, 0)` are returned, or the scan
returns a parallel edge of minimum weight together with that weight. -/
theorem bestFor_spec (bw : ℚ) (v : α) (ns : List (α × ℚ × ℚ)) :
    (bestFor bw v ns = (none, 0, 0) ∧ ∀ e ∈ ns, e.1 ≠ v) ∨
    (∃ len cost, bestFor bw v ns = (some (edgeWeight bw len cost), len, cost) ∧
      (v, len, cost) ∈ ns ∧
      ∀ e ∈ ns, e.1 = v → edgeWeight bw len cost ≤ edgeWeight bw e.2.1 e.2.2) := by
  have hQ : ∀ e ∈ ns, e.1 = v → (v, e.2.1, e.2.2) ∈ ns := by
    intro e he hv
    have hve : (v, e.2.1, e.2.2) = e := by
      rw [← hv]
    rw [hve]
    exact he
  obtain ⟨hdisj, _, hmin⟩ := bestFor_go (fun lc => (v, lc.1, lc.2) ∈ ns) ns
    (none, 0, 0) (Or.inl rfl) hQ
  rw [← bestFor_eq_foldl] at hdisj hmin
  rcases hdisj with heq | ⟨len, cost, heq, hmem⟩
  · left
    refine ⟨heq, ?_⟩
    intro e he hv
    obtain ⟨w, hw, _⟩ := hmin e he hv
    rw [heq] at hw
    exact absurd hw (by simp)
  · right
    refine ⟨len, cost, heq, hmem, ?_⟩
    intro e he hv
    obtain ⟨w, hw, hle⟩ := hmin e he hv
    rw [heq] at hw
    obtain rfl : edgeWeight bw len cost = w := by simpa using hw
    exact hle

/-- When the scan finds a weight, the returned `(length, accCost)` is a real
parallel edge achieving it. -/
theorem bestFor_mem {bw : ℚ} {v : α} {ns : List (α × ℚ × ℚ)} {w : ℚ}
    (h : (bestFor bw v ns).1 = some w) :
    (v, (bestFor bw v ns).2) ∈ ns ∧
      w = edgeWeight bw (bestFor bw v ns).2.1 (bestFor bw v ns).2.2 := by
  rcases bestFor_spec bw v ns with ⟨heq, _⟩ | ⟨len, cost, heq, hmem, _⟩
  · rw [heq] at h
    exact absurd h (by simp)
  · rw [heq] at h ⊢
    obtain rfl : edgeWeight bw len cost = w := by simpa using h
    exact ⟨hmem, rfl⟩

/-- An actual edge `u → v` bounds the hop minimum from above (in particular
the hop is defined). -/
theorem hop_some {adjL : List (α × List (α × ℚ × ℚ))} {bw : ℚ} {u v : α}
    {len cost : ℚ} (he : HasEdge adjL u v len cost) :
    ∃ w, hop adjL bw u v = some w ∧ w ≤ edgeWeight bw len cost := by
  obtain ⟨ns, hns, hmem⟩ := he
  have hh : hop adjL bw u v = (bestFor bw v ns).1 := by
    simp [hop, hns]
  rw [hh]
  rcases bestFor_spec bw v ns with ⟨_, hnone⟩ | ⟨l, c, heq, _, hmin⟩
  · exact absurd rfl (hnone (v, len, cost) hmem)
  · rw [heq]
    exact ⟨edgeWeight bw l c, rfl, hmin (v, len, cost) hmem rfl⟩

/-- A defined hop value is the weight of an actual edge `u → v`. -/
theorem hop_edge {adjL : List (α × List (α × ℚ × ℚ))} {bw : ℚ} {u v : α}
    {w : ℚ} (h : hop adjL bw u v = some w) :
    ∃ len cost, HasEdge adjL u v len cost ∧ w = edgeWeight bw len cost := by
  cases hns : alookup adjL u with
  | none =>
    simp only [hop, hns] at h
    exact absurd h (by simp)
  | some ns =>
    simp only [hop, hns] at h
    rcases bestFor_spec bw v ns with ⟨heq, _⟩ | ⟨l, c, heq, hmem, _⟩
    · rw [heq] at h
      exact absurd h (by simp)
    · rw [heq] at h
      obtain rfl : edgeWeight bw l c = w := by simpa using h
      exact ⟨l, c, ⟨ns, hns, hmem⟩, rfl⟩

/-- Prepending an edge to a walk. -/
theorem walkW_front {adjL : List (α × List (α × ℚ × ℚ))} {bw : ℚ}
    {a b c : α} {len cost w : ℚ} (he : HasEdge adjL a b len cost)
    (hw : WalkW adjL bw b c w) :
    WalkW adjL bw a c (edgeWeight bw len cost + w) := by
  induction hw with
  | nil => simpa using WalkW.cons (WalkW.nil a) he
  | cons hw' he' ih =>
    rw [← add_assoc]
    exact WalkW.cons ih he'

theorem prevLinked_append {st : DState α} {p : List α} {u x : α}
    (hp : PrevLinked st p) (hlast : p.getLast? = some u)
    (hx : st.prev x = some u) : PrevLinked st (p ++ [x]) := by
  induction p with
  | nil => exact absurd hlast (by simp)
  | cons a t ih =>
    cases t with
    | nil =>
      obtain rfl : a = u := by simpa using hlast
      exact ⟨hx, trivial⟩
    | cons b t' =>
      obtain ⟨hab, hrest⟩ := hp
      rw [List.getLast?_cons_cons] at hlast
      exact ⟨hab, ih hrest hlast⟩

theorem chainTo_reverse_linked {st : DState α} {start x : α} {ch : List α}
    (h : ChainTo st.prev start x ch) : PrevLinked st ch.reverse := by
  induction h with
  | base _ => trivial
  | step h hch ih =>
    rename_i x' u ch'
    rw [List.reverse_cons]
    have hlast : ch'.reverse.getLast? = some u := by
      rw [List.getLast?_reverse]
      obtain ⟨t, rfl⟩ := chainTo_head hch
      rfl
    exact prevLinked_append ih hlast h

/-- Along a `prev`-linked path through a state satisfying the core
invariant, `pathWeight` is defined and bounded by the recorded distance
difference between the endpoints. -/
theorem prevLinked_pw {adjL : List (α × List (α × ℚ × ℚ))} {bw : ℚ}
    {start : α} {st : DState α} (hC : InvCore adjL bw start st) :
    ∀ (p : List α), PrevLinked st p → ∀ u du, p.head? = some u →
      st.dist u = some du →
      ∃ pw l dl, p.getLast? = some l ∧ st.dist l = some dl ∧
        pathWeight adjL bw p = some pw ∧ du + pw ≤ dl := by
  intro p
  induction p with
  | nil =>
    intro _ u du hu _
    exact absurd hu (by simp)
  | cons a t ih =>
    intro hlink u du hu hdu
    obtain rfl : u = a := by simp at hu; exact hu.symm
    cases t with
    | nil =>
      exact ⟨0, u, du, rfl, hdu, rfl, by linarith⟩
    | cons x rest =>
      obtain ⟨hpx, hrest⟩ := hlink
      obtain ⟨len, cost, dx, du', he, hdx, hdu', hrelax⟩ :=
        hC.prev_edge x u hpx
      obtain rfl : du = du' := by rw [hdu] at hdu'; simpa using hdu'
      obtain ⟨wh, hhop, hwh⟩ : ∃ w, hop adjL bw u x = some w ∧
          w ≤ edgeWeight bw len cost := hop_some he
      obtain ⟨pw', l, dl, hl, hdl, hpw', hbound⟩ :=
        ih hrest x dx rfl hdx
      refine ⟨wh + pw', l, dl, ?_, hdl, ?_, ?_⟩
      · rw [List.getLast?_cons_cons]
        exact hl
      · show pathWeight adjL bw (u :: x :: rest) = some (wh + pw')
        unfold pathWeight
        rw [hhop, hpw']
      · linarith

/-- With an empty heap every reachable node has a settled, optimal recorded
distance. -/
theorem allClosed_dist {adjL : List (α × List (α × ℚ × ℚ))} {bw : ℚ}
    {start : α} {st : DState α} (hI : Inv adjL bw start st)
    (hh : st.heap = []) :
    ∀ x, HasWalk adjL start x →
      ∃ dx, st.dist x = some dx ∧ ∀ w, WalkW adjL bw start x w → dx ≤ w := by
  have hne : ∀ y dy, st.dist y = some dy → ClosedAt adjL bw start st y dy := by
    intro y dy hdy
    rcases hI.open_or_closed y dy hdy with hmem | hclosed
    · rw [hh] at hmem
      exact absurd hmem (by simp)
    · exact hclosed
  intro x hx
  induction hx with
  | nil =>
    exact ⟨0, hI.dist_start, (hne start 0 hI.dist_start).2⟩
  | cons h he ih =>
    rename_i b c
    obtain ⟨db, hdb, _⟩ := ih
    obtain ⟨len, cost, hedge⟩ := he
    obtain ⟨dc, hdc, _⟩ := (hne b db hdb).1 c len cost hedge
    exact ⟨dc, hdc, (hne c dc hdc).2⟩

theorem selEdges_of_pathWeight {adjL : List (α × List (α × ℚ × ℚ))}
    {bw : ℚ} :
    ∀ {p : List α} {W : ℚ}, pathWeight adjL bw p = some W →
      ∃ es, selEdges adjL bw p = some es ∧ W = wSum bw es ∧
        SelReal adjL p es := by
  intro p
  induction p with
  | nil =>
    intro W hW
    obtain rfl : (0 : ℚ) = W := by simpa [pathWeight] using hW
    exact ⟨[], rfl, by simp [wSum], rfl⟩
  | cons u t ih =>
    intro W hW
    cases t with
    | nil =>
      obtain rfl : (0 : ℚ) = W := by simpa [pathWeight] using hW
      exact ⟨[], rfl, by simp [wSum], rfl⟩
    | cons v rest =>
      unfold pathWeight at hW
      cases hhop : hop adjL bw u v with
      | none => rw [hhop] at hW; exact absurd hW (by simp)
      | some wh =>
        cases hpw : pathWeight adjL bw (v :: rest) with
        | none => rw [hhop, hpw] at hW; exact absurd hW (by simp)
        | some wr =>
          rw [hhop, hpw] at hW
          obtain rfl : wh + wr = W := by simpa using hW
          obtain ⟨es', hes', hsum', hreal'⟩ := ih hpw
          unfold hop at hhop
          cases hns : alookup adjL u with
          | none => rw [hns] at hhop; exact absurd hhop (by simp)
          | some ns =>
            rw [hns] at hhop
            obtain ⟨hmem, hwh⟩ := bestFor_mem hhop
            refine ⟨(bestFor bw v ns).2 :: es', ?_, ?_, ?_⟩
            · show selEdges adjL bw (u :: v :: rest) = _
              unfold selEdges
              rw [hns, hes']
              rfl
            · show wh + wr = wSum bw ((bestFor bw v ns).2 :: es')
              unfold wSum at hsum' ⊢
              rw [List.map_cons, List.sum_cons, ← hwh, ← hsum']
            · exact ⟨(bestFor bw v ns).2, es', rfl, ⟨ns, hns, hmem⟩, hreal'⟩

/-- A selection of actual edges along a path is a walk between the path's
endpoints, of the selection's total weight — at every barrier weight. -/
theorem selReal_walkW {adjL : List (α × List (α × ℚ × ℚ))} :
    ∀ {p : List α} {es : List (ℚ × ℚ)}, SelReal adjL p es →
      ∀ {s t : α}, p.head? = some s → p.getLast? = some t →
      ∀ bw', WalkW adjL bw' s t (wSum bw' es) := by
  intro p
  induction p with
  | nil =>
    intro es _ s t hs _
    exact absurd hs (by simp)
  | cons u l ih =>
    intro es hreal s t hs ht
    obtain rfl : s = u := by simp at hs; exact hs.symm
    cases l with
    | nil =>
      obtain rfl : es = [] := hreal
      obtain rfl : s = t := by simpa using ht
      intro bw'
      simpa [wSum] using (WalkW.nil s : WalkW adjL bw' s s 0)
    | cons v rest =>
      obtain ⟨e, es', rfl, hedge, hreal'⟩ := hreal
      intro bw'
      rw [List.getLast?_cons_cons] at ht
      have hw' := ih hreal' rfl ht bw'
      have := walkW_front hedge hw'
      unfold wSum at this ⊢
      rw [List.map_cons, List.sum_cons]
      exact this

/-- `computeRouteStats`'s accumulators, expressed by the per-hop selected
edges. -/
theorem statsGo_sel {adjL : List (α × List (α × ℚ × ℚ))} {bw : ℚ} :
    ∀ {p : List α} {es : List (ℚ × ℚ)}, selEdges adjL bw p = some es →
      ∀ totL totC totN, statsGo adjL bw p totL totC totN =
        some ⟨totL + lenSum es, totC + costSum es, totN + countPos es⟩ := by
  intro p
  induction p with
  | nil =>
    intro es hes totL totC totN
    obtain rfl : ([] : List (ℚ × ℚ)) = es := by simpa [selEdges] using hes
    simp [statsGo, lenSum, costSum, countPos]
  | cons u t ih =>
    cases t with
    | nil =>
      intro es hes totL totC totN
      obtain rfl : ([] : List (ℚ × ℚ)) = es := by simpa [selEdges] using hes
      simp [statsGo, lenSum, costSum, countPos]
    | cons v rest =>
      intro es hes totL totC totN
      cases hns : alookup adjL u with
      | none =>
        simp only [selEdges, hns] at hes
        exact absurd hes (by simp)
      | some ns =>
        simp only [selEdges, hns] at hes
        cases hrec : selEdges adjL bw (v :: rest) with
        | none =>
          rw [hrec] at hes
          exact absurd hes (by simp)
        | some es' =>
          rw [hrec] at hes
          obtain rfl : (bestFor bw v ns).2 :: es' = es := by simpa using hes
          have hstep : statsGo adjL bw (u :: v :: rest) totL totC totN =
              statsGo adjL bw (v :: rest) (totL + (bestFor bw v ns).2.1)
                (totC + (bestFor bw v ns).2.2)
                (totN + if 0 < (bestFor bw v ns).2.2 then 1 else 0) := by
            simp [statsGo, hns]
          rw [hstep, ih hrec]
          have hlen : lenSum ((bestFor bw v ns).2 :: es') =
              (bestFor bw v ns).2.1 + lenSum es' := by
            simp [lenSum]
          have hcost : costSum ((bestFor bw v ns).2 :: es') =
              (bestFor bw v ns).2.2 + costSum es' := by
            simp [costSum]
          have hcnt : countPos ((bestFor bw v ns).2 :: es') =
              (if 0 < (bestFor bw v ns).2.2 then 1 else 0) + countPos es' := by
            by_cases h : 0 < (bestFor bw v ns).2.2
            · simp [countPos, List.filter_cons, h]
              omega
            · simp [countPos, List.filter_cons, h]
          rw [hlen, hcost, hcnt]
          simp only [Option.some.injEq, RouteStats.mk.injEq]
          refine ⟨by ring, by ring, by ring⟩

/-- The statistics of a path with a defined selection. -/
theorem stats_of_sel {adjL : List (α × List (α × ℚ × ℚ))} {bw : ℚ}
    {p : List α} {es : List (ℚ × ℚ)} (hes : selEdges adjL bw p = some es) :
    computeRouteStats adjL bw p = some ⟨lenSum es, costSum es, countPos es⟩ := by
  have h := statsGo_sel hes 0 0 0
  simpa [computeRouteStats] using h

/-- Below the weight threshold the selection's weight is its length. -/
theorem wSum_small {bw : ℚ} (h : bw < 0.01) (es : List (ℚ × ℚ)) :
    wSum bw es = lenSum es := by
  induction es with
  | nil => simp [wSum, lenSum]
  | cons e es ih =>
    unfold wSum lenSum at ih ⊢
    simp only [List.map_cons, List.sum_cons]
    rw [ih]
    unfold edgeWeight
    rw [if_pos h]

/-- At or above the weight threshold the selection's weight splits into
length plus `bw` times the severity penalty. -/
theorem wSum_split {bw : ℚ} (h : ¬bw < 0.01) (es : List (ℚ × ℚ)) :
    wSum bw es = lenSum es + bw * penSum es := by
  induction es with
  | nil => simp [wSum, lenSum, penSum]
  | cons e es ih =>
    unfold wSum lenSum penSum at ih ⊢
    simp only [List.map_cons, List.sum_cons]
    rw [ih]
    unfold edgeWeight
    rw [if_neg h]
    ring

/-- `dijkstra(a, a, bw)` at a defined node id pops `a`, immediately hits the
`u === endNode` break, and reconstructs the single-node path `[a]`. -/
theorem dijkstra_self (adjL : List (α × List (α × ℚ × ℚ))) (a : α) (bw : ℚ) :
    dijkstra (fun _ => false) adjL a a bw = some [a] := by
  obtain ⟨f, hf⟩ : ∃ f, loopFuel adjL = f + 1 :=
    ⟨loopFuel adjL - 1, by unfold loopFuel; omega⟩
  obtain ⟨g, hg⟩ : ∃ g, recFuel adjL = g + 1 :=
    ⟨recFuel adjL - 1, by unfold recFuel; omega⟩
  unfold dijkstra
  rw [hf, hg]
  simp [dijkstraLoop, heapPop, reconstruct]

/-- `dijkstra(a, a, bw)` at the `undefined` id (the empty-graph query):
the popped `a` still hits the break, but the reconstruction loop's
`current !== undefined` guard fails immediately, so the returned path is
empty. -/
theorem dijkstra_self_undef {isU : α → Bool}
    (adjL : List (α × List (α × ℚ × ℚ))) (a : α) (bw : ℚ)
    (h : isU a = true) : dijkstra isU adjL a a bw = some [] := by
  obtain ⟨f, hf⟩ : ∃ f, loopFuel adjL = f + 1 :=
    ⟨loopFuel adjL - 1, by unfold loopFuel; omega⟩
  obtain ⟨g, hg⟩ : ∃ g, recFuel adjL = g + 1 :=
    ⟨recFuel adjL - 1, by unfold recFuel; omega⟩
  unfold dijkstra
  rw [hf, hg]
  simp [dijkstraLoop, heapPop, reconstruct, h]

/-- The complete reachable-case specification of `dijkstra`: it returns a
path from `s` to `d` whose weight is the recorded optimal distance. -/
theorem dijkstra_reach {adjL : List (α × List (α × ℚ × ℚ))} {bw : ℚ}
    {s d : α} (hnn : NonnegWeights adjL bw) (hreach : HasWalk adjL s d) :
    ∃ p de, dijkstra (fun _ => false) adjL s d bw = some p ∧
      p.head? = some s ∧
      p.getLast? = some d ∧ pathWeight adjL bw p = some de ∧
      WalkW adjL bw s d de ∧ ∀ w, WalkW adjL bw s d w → de ≤ w := by
  by_cases hsd : s = d
  · subst hsd
    refine ⟨[s], 0, dijkstra_self adjL s bw, rfl, rfl, rfl, WalkW.nil s, ?_⟩
    intro w hw
    exact walkW_nonneg hnn hw
  · have hμ : dMeasure adjL
        { dist := fun x => if x = s then some 0 else none
          prev := fun _ => none
          heap := [(0, s)] } ≤ loopFuel adjL := dMeasure_init_le
    have hmain := @dijkstraLoop_main α _ adjL bw s d hnn (loopFuel adjL) _
      (init_inv adjL bw s) hμ
    set stf := dijkstraLoop adjL bw d (loopFuel adjL)
      { dist := fun x => if x = s then some 0 else none
        prev := fun _ => none
        heap := [(0, s)] } with hstf
    have hfacts : InvCore adjL bw s stf ∧ ∃ de, stf.dist d = some de ∧
        ∀ w, WalkW adjL bw s d w → de ≤ w := by
      rcases hmain with ⟨hI, hheap⟩ | ⟨hC, de, hdd, hmin⟩
      · obtain ⟨de, hdd, hmin⟩ := allClosed_dist hI hheap d hreach
        exact ⟨hI.toInvCore, de, hdd, hmin⟩
      · exact ⟨hC, de, hdd, hmin⟩
    obtain ⟨hC, de, hdd, hmin⟩ := hfacts
    have hprev : (stf.prev d).isSome :=
      (hC.prev_dom d).mpr ⟨by rw [hdd]; rfl, fun h => hsd h.symm⟩
    obtain ⟨ch, hch, hnd⟩ := hC.prev_chain d hprev
    have hrec : reconstruct (fun _ => false) stf.prev (recFuel adjL) d = ch :=
      reconstruct_chain hch _ (chain_length_le_recFuel hC hch hnd)
    have hret : dijkstra (fun _ => false) adjL s d bw = some ch.reverse := by
      show (if stf.prev d = none ∧ s ≠ d then none
        else some ((reconstruct (fun _ => false) stf.prev
          (recFuel adjL) d).reverse)) = some ch.reverse
      rw [hrec]
      have hne : ¬(stf.prev d = none ∧ s ≠ d) := by
        rintro ⟨h1, _⟩
        rw [h1] at hprev
        exact absurd hprev (by simp)
      rw [if_neg hne]
    have hhead : ch.reverse.head? = some s := by
      rw [List.head?_reverse]
      exact chainTo_last hch
    have hlastrev : ch.reverse.getLast? = some d := by
      rw [List.getLast?_reverse]
      obtain ⟨t, rfl⟩ := chainTo_head hch
      rfl
    obtain ⟨pw, l, dl, hl, hdl, hpw, hbound⟩ :=
      prevLinked_pw hC ch.reverse (chainTo_reverse_linked hch) s 0 hhead
        hC.dist_start
    obtain rfl : d = l := by rw [hlastrev] at hl; simpa using hl
    obtain rfl : de = dl := by rw [hdd] at hdl; simpa using hdl
    obtain ⟨es, hes, hsum, hreal⟩ := selEdges_of_pathWeight hpw
    have hwalk : WalkW adjL bw s d (wSum bw es) :=
      selReal_walkW hreal hhead hlastrev bw
    have hle : de ≤ pw := by
      have h := hmin (wSum bw es) hwalk
      rw [← hsum] at h
      exact h
    have hpwde : pw = de := le_antisymm (by linarith) hle
    refine ⟨ch.reverse, pw, hret, hhead, hlastrev, hpw, ?_, ?_⟩
    · rw [hsum]
      exact hwalk
    · intro w hw
      exact le_trans (le_of_eq hpwde) (hmin w hw)

theorem relaxOne_R {adjL : List (α × List (α × ℚ × ℚ))} {start : α}
    {bw dq : ℚ} {u : α} {st : DState α} {ns : List (α × ℚ × ℚ)}
    (hR : InvR adjL start st) (hu : HasWalk adjL start u)
    (hns : alookup adjL u = some ns) {e : α × ℚ × ℚ} (he : e ∈ ns) :
    InvR adjL start (relaxOne bw dq u st e) := by
  unfold relaxOne
  by_cases himp : ltOptQ (dq + edgeWeight bw e.2.1 e.2.2) (st.dist e.1) = true
  · rw [if_pos himp]
    have hmem : (e.1, e.2.1, e.2.2) ∈ ns := by simpa using he
    have hv : HasWalk adjL start e.1 :=
      HasWalk.cons hu ⟨e.2.1, e.2.2, ns, hns, hmem⟩
    refine ⟨?_, ?_, ?_⟩
    · intro x hx
      dsimp only at hx
      by_cases hxe : x = e.1
      · rw [hxe]
        exact hv
      · rw [if_neg hxe] at hx
        exact hR.r_dist x hx
    · intro x hx
      dsimp only at hx
      by_cases hxe : x = e.1
      · rw [hxe]
        exact hv
      · rw [if_neg hxe] at hx
        exact hR.r_prev x hx
    · intro en hen
      dsimp only at hen
      have hen' : en ∈ (dq + edgeWeight bw e.2.1 e.2.2, e.1) :: st.heap :=
        (heapPush_perm _ _ _).mem_iff.mp hen
      rcases List.mem_cons.mp hen' with rfl | hmem'
      · exact hv
      · exact hR.r_heap en hmem'
  · rw [if_neg himp]
    exact hR

theorem relaxNeighbors_R {adjL : List (α × List (α × ℚ × ℚ))} {start : α}
    {bw dq : ℚ} {u : α} {ns : List (α × ℚ × ℚ)}
    (hu : HasWalk adjL start u) (hns : alookup adjL u = some ns) :
    ∀ {ns' : List (α × ℚ × ℚ)}, (∀ e ∈ ns', e ∈ ns) →
      ∀ {st : DState α}, InvR adjL start st →
        InvR adjL start (ns'.foldl (relaxOne bw dq u) st) := by
  intro ns'
  induction ns' with
  | nil =>
    intro _ st hR
    exact hR
  | cons e t ih =>
    intro hsub st hR
    rw [List.foldl_cons]
    exact ih (fun e' he' => hsub e' (List.mem_cons_of_mem _ he'))
      (relaxOne_R hR hu hns (hsub e (List.mem_cons_self _ _)))

theorem dijkstraLoop_R {adjL : List (α × List (α × ℚ × ℚ))} {start : α}
    {bw : ℚ} {endNode : α} :
    ∀ (fuel : ℕ) (st : DState α), InvR adjL start st →
      InvR adjL start (dijkstraLoop adjL bw endNode fuel st) := by
  intro fuel
  induction fuel with
  | zero =>
    intro st hR
    exact hR
  | succ fuel ih =>
    intro st hR
    rw [dijkstraLoop]
    cases hpop : heapPop st.heap with
    | none => exact hR
    | some pr =>
      obtain ⟨⟨dq, u⟩, rest⟩ := pr
      dsimp only
      have hperm := heapPop_perm hpop
      have hrest : InvR adjL start { st with heap := rest } := by
        refine ⟨hR.r_dist, hR.r_prev, ?_⟩
        intro e he
        exact hR.r_heap e (hperm.mem_iff.mp (List.mem_cons_of_mem _ he))
      have hu : HasWalk adjL start u :=
        hR.r_heap (dq, u) (hperm.mem_iff.mp (List.mem_cons_self _ _))
      by_cases hend : u = endNode
      · rw [if_pos hend]
        exact hrest
      · rw [if_neg hend]
        by_cases hstale : gtOptQ dq ((({ st with heap := rest } : DState α)).dist u) = true
        · rw [if_pos hstale]
          exact ih _ hrest
        · rw [if_neg hstale]
          cases hadj : alookup adjL u with
          | none => exact ih _ hrest
          | some ns =>
            exact ih _ (relaxNeighbors_R hu hadj (fun e he => he) hrest)

/-- When `d` is not reachable from `s` (and distinct from it), `dijkstra`
returns `null` — for every barrier weight and every undefined-test, with no
hypotheses on the edge weights (the reconstruction never runs). -/
theorem dijkstra_unreach {adjL : List (α × List (α × ℚ × ℚ))} {s d : α}
    (isU : α → Bool) (hnr : ¬HasWalk adjL s d) (hne : s ≠ d) (bw : ℚ) :
    dijkstra isU adjL s d bw = none := by
  have hR0 : InvR adjL s
      { dist := fun x => if x = s then some 0 else none
        prev := fun _ => none
        heap := [(0, s)] } := by
    refine ⟨?_, ?_, ?_⟩
    · intro x hx
      dsimp only at hx
      by_cases hxs : x = s
      · rw [hxs]
        exact HasWalk.nil s
      · rw [if_neg hxs] at hx
        exact absurd hx (by simp)
    · intro x hx
      exact absurd hx (by simp)
    · intro e he
      obtain rfl : e = (0, s) := by simpa using he
      exact HasWalk.nil s
  have hRf := @dijkstraLoop_R α _ adjL s bw d (loopFuel adjL) _ hR0
  set stf := dijkstraLoop adjL bw d (loopFuel adjL)
    { dist := fun x => if x = s then some 0 else none
      prev := fun _ => none
      heap := [(0, s)] } with hstf
  have hpn : stf.prev d = none := by
    cases hp : stf.prev d with
    | none => rfl
    | some u =>
      exact absurd (hRf.r_prev d (by rw [hp]; rfl)) hnr
  show (if stf.prev d = none ∧ s ≠ d then none
    else some ((reconstruct isU stf.prev (recFuel adjL) d).reverse)) = none
  rw [if_pos ⟨hpn, hne⟩]

/-! ## Congruence in the barrier weight

The barrier weight enters every routine only through `edgeWeight`, so two
barrier weights with the same edge-weight function (in particular any two
below the `0.01` threshold) produce identical searches and statistics. -/

theorem relaxOne_congr {bw₁ bw₂ : ℚ}
    (hE : ∀ len cost, edgeWeight bw₁ len cost = edgeWeight bw₂ len cost)
    (dq : ℚ) (u : α) (st : DState α) (e : α × ℚ × ℚ) :
    relaxOne bw₁ dq u st e = relaxOne bw₂ dq u st e := by
  unfold relaxOne
  rw [hE e.2.1 e.2.2]

theorem relaxNeighbors_congr {bw₁ bw₂ : ℚ}
    (hE : ∀ len cost, edgeWeight bw₁ len cost = edgeWeight bw₂ len cost)
    (dq : ℚ) (u : α) :
    ∀ (ns : List (α × ℚ × ℚ)) (st : DState α),
      relaxNeighbors bw₁ dq u ns st = relaxNeighbors bw₂ dq u ns st := by
  intro ns
  induction ns with
  | nil =>
    intro st
    rfl
  | cons e t ih =>
    intro st
    unfold relaxNeighbors at ih ⊢
    rw [List.foldl_cons, List.foldl_cons, relaxOne_congr hE, ih]

theorem dijkstraLoop_congr {adjL : List (α × List (α × ℚ × ℚ))}
    {bw₁ bw₂ : ℚ} {endNode : α}
    (hE : ∀ len cost, edgeWeight bw₁ len cost = edgeWeight bw₂ len cost) :
    ∀ (fuel : ℕ) (st : DState α),
      dijkstraLoop adjL bw₁ endNode fuel st =
        dijkstraLoop adjL bw₂ endNode fuel st := by
  intro fuel
  induction fuel with
  | zero =>
    intro st
    rfl
  | succ fuel ih =>
    intro st
    rw [dijkstraLoop, dijkstraLoop]
    cases hpop : heapPop st.heap with
    | none => rfl
    | some pr =>
      obtain ⟨⟨dq, u⟩, rest⟩ := pr
      dsimp only
      by_cases hend : u = endNode
      · rw [if_pos hend, if_pos hend]
      · rw [if_neg hend, if_neg hend]
        by_cases hstale :
            gtOptQ dq ((({ st with heap := rest } : DState α)).dist u) = true
        · rw [if_pos hstale, if_pos hstale]
          exact ih _
        · rw [if_neg hstale, if_neg hstale]
          cases hadj : alookup adjL u with
          | none => exact ih _
          | some ns =>
            dsimp only
            rw [relaxNeighbors_congr hE]
            exact ih _

theorem dijkstra_congr {adjL : List (α × List (α × ℚ × ℚ))} {bw₁ bw₂ : ℚ}
    (hE : ∀ len cost, edgeWeight bw₁ len cost = edgeWeight bw₂ len cost)
    (isU : α → Bool) (s d : α) :
    dijkstra isU adjL s d bw₁ = dijkstra isU adjL s d bw₂ := by
  unfold dijkstra
  simp only [dijkstraLoop_congr hE]

theorem bestFor_congr {bw₁ bw₂ : ℚ}
    (hE : ∀ len cost, edgeWeight bw₁ len cost = edgeWeight bw₂ len cost)
    (v : α) (ns : List (α × ℚ × ℚ)) : bestFor bw₁ v ns = bestFor bw₂ v ns := by
  rw [bestFor_eq_foldl, bestFor_eq_foldl]
  have hstep : ∀ (acc : Option ℚ × ℚ × ℚ) (e : α × ℚ × ℚ),
      bestStep bw₁ v acc e = bestStep bw₂ v acc e := by
    intro acc e
    unfold bestStep
    rw [hE e.2.1 e.2.2]
  suffices h : ∀ (l : List (α × ℚ × ℚ)) (acc : Option ℚ × ℚ × ℚ),
      l.foldl (bestStep bw₁ v) acc = l.foldl (bestStep bw₂ v) acc by
    exact h ns (none, 0, 0)
  intro l
  induction l with
  | nil =>
    intro acc
    rfl
  | cons e t ih =>
    intro acc
    rw [List.foldl_cons, List.foldl_cons, hstep, ih]

theorem selEdges_congr {adjL : List (α × List (α × ℚ × ℚ))} {bw₁ bw₂ : ℚ}
    (hE : ∀ len cost, edgeWeight bw₁ len cost = edgeWeight bw₂ len cost) :
    ∀ p : List α, selEdges adjL bw₁ p = selEdges adjL bw₂ p := by
  intro p
  induction p with
  | nil => rfl
  | cons u t ih =>
    cases t with
    | nil => rfl
    | cons v rest =>
      cases hns : alookup adjL u with
      | none => simp [selEdges, hns]
      | some ns => simp [selEdges, hns, bestFor_congr hE, ih]

theorem computeRouteStats_congr {adjL : List (α × List (α × ℚ × ℚ))}
    {bw₁ bw₂ : ℚ}
    (hE : ∀ len cost, edgeWeight bw₁ len cost = edgeWeight bw₂ len cost)
    (p : List α) : computeRouteStats adjL bw₁ p = computeRouteStats adjL bw₂ p := by
  unfold computeRouteStats
  suffices h : ∀ (q : List α) (totL totC : ℚ) (totN : ℕ),
      statsGo adjL bw₁ q totL totC totN = statsGo adjL bw₂ q totL totC totN by
    exact h p 0 0 0
  intro q
  induction q with
  | nil =>
    intro totL totC totN
    rfl
  | cons u t ih =>
    cases t with
    | nil =>
      intro totL totC totN
      rfl
    | cons v rest =>
      intro totL totC totN
      cases hns : alookup adjL u with
      | none => simp [statsGo, hns]
      | some ns =>
        simp only [statsGo, hns, bestFor_congr hE]
        exact ih _ _ _

/-- Below the `0.01` threshold the edge-weight function is the length,
independently of the exact barrier weight. -/
theorem edgeWeight_small_congr {bw₁ bw₂ : ℚ} (h₁ : bw₁ < 0.01)
    (h₂ : bw₂ < 0.01) :
    ∀ len cost, edgeWeight bw₁ len cost = edgeWeight bw₂ len cost := by
  intro len cost
  unfold edgeWeight
  rw [if_pos h₁, if_pos h₂]

/-- `ratSqrt` is nonnegative. -/
theorem ratSqrt_nonneg (q : ℚ) : 0 ≤ ratSqrt q :=
  div_nonneg (Nat.cast_nonneg _) (Nat.cast_nonneg _)

/-- Edge weights are nonnegative whenever length and cost are — at every
barrier weight (below the threshold the weight is the length; above it the
weight adds a nonnegative penalty scaled by `bw ≥ 0.01 > 0`). -/
theorem edgeWeight_nonneg {bw len cost : ℚ} (hlen : 0 ≤ len)
    (hcost : 0 ≤ cost) : 0 ≤ edgeWeight bw len cost := by
  unfold edgeWeight
  split_ifs with h
  · exact hlen
  · have h1 : (0 : ℚ) ≤ bw := by
      have : (0 : ℚ) < 0.01 := by norm_num
      linarith [not_lt.mp h]
    have h3 : 0 ≤ pow15 cost := mul_nonneg hcost (ratSqrt_nonneg cost)
    exact add_nonneg hlen (mul_nonneg h1 h3)

/-- On a table of nonnegative lengths and costs, every edge weight is
nonnegative. -/
theorem nonneg_of_lc {adjL : List (α × List (α × ℚ × ℚ))} {bw : ℚ}
    (h : ∀ u v len cost, HasEdge adjL u v len cost → 0 ≤ len ∧ 0 ≤ cost) :
    NonnegWeights adjL bw := fun u v len cost he =>
  edgeWeight_nonneg (h u v len cost he).1 (h u v len cost he).2

theorem swapPair_inj {a b : ℚ × ℚ} (h : swapPair a = swapPair b) : a = b := by
  unfold swapPair at h
  obtain ⟨h1, h2⟩ := Prod.mk.injEq .. ▸ h
  exact Prod.ext h2 h1

theorem getLast?_append_of {β : Type} {l₁ l₂ : List β} {x : β}
    (h : l₁.getLast? = some x) :
    (l₁ ++ l₂).getLast? = (x :: l₂).getLast? := by
  cases l₂ with
  | nil =>
    rw [List.append_nil, h]
    rfl
  | cons y t =>
    rw [List.getLast?_append_cons, List.getLast?_cons_cons]

/-- The glue invariant of the segment loop after the first segment: given
the coordinate of the current head node as the previously emitted point, the
emitted coordinates end at the final node's (swapped) coordinate and extend
the sequence without consecutive duplicates. -/
theorem geoCoords_false_spec {nodesL : List (α × ℚ × ℚ)}
    {geomL : List ((α × α) × List (ℚ × ℚ))} :
    ∀ (p : List α) (u : α) (cu : ℚ × ℚ), p.head? = some u →
      alookup nodesL u = some cu → PathGeoOK nodesL geomL p →
      ∃ last clast, p.getLast? = some last ∧
        alookup nodesL last = some clast ∧
        (swapPair cu :: geoCoords nodesL geomL false p).getLast? =
          some (swapPair clast) ∧
        List.Chain' (fun a b => a ≠ b)
          (swapPair cu :: geoCoords nodesL geomL false p) := by
  intro p
  induction p with
  | nil =>
    intro u cu hu
    exact absurd hu (by simp)
  | cons a t ih =>
    intro u cu hu hcu hOK
    obtain rfl : u = a := by simp at hu; exact hu.symm
    cases t with
    | nil =>
      refine ⟨u, cu, rfl, hcu, ?_, ?_⟩
      · simp [geoCoords]
      · simp [geoCoords]
    | cons v rest =>
      obtain ⟨⟨g, cu', cv, hg, hcu', hcv, hgh, hgl, hgc⟩, hOK'⟩ := hOK
      obtain rfl : cu = cu' := by rw [hcu] at hcu'; simpa using hcu'
      cases g with
      | nil => exact absurd hgh (by simp)
      | cons c0 gt =>
        obtain rfl : cu = c0 := by simp at hgh; exact hgh.symm
        have hseg : geoSegment nodesL geomL false u v = gt.map swapPair := by
          simp [geoSegment, hg]
        obtain ⟨last, clast, hlast, hclast, hglue, hchain⟩ :=
          ih v cv rfl hcv hOK'
        have hexp : swapPair cu :: geoCoords nodesL geomL false (u :: v :: rest) =
            (cu :: gt).map swapPair ++ geoCoords nodesL geomL false (v :: rest) := by
          show swapPair cu :: (geoSegment nodesL geomL false u v ++
            geoCoords nodesL geomL false (v :: rest)) = _
          rw [hseg]
          simp
        have hmaplast : ((cu :: gt).map swapPair).getLast? =
            some (swapPair cv) := by
          rw [List.getLast?_map, hgl]
          rfl
        refine ⟨last, clast, ?_, hclast, ?_, ?_⟩
        · rw [List.getLast?_cons_cons]
          exact hlast
        · rw [hexp, getLast?_append_of hmaplast]
          exact hglue
        · rw [hexp, List.chain'_append]
          refine ⟨?_, ?_, ?_⟩
          · rw [List.chain'_map]
            exact hgc.imp (fun a b hab he => hab (swapPair_inj he))
          · exact (List.chain'_cons'.mp hchain).2
          · intro x hx y hy
            rw [hmaplast] at hx
            obtain rfl : swapPair cv = x := by simpa using hx
            exact (List.chain'_cons'.mp hchain).1 y hy

theorem geo_roundtrip {nodesL : List (α × ℚ × ℚ)}
    {geomL : List ((α × α) × List (ℚ × ℚ))} {p : List α}
    (hlen : 2 ≤ p.length) (hOK : PathGeoOK nodesL geomL p)
    {u last : α} {cu clast : ℚ × ℚ}
    (hu : p.head? = some u) (hcu : alookup nodesL u = some cu)
    (hl : p.getLast? = some last) (hcl : alookup nodesL last = some clast) :
    ∃ coords, pathToGeoJSON nodesL geomL (some p) = some coords ∧
      coords.head? = some (swapPair cu) ∧
      coords.getLast? = some (swapPair clast) ∧
      List.Chain' (fun a b => a ≠ b) coords := by
  obtain ⟨a, t, rfl⟩ : ∃ a t, p = a :: t := by
    cases p with
    | nil => simp at hlen
    | cons a t => exact ⟨a, t, rfl⟩
  obtain rfl : u = a := by simp at hu; exact hu.symm
  obtain ⟨v, rest, rfl⟩ : ∃ v rest, t = v :: rest := by
    cases t with
    | nil => simp at hlen
    | cons v rest => exact ⟨v, rest, rfl⟩
  obtain ⟨⟨g, cu', cv, hg, hcu', hcv, hgh, hgl, hgc⟩, hOK'⟩ := hOK
  obtain rfl : cu = cu' := by rw [hcu] at hcu'; simpa using hcu'
  cases g with
  | nil => exact absurd hgh (by simp)
  | cons c0 gt =>
    obtain rfl : cu = c0 := by simp at hgh; exact hgh.symm
    have hid : geoCoords nodesL geomL true (u :: v :: rest) =
        swapPair cu :: geoCoords nodesL geomL false (u :: v :: rest) := by
      show geoSegment nodesL geomL true u v ++
        geoCoords nodesL geomL false (v :: rest) = _
      have h1 : geoSegment nodesL geomL true u v =
          (cu :: gt).map swapPair := by
        simp [geoSegment, hg]
      have h2 : geoCoords nodesL geomL false (u :: v :: rest) =
          geoSegment nodesL geomL false u v ++
            geoCoords nodesL geomL false (v :: rest) := rfl
      have h3 : geoSegment nodesL geomL false u v = gt.map swapPair := by
        simp [geoSegment, hg]
      rw [h1, h2, h3]
      simp
    obtain ⟨last', clast', hlast', hclast', hglue, hchain⟩ :=
      geoCoords_false_spec (u :: v :: rest) u cu rfl hcu
        ⟨⟨cu :: gt, cu, cv, hg, hcu, hcv, rfl, hgl, hgc⟩, hOK'⟩
    obtain rfl : last = last' := by rw [hl] at hlast'; simpa using hlast'
    obtain rfl : clast = clast' := by rw [hcl] at hclast'; simpa using hclast'
    refine ⟨swapPair cu :: geoCoords nodesL geomL false (u :: v :: rest),
      ?_, rfl, hglue, hchain⟩
    show (if (u :: v :: rest).length < 2 then none
      else some (geoCoords nodesL geomL true (u :: v :: rest))) = _
    rw [if_neg (by simp only [List.length_cons]; omega), hid]

/-- Nonnegativity of every listed length and cost gives the edge-wise
hypothesis of the optimality theorems. -/
theorem lc_of_list {adjL : List (α × List (α × ℚ × ℚ))}
    (h : ∀ p ∈ adjL, ∀ e ∈ p.2, 0 ≤ e.2.1 ∧ 0 ≤ e.2.2) :
    ∀ u v len cost, HasEdge adjL u v len cost → 0 ≤ len ∧ 0 ≤ cost := by
  rintro u v len cost ⟨ns, hns, hmem⟩
  exact h (u, ns) (alookup_mem hns) (v, len, cost) hmem

/-- A table whose adjacency lists are all empty has no edges. -/
theorem hasEdge_no_edges {adjL : List (α × List (α × ℚ × ℚ))}
    (h : ∀ p ∈ adjL, p.2 = []) :
    ∀ u v len cost, ¬HasEdge adjL u v len cost := by
  rintro u v len cost ⟨ns, hns, hmem⟩
  have hns' : ns = [] := h (u, ns) (alookup_mem hns)
  rw [hns'] at hmem
  exact absurd hmem (by simp)

/-- Without edges, walks do not move. -/
theorem hasWalk_no_edges {adjL : List (α × List (α × ℚ × ℚ))}
    (h : ∀ u v len cost, ¬HasEdge adjL u v len cost) {x y : α}
    (hw : HasWalk adjL x y) : x = y := by
  induction hw with
  | nil => rfl
  | cons hw' he ih =>
    obtain ⟨len, cost, hedge⟩ := he
    exact absurd hedge (h _ _ _ _)

/-- Two searches between the same endpoints at two barrier weights, with
their selections, statistics and the two cross-optimality inequalities the
monotonicity arguments rest on. -/
theorem dijkstra_pair {adjL : List (α × List (α × ℚ × ℚ))} {s d : α}
    {bw₁ bw₂ : ℚ}
    (hlc : ∀ u v len cost, HasEdge adjL u v len cost → 0 ≤ len ∧ 0 ≤ cost)
    (hreach : HasWalk adjL s d) :
    ∃ p₁ p₂ es₁ es₂,
      dijkstra (fun _ => false) adjL s d bw₁ = some p₁ ∧
      dijkstra (fun _ => false) adjL s d bw₂ = some p₂ ∧
      selEdges adjL bw₁ p₁ = some es₁ ∧ selEdges adjL bw₂ p₂ = some es₂ ∧
      computeRouteStats adjL bw₁ p₁ =
        some ⟨lenSum es₁, costSum es₁, countPos es₁⟩ ∧
      computeRouteStats adjL bw₂ p₂ =
        some ⟨lenSum es₂, costSum es₂, countPos es₂⟩ ∧
      pathWeight adjL bw₁ p₁ = some (wSum bw₁ es₁) ∧
      pathWeight adjL bw₂ p₂ = some (wSum bw₂ es₂) ∧
      wSum bw₁ es₁ ≤ wSum bw₁ es₂ ∧ wSum bw₂ es₂ ≤ wSum bw₂ es₁ := by
  obtain ⟨p₁, de₁, hd₁, hh₁, hl₁, hpw₁, _, hmin₁⟩ :=
    @dijkstra_reach α _ adjL bw₁ s d (nonneg_of_lc hlc) hreach
  obtain ⟨p₂, de₂, hd₂, hh₂, hl₂, hpw₂, _, hmin₂⟩ :=
    @dijkstra_reach α _ adjL bw₂ s d (nonneg_of_lc hlc) hreach
  obtain ⟨es₁, hes₁, hsum₁, hreal₁⟩ := selEdges_of_pathWeight hpw₁
  obtain ⟨es₂, hes₂, hsum₂, hreal₂⟩ := selEdges_of_pathWeight hpw₂
  refine ⟨p₁, p₂, es₁, es₂, hd₁, hd₂, hes₁, hes₂, stats_of_sel hes₁,
    stats_of_sel hes₂, hsum₁ ▸ hpw₁, hsum₂ ▸ hpw₂, ?_, ?_⟩
  · rw [← hsum₁]
    exact hmin₁ _ (selReal_walkW hreal₂ hh₂ hl₂ bw₁)
  · rw [← hsum₂]
    exact hmin₂ _ (selReal_walkW hreal₁ hh₁ hl₁ bw₂)

theorem adjAppend_keys {κ β : Type} [DecidableEq κ]
    (l : List (κ × List β)) (u : κ) (b : β) :
    (adjAppend l u b).map Prod.fst = l.map Prod.fst := by
  induction l with
  | nil => rfl
  | cons e t ih =>
    obtain ⟨k, lst⟩ := e
    unfold adjAppend
    by_cases hk : k = u
    · rw [if_pos hk]
      simp
    · rw [if_neg hk]
      simp [ih]

theorem foldl_adjAppend_keys {κ β : Type} [DecidableEq κ] :
    ∀ (edges : List (κ × β)) (adj0 : List (κ × List β)),
      ((edges.foldl (fun adj e => adjAppend adj e.1 e.2) adj0).map Prod.fst) =
        adj0.map Prod.fst := by
  intro edges
  induction edges with
  | nil =>
    intro adj0
    rfl
  | cons e t ih =>
    intro adj0
    rw [List.foldl_cons, ih, adjAppend_keys]

theorem alookup_none_of_not_mem_keys {κ β : Type} [DecidableEq κ]
    {l : List (κ × β)} {k : κ} (h : k ∉ l.map Prod.fst) :
    alookup l k = none := by
  cases halo : alookup l k with
  | none => rfl
  | some b => exact absurd (alookup_mem_keys halo) h

/-! ## The claims -/

/-- C1.  On a loaded graph whose edge lengths and accessibility costs are
nonnegative, for every pair `(s, d)` with `d` reachable from `s`,
`dijkstra(s, d, barrierWeight)` returns a path that starts at `s`, ends at
`d`, and whose total weight under the edge-weight function (per-hop
minimum-weight parallel edge) is minimal among all `s`-to-`d` paths. -/
theorem C1_dijkstra_shortest_path {adjL : List (α × List (α × ℚ × ℚ))}
    {bw : ℚ} {s d : α}
    (hlc : ∀ u v len cost, HasEdge adjL u v len cost → 0 ≤ len ∧ 0 ≤ cost)
    (hreach : HasWalk adjL s d) :
    ∃ p de, dijkstra (fun _ => false) adjL s d bw = some p ∧
      p.head? = some s ∧
      p.getLast? = some d ∧ pathWeight adjL bw p = some de ∧
      ∀ q w, q.head? = some s → q.getLast? = some d →
        pathWeight adjL bw q = some w → de ≤ w := by
  obtain ⟨p, de, hd, hh, hl, hpw, _, hmin⟩ :=
    dijkstra_reach (nonneg_of_lc hlc) hreach
  refine ⟨p, de, hd, hh, hl, hpw, ?_⟩
  intro q w hqh hql hqw
  obtain ⟨es, _, hsum, hreal⟩ := selEdges_of_pathWeight hqw
  rw [hsum]
  exact hmin _ (selReal_walkW hreal hqh hql bw)

/-- Witness for C1 on the one-edge graph `adjC1`. -/
theorem C1_dijkstra_shortest_path_witness :
    (∀ u v len cost, HasEdge adjC1 u v len cost → 0 ≤ len ∧ 0 ≤ cost) ∧
    HasWalk adjC1 0 1 ∧
    (∃ p de, dijkstra (fun _ => false) adjC1 0 1 1 = some p ∧
      p.head? = some 0 ∧
      p.getLast? = some 1 ∧ pathWeight adjC1 1 p = some de ∧
      ∀ q w, q.head? = some 0 → q.getLast? = some 1 →
        pathWeight adjC1 1 q = some w → de ≤ w) := by
  have hlc : ∀ u v len cost, HasEdge adjC1 u v len cost → 0 ≤ len ∧ 0 ≤ cost :=
    lc_of_list (by decide)
  have hreach : HasWalk adjC1 0 1 :=
    HasWalk.cons (HasWalk.nil 0) ⟨1, 0, [(1, 1, 0)], rfl, by decide⟩
  exact ⟨hlc, hreach, C1_dijkstra_shortest_path hlc hreach⟩

/-- C2.  With `barrierWeight < 0.01` every relaxed edge weighs its length,
so the returned path's total weight is its total (stats-reported) length;
and that length is at most the stats-reported length of the path returned
for the same endpoints at any other barrier weight. -/
theorem C2_small_bw_weight_is_length {adjL : List (α × List (α × ℚ × ℚ))}
    {s d : α} {bw₁ bw₂ : ℚ}
    (hlc : ∀ u v len cost, HasEdge adjL u v len cost → 0 ≤ len ∧ 0 ≤ cost)
    (hreach : HasWalk adjL s d) (hsmall : bw₁ < 0.01) :
    ∃ p₁ p₂ es₁ es₂,
      dijkstra (fun _ => false) adjL s d bw₁ = some p₁ ∧
      dijkstra (fun _ => false) adjL s d bw₂ = some p₂ ∧
      pathWeight adjL bw₁ p₁ = some (lenSum es₁) ∧
      computeRouteStats adjL bw₁ p₁ =
        some ⟨lenSum es₁, costSum es₁, countPos es₁⟩ ∧
      computeRouteStats adjL bw₂ p₂ =
        some ⟨lenSum es₂, costSum es₂, countPos es₂⟩ ∧
      lenSum es₁ ≤ lenSum es₂ := by
  obtain ⟨p₁, p₂, es₁, es₂, hd₁, hd₂, hes₁, hes₂, hst₁, hst₂, hpw₁, hpw₂,
    hx₁, hx₂⟩ := @dijkstra_pair α _ adjL s d bw₁ bw₂ hlc hreach
  refine ⟨p₁, p₂, es₁, es₂, hd₁, hd₂, ?_, hst₁, hst₂, ?_⟩
  · rw [← wSum_small hsmall es₁]
    exact hpw₁
  · rw [wSum_small hsmall es₁, wSum_small hsmall es₂] at hx₁
    exact hx₁

/-- Witness for C2 on `adjC1` with `bw₁ = 0`, `bw₂ = 5`. -/
theorem C2_small_bw_weight_is_length_witness :
    (∀ u v len cost, HasEdge adjC1 u v len cost → 0 ≤ len ∧ 0 ≤ cost) ∧
    HasWalk adjC1 0 1 ∧ (0 : ℚ) < 0.01 ∧
    (∃ p₁ p₂ es₁ es₂,
      dijkstra (fun _ => false) adjC1 0 1 0 = some p₁ ∧
      dijkstra (fun _ => false) adjC1 0 1 5 = some p₂ ∧
      pathWeight adjC1 0 p₁ = some (lenSum es₁) ∧
      computeRouteStats adjC1 0 p₁ =
        some ⟨lenSum es₁, costSum es₁, countPos es₁⟩ ∧
      computeRouteStats adjC1 5 p₂ =
        some ⟨lenSum es₂, costSum es₂, countPos es₂⟩ ∧
      lenSum es₁ ≤ lenSum es₂) := by
  have hlc : ∀ u v len cost, HasEdge adjC1 u v len cost → 0 ≤ len ∧ 0 ≤ cost :=
    lc_of_list (by decide)
  have hreach : HasWalk adjC1 0 1 :=
    HasWalk.cons (HasWalk.nil 0) ⟨1, 0, [(1, 1, 0)], rfl, by decide⟩
  have hsmall : (0 : ℚ) < 0.01 := by norm_num
  exact ⟨hlc, hreach, hsmall,
    C2_small_bw_weight_is_length hlc hreach hsmall⟩

/-- C3 (amended).  As the barrier weight strictly increases from a
nonnegative value, the returned route's total severity penalty
`Σ accCost^1.5` over the selected edges (`selPenalty`) is non-increasing and
its stats-reported total length is non-decreasing.  (The original claim's
raw total accessibility cost `Σ accCost` is refuted by
`C3_monotonicity_counterexample`.) -/
theorem C3_monotonicity_amended {adjL : List (α × List (α × ℚ × ℚ))}
    {s d : α} {bw₁ bw₂ : ℚ}
    (hlc : ∀ u v len cost, HasEdge adjL u v len cost → 0 ≤ len ∧ 0 ≤ cost)
    (hreach : HasWalk adjL s d) (h0 : 0 ≤ bw₁) (h12 : bw₁ < bw₂) :
    ∃ p₁ p₂ es₁ es₂,
      dijkstra (fun _ => false) adjL s d bw₁ = some p₁ ∧
      dijkstra (fun _ => false) adjL s d bw₂ = some p₂ ∧
      selEdges adjL bw₁ p₁ = some es₁ ∧ selEdges adjL bw₂ p₂ = some es₂ ∧
      computeRouteStats adjL bw₁ p₁ =
        some ⟨lenSum es₁, costSum es₁, countPos es₁⟩ ∧
      computeRouteStats adjL bw₂ p₂ =
        some ⟨lenSum es₂, costSum es₂, countPos es₂⟩ ∧
      selPenalty adjL bw₁ p₁ = some (penSum es₁) ∧
      selPenalty adjL bw₂ p₂ = some (penSum es₂) ∧
      lenSum es₁ ≤ lenSum es₂ ∧ penSum es₂ ≤ penSum es₁ := by
  obtain ⟨p₁, p₂, es₁, es₂, hd₁, hd₂, hes₁, hes₂, hst₁, hst₂, hpw₁, hpw₂,
    hx₁, hx₂⟩ := @dijkstra_pair α _ adjL s d bw₁ bw₂ hlc hreach
  have hsp₁ : selPenalty adjL bw₁ p₁ = some (penSum es₁) := by
    unfold selPenalty
    rw [hes₁]
    rfl
  have hsp₂ : selPenalty adjL bw₂ p₂ = some (penSum es₂) := by
    unfold selPenalty
    rw [hes₂]
    rfl
  by_cases hb₁ : bw₁ < 0.01
  · by_cases hb₂ : bw₂ < 0.01
    · have hE := edgeWeight_small_congr hb₁ hb₂
      obtain rfl : p₁ = p₂ := by
        have h := @dijkstra_congr α _ adjL bw₁ bw₂ hE (fun _ => false) s d
        rw [hd₁, hd₂] at h
        simpa using h
      obtain rfl : es₁ = es₂ := by
        have h := @selEdges_congr α _ adjL bw₁ bw₂ hE p₁
        rw [hes₁, hes₂] at h
        simpa using h
      exact ⟨p₁, p₁, es₁, es₁, hd₁, hd₂, hes₁, hes₂, hst₁, hst₂, hsp₁, hsp₂,
        le_refl _, le_refl _⟩
    · have hL : lenSum es₁ ≤ lenSum es₂ := by
        rw [wSum_small hb₁ es₁, wSum_small hb₁ es₂] at hx₁
        exact hx₁
      have hbw₂pos : 0 < bw₂ :=
        lt_of_lt_of_le (by norm_num) (not_lt.mp hb₂)
      have hP : penSum es₂ ≤ penSum es₁ := by
        rw [wSum_split hb₂ es₂, wSum_split hb₂ es₁] at hx₂
        have hmul : bw₂ * penSum es₂ ≤ bw₂ * penSum es₁ := by linarith
        exact le_of_mul_le_mul_left hmul hbw₂pos
      exact ⟨p₁, p₂, es₁, es₂, hd₁, hd₂, hes₁, hes₂, hst₁, hst₂, hsp₁, hsp₂,
        hL, hP⟩
  · have hb₂ : ¬bw₂ < 0.01 := fun h => hb₁ (h12.trans h)
    rw [wSum_split hb₁ es₁, wSum_split hb₁ es₂] at hx₁
    rw [wSum_split hb₂ es₂, wSum_split hb₂ es₁] at hx₂
    have hP : penSum es₂ ≤ penSum es₁ := by
      by_contra hc
      push_neg at hc
      have h1 : 0 < (bw₂ - bw₁) * (penSum es₂ - penSum es₁) :=
        mul_pos (by linarith) (by linarith)
      have hexp : (bw₂ - bw₁) * (penSum es₂ - penSum es₁) =
          (bw₂ * penSum es₂ - bw₂ * penSum es₁) +
            (bw₁ * penSum es₁ - bw₁ * penSum es₂) := by ring
      linarith
    have hL : lenSum es₁ ≤ lenSum es₂ := by
      have hmul : bw₁ * penSum es₂ ≤ bw₁ * penSum es₁ :=
        mul_le_mul_of_nonneg_left hP h0
      linarith
    exact ⟨p₁, p₂, es₁, es₂, hd₁, hd₂, hes₁, hes₂, hst₁, hst₂, hsp₁, hsp₂,
      hL, hP⟩

/-- Counterexample to C3 as stated: on `adjC3` the barrier weight rising
from `0` to `2` moves the route from the direct edge (raw cost `4`) to the
detour (raw cost `507/100 > 4`): the stats-recomputed total accessibility
cost increases. -/
theorem C3_monotonicity_counterexample :
    dijkstra (fun _ => false) adjC3 0 3 0 = some [0, 3] ∧
    dijkstra (fun _ => false) adjC3 0 3 2 = some [0, 1, 2, 3] ∧
    computeRouteStats adjC3 0 [0, 3] = some ⟨1, 4, 1⟩ ∧
    computeRouteStats adjC3 2 [0, 1, 2, 3] = some ⟨3, 507/100, 3⟩ ∧
    ¬((507 : ℚ) / 100 ≤ 4) := by
  refine ⟨?_, ?_, ?_, ?_, by norm_num⟩
  · with_unfolding_all rfl
  · with_unfolding_all rfl
  · with_unfolding_all rfl
  · with_unfolding_all rfl

/-- Witness for the amended C3 on `adjC3` with `bw₁ = 0`, `bw₂ = 2`. -/
theorem C3_monotonicity_witness :
    (∀ u v len cost, HasEdge adjC3 u v len cost → 0 ≤ len ∧ 0 ≤ cost) ∧
    HasWalk adjC3 0 3 ∧ (0 : ℚ) ≤ 0 ∧ (0 : ℚ) < 2 ∧
    (∃ p₁ p₂ es₁ es₂,
      dijkstra (fun _ => false) adjC3 0 3 0 = some p₁ ∧
      dijkstra (fun _ => false) adjC3 0 3 2 = some p₂ ∧
      selEdges adjC3 0 p₁ = some es₁ ∧ selEdges adjC3 2 p₂ = some es₂ ∧
      computeRouteStats adjC3 0 p₁ =
        some ⟨lenSum es₁, costSum es₁, countPos es₁⟩ ∧
      computeRouteStats adjC3 2 p₂ =
        some ⟨lenSum es₂, costSum es₂, countPos es₂⟩ ∧
      selPenalty adjC3 0 p₁ = some (penSum es₁) ∧
      selPenalty adjC3 2 p₂ = some (penSum es₂) ∧
      lenSum es₁ ≤ lenSum es₂ ∧ penSum es₂ ≤ penSum es₁) := by
  have hlc : ∀ u v len cost, HasEdge adjC3 u v len cost → 0 ≤ len ∧ 0 ≤ cost :=
    lc_of_list (by with_unfolding_all decide)
  have hreach : HasWalk adjC3 0 3 :=
    HasWalk.cons (HasWalk.nil 0) ⟨1, 4, [(3, 1, 4), (1, 1, 169/100)], rfl,
      by decide⟩
  have h0 : (0 : ℚ) ≤ 0 := le_refl 0
  have h12 : (0 : ℚ) < 2 := by norm_num
  exact ⟨hlc, hreach, h0, h12, C3_monotonicity_amended hlc hreach h0 h12⟩

/-- C4.  For every adjacency table, node `a` and barrier weight,
`dijkstra(a, a, bw)` returns the single-node path `[a]` (never a
no-path `null`), whose statistics are all zero and whose geometry is the
`null` of a short path. -/
theorem C4_self_route_trivial_path (adjL : List (α × List (α × ℚ × ℚ)))
    (a : α) (bw : ℚ) (nodesL : List (α × ℚ × ℚ))
    (geomL : List ((α × α) × List (ℚ × ℚ))) :
    dijkstra (fun _ => false) adjL a a bw = some [a] ∧
    computeRouteStats adjL bw [a] = some ⟨0, 0, 0⟩ ∧
    pathToGeoJSON nodesL geomL (some [a]) = none :=
  ⟨dijkstra_self adjL a bw, rfl, rfl⟩

/-- C5.  On a loaded graph, when the snapped endpoints are distinct and the
destination is unreachable from the origin, the search terminates with
`null` and `calculateRoute` throws exactly the no-path error. -/
theorem C5_no_path_reported {g : GraphState} {slat slng elat elng bw : ℚ}
    {sN eN : Option String}
    (hsn : findNearestNode g slat slng = sN)
    (hen : findNearestNode g elat elng = eN) (hne : sN ≠ eN)
    (hnr : ¬HasWalk (liftAdj g.adj) sN eN) :
    dijkstra (fun x => x.isNone) (liftAdj g.adj) sN eN bw = none ∧
    calculateRoute (some g) slat slng elat elng bw =
      .error .noPathFound := by
  have hdij := dijkstra_unreach (fun x => x.isNone) hnr hne bw
  refine ⟨hdij, ?_⟩
  simp only [calculateRoute, hsn, hen, hdij]

/-- Witness for C5 on the loaded two-node edgeless graph `gC5`. -/
theorem C5_no_path_reported_witness :
    findNearestNode gC5 0 0 = some "a" ∧
    findNearestNode gC5 1 1 = some "b" ∧
    (some "a" ≠ some "b") ∧
    ¬HasWalk (liftAdj gC5.adj) (some "a") (some "b") ∧
    (dijkstra (fun x => x.isNone) (liftAdj gC5.adj) (some "a") (some "b") 1 =
        none ∧
      calculateRoute (some gC5) 0 0 1 1 1 = .error .noPathFound) := by
  have hsn : findNearestNode gC5 0 0 = some "a" := by with_unfolding_all rfl
  have hen : findNearestNode gC5 1 1 = some "b" := by with_unfolding_all rfl
  have hne : (some "a" : Option String) ≠ some "b" := by decide
  have hnr : ¬HasWalk (liftAdj gC5.adj) (some "a") (some "b") := by
    intro hw
    have h := hasWalk_no_edges (hasEdge_no_edges (by decide)) hw
    exact hne h
  exact ⟨hsn, hen, hne, hnr, C5_no_path_reported hsn hen hne hnr⟩

/-- C6.  For a path of at least two nodes each of whose consecutive pairs
has stored forward geometry with matching endpoint coordinates and no two
consecutive duplicate points, `pathToGeoJSON` produces a coordinate
sequence that starts at the origin node's (swapped) coordinate, ends at
the destination node's (swapped) coordinate, and has no two consecutive
duplicate points. -/
theorem C6_geometry_roundtrip {nodesL : List (α × ℚ × ℚ)}
    {geomL : List ((α × α) × List (ℚ × ℚ))} {p : List α}
    (hlen : 2 ≤ p.length) (hOK : PathGeoOK nodesL geomL p)
    {u last : α} {cu clast : ℚ × ℚ}
    (hu : p.head? = some u) (hcu : alookup nodesL u = some cu)
    (hl : p.getLast? = some last) (hcl : alookup nodesL last = some clast) :
    ∃ coords, pathToGeoJSON nodesL geomL (some p) = some coords ∧
      coords.head? = some (swapPair cu) ∧
      coords.getLast? = some (swapPair clast) ∧
      List.Chain' (fun a b => a ≠ b) coords :=
  geo_roundtrip hlen hOK hu hcu hl hcl

/-- Witness for C6 on a two-node path with one stored geometry. -/
theorem C6_geometry_roundtrip_witness :
    2 ≤ ([0, 1] : List ℕ).length ∧
    PathGeoOK [(0, ((0 : ℚ), (0 : ℚ))), (1, (1, 1))]
      [((0, 1), [(0, 0), (5, 5), (1, 1)])] [0, 1] ∧
    (∃ coords, pathToGeoJSON [(0, ((0 : ℚ), (0 : ℚ))), (1, (1, 1))]
        [((0, 1), [(0, 0), (5, 5), (1, 1)])] (some [0, 1]) = some coords ∧
      coords.head? = some (swapPair (0, 0)) ∧
      coords.getLast? = some (swapPair (1, 1)) ∧
      List.Chain' (fun a b => a ≠ b) coords) := by
  have hlen : 2 ≤ ([0, 1] : List ℕ).length := by decide
  have hOK : PathGeoOK [(0, ((0 : ℚ), (0 : ℚ))), (1, (1, 1))]
      [((0, 1), [(0, 0), (5, 5), (1, 1)])] [0, 1] :=
    ⟨⟨[(0, 0), (5, 5), (1, 1)], (0, 0), (1, 1), rfl, rfl, rfl, rfl, rfl,
      List.Chain.cons (by with_unfolding_all decide)
        (List.Chain.cons (by with_unfolding_all decide) List.Chain.nil)⟩,
      trivial⟩
  exact ⟨hlen, hOK,
    C6_geometry_roundtrip hlen hOK rfl rfl rfl rfl⟩

/-- C7.  For each consecutive pair of a path, `computeRouteStats` selects
among the parallel edges the one of minimum computed weight, adds its
length and accessibility cost to the totals, and bumps the barrier count
exactly when the selected cost is positive. -/
theorem C7_stats_parallel_selection (adjL : List (α × List (α × ℚ × ℚ)))
    (bw : ℚ) (u v : α) (rest : List α) (ns : List (α × ℚ × ℚ))
    (hns : alookup adjL u = some ns) (totL totC : ℚ) (totN : ℕ) :
    statsGo adjL bw (u :: v :: rest) totL totC totN =
      statsGo adjL bw (v :: rest) (totL + (bestFor bw v ns).2.1)
        (totC + (bestFor bw v ns).2.2)
        (totN + if 0 < (bestFor bw v ns).2.2 then 1 else 0) ∧
    ((bestFor bw v ns = (none, 0, 0) ∧ ∀ e ∈ ns, e.1 ≠ v) ∨
      ∃ len cost,
        bestFor bw v ns = (some (edgeWeight bw len cost), len, cost) ∧
        (v, len, cost) ∈ ns ∧
        ∀ e ∈ ns, e.1 = v →
          edgeWeight bw len cost ≤ edgeWeight bw e.2.1 e.2.2) := by
  constructor
  · simp [statsGo, hns]
  · exact bestFor_spec bw v ns

/-- Witness for C7 on the parallel-edge table `adjC7`. -/
theorem C7_stats_parallel_selection_witness :
    alookup adjC7 0 = some [(1, 2, 0), (1, 1, 1)] ∧
    (statsGo adjC7 1 [0, 1] 0 0 0 =
      statsGo adjC7 1 [1] (0 + (bestFor 1 1 [(1, 2, 0), (1, 1, 1)]).2.1)
        (0 + (bestFor 1 1 [(1, 2, 0), (1, 1, 1)]).2.2)
        (0 + if 0 < (bestFor 1 1 [(1, 2, 0), (1, 1, 1)]).2.2 then 1 else 0) ∧
    ((bestFor 1 1 [(1, 2, 0), (1, 1, 1)] = (none, 0, 0) ∧
        ∀ e ∈ [((1 : ℕ), (2 : ℚ), (0 : ℚ)), (1, 1, 1)], e.1 ≠ 1) ∨
      ∃ len cost, bestFor 1 1 [(1, 2, 0), (1, 1, 1)] =
          (some (edgeWeight 1 len cost), len, cost) ∧
        (1, len, cost) ∈ [((1 : ℕ), (2 : ℚ), (0 : ℚ)), (1, 1, 1)] ∧
        ∀ e ∈ [((1 : ℕ), (2 : ℚ), (0 : ℚ)), (1, 1, 1)], e.1 = 1 →
          edgeWeight 1 len cost ≤ edgeWeight 1 e.2.1 e.2.2)) := by
  have hns : alookup adjC7 0 = some [(1, 2, 0), (1, 1, 1)] := rfl
  exact ⟨hns, C7_stats_parallel_selection adjC7 1 0 1 [] _ hns 0 0 0⟩

/-- C8 (amended).  `loadGraph` throws no `GraphFormatError` (the code has
none): with both required fields present it always succeeds — an edge whose
source node is unknown is silently dropped (its key never exists in the
adjacency table), one to an unknown target is kept
(`C8_load_counterexample`) — and a missing required field surfaces as a
`TypeError`, not a format error. -/
theorem C8_load_no_format_error (cosFn : ℚ → ℚ)
    (nodesL : List (String × ℚ × ℚ))
    (edges : List (String × String × ℚ × ℚ))
    (geom : Option (List ((String × String) × List (ℚ × ℚ)))) :
    (∃ g, loadGraph cosFn ⟨some nodesL, some edges, geom⟩ = .ok g ∧
      g.nodes = nodesL ∧
      ∀ u, u ∉ nodesL.map Prod.fst → alookup g.adj u = none) ∧
    loadGraph cosFn ⟨none, some edges, geom⟩ = .error .typeError ∧
    loadGraph cosFn ⟨some nodesL, none, geom⟩ = .error .typeError := by
  refine ⟨⟨_, rfl, rfl, ?_⟩, rfl, rfl⟩
  intro u hu
  apply alookup_none_of_not_mem_keys
  rw [foldl_adjAppend_keys]
  simpa using hu

/-- Counterexample to C8 as stated: an artifact whose edge list references
the unknown ids `"zzz"` (as target) and `"ghost"` (as source) loads
successfully — no error of any kind — keeping the edge to `"zzz"` and
silently dropping the edge from `"ghost"`. -/
theorem C8_load_counterexample :
    loadGraph (fun _ => 1)
      ⟨some [("a", 0, 0)],
        some [("a", "zzz", 1, 2), ("ghost", "a", 3, 4)], none⟩ =
      .ok { nodes := [("a", 0, 0)], adj := [("a", [("zzz", 1, 2)])],
            edgeGeom := [], nodeIds := ["a"], nodeLats := [0],
            nodeLngs := [0], cosLat := 1 } := rfl

/-- C9 (amended).  On a loaded graph with zero nodes there is no
`EmptyGraph` error: `findNearestNode` returns `undefined`, both searches
run and "succeed" with the empty path `[]` (the reconstruction loop's
`current !== undefined` guard fails immediately at the `undefined`
endpoint), and the query only fails afterwards with a `TypeError` while
building the snapped coordinates. -/
theorem C9_empty_graph_no_error (g : GraphState) (hids : g.nodeIds = [])
    (lat lng slat slng elat elng bw : ℚ) :
    findNearestNode g lat lng = none ∧
    dijkstra (fun x => x.isNone) (liftAdj g.adj) none none bw = some [] ∧
    calculateRoute (some g) slat slng elat elng bw = .error .typeError := by
  have hfn : ∀ la ln : ℚ, findNearestNode g la ln = none := by
    intro la ln
    unfold findNearestNode
    rw [hids]
    simp
  have hds : ∀ b : ℚ, dijkstra (fun x : Option String => x.isNone)
      (liftAdj g.adj) none none b = some [] := fun b =>
    dijkstra_self_undef (liftAdj g.adj) none b rfl
  refine ⟨hfn lat lng, hds bw, ?_⟩
  simp only [calculateRoute, hfn, hds, computeRouteStats, statsGo,
    Option.none_bind]

/-- Counterexample to C9 as stated: the zero-node artifact loads to
`gEmpty`; `findNearestNode` then yields a value (`undefined`), not an
error; the search runs and returns the empty path; and the route query
fails with a `TypeError` — not with an `EmptyGraph` error before the
search (no such error exists in the code). -/
theorem C9_empty_graph_counterexample :
    loadGraph (fun _ => 1) ⟨some [], some [], none⟩ = .ok gEmpty ∧
    findNearestNode gEmpty 0 0 = none ∧
    dijkstra (fun x => x.isNone) (liftAdj gEmpty.adj) none none 1 =
      some [] ∧
    calculateRoute (some gEmpty) 0 0 1 1 1 = .error .typeError ∧
    JsError.typeError ≠ JsError.noPathFound ∧
    JsError.typeError ≠ JsError.graphNotLoaded := by
  exact ⟨rfl, rfl, rfl, rfl, by decide, by decide⟩

/-- Witness for the amended C9 on `gEmpty`. -/
theorem C9_empty_graph_witness :
    gEmpty.nodeIds = [] ∧
    (findNearestNode gEmpty 2 3 = none ∧
      dijkstra (fun x => x.isNone) (liftAdj gEmpty.adj) none none 1 =
        some [] ∧
      calculateRoute (some gEmpty) 2 3 4 5 1 = .error .typeError) := by
  have hids : gEmpty.nodeIds = [] := rfl
  exact ⟨hids, C9_empty_graph_no_error gEmpty hids 2 3 2 3 4 5 1⟩

/-- C10.  Before `loadGraph` completes (module state still `null`),
`calculateRoute` fails immediately with the graph-not-loaded error — the
whole call reduces to that error, so no nearest-node lookup and no search
happens. -/
theorem C10_not_loaded_error (slat slng elat elng bw : ℚ) :
    calculateRoute none slat slng elat elng bw = .error .graphNotLoaded :=
  rfl

end SeattleAccessMap
